import Mathlib

/-!
Verification of the parallel SAT solver (watched-literal DPLL with
per-component backtracking) from the HPMC depletant subsystem.

The development shallowly embeds the device functions of `SATSolver`:
`update_watchlist`, `is_unit`, `kernel::solve_sat`, `kernel::setup_watch_list`,
`kernel::initialize_components`, `kernel::find_dependencies`, and the host
functions `identify_connected_components` and `gpu::solve_sat`.

Machine integers are modelled as `Nat`; the reserved sentinel is the
all-ones 32-bit word.  Arrays are modelled as total functions `Nat → Nat`
with pointwise update; loops with data-dependent exit conditions are given
explicit fuel and return `Option`, while loops whose variant is visible in
the source (the representative chase, the backtrack unwind) are structural.
The GPU grid is sequentialized: one thread after another, which is faithful
to the code's own independence discipline (one worker per component).
-/

namespace SAT

/-- The reserved sentinel value: the kernels initialise the watch, next and
head arrays with `memset 0xff`, so the sentinel is the all-ones 32-bit word. -/
def SAT_sentinel : Nat := 2 ^ 32 - 1

/-- Pointwise array update, the model of `a[i] = v`. -/
def upd (f : Nat → Nat) (i v : Nat) : Nat → Nat :=
  fun x => if x = i then v else f x

/-- Array built from a list, reads out of range give the sentinel
(the clause store is sentinel-padded). -/
def ofList (xs : List Nat) : Nat → Nat :=
  fun i => xs.getD i SAT_sentinel

/-- The test `d_assignment[v] == SAT_sentinel || d_assignment[v] == a ^ 1`
from `update_watchlist` and `is_unit`.  In C++ `==` binds tighter than `^`,
so the second disjunct is `(d_assignment[v] == a) ^ 1`, i.e. the literal's
variable is not assigned the falsifying polarity.  The literal `l` is
"unassigned or true" exactly when this holds. -/
def litNonFalse (asg : Nat → Nat) (l : Nat) : Bool :=
  asg (l >>> 1) == SAT_sentinel || !(asg (l >>> 1) == (l &&& 1))

/-! ## The representative chase of `kernel::initialize_components`

`unsigned int next, vstat = d_component_ptr[node_idx];
 while (vstat > (next = d_component_ptr[vstat])) { vstat = next; }`
-/

/-- The label chase: follow `d_component_ptr` while the next label is
strictly smaller than the current one. -/
def findRep (ptr : Nat → Nat) (vstat : Nat) : Nat :=
  if ptr vstat < vstat then findRep ptr (ptr vstat) else vstat
termination_by vstat
decreasing_by exact by assumption

/-- Number of loop iterations performed by the label chase started at `vstat`. -/
def findRepSteps (ptr : Nat → Nat) (vstat : Nat) : Nat :=
  if ptr vstat < vstat then findRepSteps ptr (ptr vstat) + 1 else 0
termination_by vstat
decreasing_by exact by assumption

/-- The label chase again, with explicit structural fuel; fuel `vstat`
always suffices because the followed labels strictly decrease.  This is
the executable twin of `findRep` (proved equal in `findRepFuel_eq`). -/
def findRepFuel (ptr : Nat → Nat) : Nat → Nat → Nat
  | v, 0 => v
  | v, fuel+1 => if ptr v < v then findRepFuel ptr (ptr v) fuel else v

/-! ## Solver state

One record holds every device array touched by the kernels, together with
the per-worker register variables `h`, `t`, `d` of `kernel::solve_sat` and
the global atomics `unsat` (`d_unsat`) and `heap` (`d_heap`).  The ghost
fields `failed`, `maxD`, `curStart`, `curN` record, without influencing any
computation, whether some `update_watchlist` call returned false, the
largest value taken by the stack index `d`, and the scratch range allocated
to the most recent component. -/

structure SState where
  watch : Nat → Nat
  nextClause : Nat → Nat
  next : Nat → Nat
  head : Nat → Nat
  assignment : Nat → Nat
  dh : Nat → Nat
  dstate : Nat → Nat
  rep : Nat → Nat
  h : Nat
  t : Nat
  d : Nat
  unsat : Nat
  heap : Nat
  failed : Bool
  maxD : Nat
  curStart : Nat
  curN : Nat

/-! ## `update_watchlist`

`__device__ bool update_watchlist(false_literal, d_watch, d_next_clause,
d_literals, d_assignment, d_next, h, t)`: pop every clause from the watch
list of the newly false literal and re-watch each at its first literal that
is unassigned or true; a variable that was watched nowhere and acquires a
watch is spliced in at the ring head.  Returns false when some clause has
no alternative. -/

/-- The inner scan `alternative = d_literals[j++]` looking for the first
literal that is unassigned or true; `some none` means the sentinel was
reached with no alternative. -/
def findAlt (lits asg : Nat → Nat) : Nat → Nat → Option (Option Nat)
  | _, 0 => none
  | j, fuel+1 =>
    if lits j = SAT_sentinel then some none
    else if litNonFalse asg (lits j) then some (some (lits j))
    else findAlt lits asg (j+1) fuel

/-- Lines 64-77 of the kernel file: if the alternative's variable is
unassigned and watched nowhere, splice it in just after `t` (or start a
fresh one-element ring). -/
def ringInsert (st : SState) (v : Nat) : SState :=
  if st.assignment v = SAT_sentinel ∧ st.watch (2*v) = SAT_sentinel ∧
      st.watch (2*v+1) = SAT_sentinel then
    if st.t = SAT_sentinel then
      { st with t := v, h := v, next := upd st.next v v }
    else
      { st with next := upd (upd st.next v st.h) st.t v, h := v }
  else st

/-- The loop over the clauses watching the false literal.  On a clause with
no alternative the function returns `false` immediately, leaving the rest
of the popped list unprocessed, exactly as the source does. -/
def uwLoop (lits : Nat → Nat) : Nat → SState → Nat → Option (SState × Bool)
  | _, _, 0 => none
  | c, st, fuel+1 =>
    if c = SAT_sentinel then some (st, true)
    else
      let nxt := st.nextClause c
      match findAlt lits st.assignment c (fuel+1) with
      | none => none
      | some none => some (st, false)
      | some (some alt) =>
        let st1 := ringInsert st (alt >>> 1)
        let st2 := { st1 with
          nextClause := upd st1.nextClause c (st1.watch alt)
          watch := upd st1.watch alt c }
        uwLoop lits nxt st2 fuel

/-- `update_watchlist`: detach the false literal's list, then migrate it. -/
def updateWatchlist (lits : Nat → Nat) (falseLit : Nat) (st : SState) (fuel : Nat) :
    Option (SState × Bool) :=
  uwLoop lits (st.watch falseLit)
    { st with watch := upd st.watch falseLit SAT_sentinel } fuel

/-! ## `is_unit`

`__device__ bool is_unit(literal, d_watch, d_next_clause, d_literals,
d_assignment)`: true when some clause watching `literal` has every literal
other than `literal` currently false. -/

/-- The inner clause scan of `is_unit`: walk the clause from `j`, skipping
occurrences of the watched literal; `some true` when the sentinel is
reached with every other literal false. -/
def clauseUnitScan (lits asg : Nat → Nat) (literal : Nat) : Nat → Nat → Option Bool
  | _, 0 => none
  | j, fuel+1 =>
    if lits j = SAT_sentinel then some true
    else if lits j = literal then clauseUnitScan lits asg literal (j+1) fuel
    else if litNonFalse asg (lits j) then some false
    else clauseUnitScan lits asg literal (j+1) fuel

/-- The outer loop of `is_unit` over the clauses watching `literal`. -/
def isUnitLoop (lits asg nextClause : Nat → Nat) (literal : Nat) : Nat → Nat → Option Bool
  | _, 0 => none
  | c, fuel+1 =>
    if c = SAT_sentinel then some false
    else
      match clauseUnitScan lits asg literal c (fuel+1) with
      | none => none
      | some true => some true
      | some false => isUnitLoop lits asg nextClause literal (nextClause c) fuel

/-- `is_unit` itself. -/
def is_unit (lits watch nextClause asg : Nat → Nat) (literal fuel : Nat) : Option Bool :=
  isUnitLoop lits asg nextClause literal (watch literal) fuel

/-! ## The search loop of `kernel::solve_sat` -/

/-- Outcome of the inner do-while scan for units: `unit f` with the move
code `f` (1 = positive literal unit, 2 = negative literal unit), a
conflict (`f = 3`), or a full traversal with no unit. -/
inductive ScanKind where
  | unit (f : Nat)
  | conflict
  | nounit
deriving Repr, DecidableEq

/-- Result of the scan: the kind together with the final values of the
kernel's local variables `h` and `k`. -/
structure ScanOut where
  kind : ScanKind
  hv : Nat
  kv : Nat
deriving Repr, DecidableEq

/-- The do-while loop at lines 193-228: walk the ring from `k = t`,
computing `is_unit` for both polarities of each ring variable. -/
def scanLoop (lits : Nat → Nat) (st : SState) : Nat → Nat → Option ScanOut
  | _, 0 => none
  | k, fuel+1 =>
    let hv := st.next k
    match is_unit lits st.watch st.nextClause st.assignment (2*hv) (fuel+1),
          is_unit lits st.watch st.nextClause st.assignment (2*hv+1) (fuel+1) with
    | some u1, some u2 =>
      let f := (if u1 then 1 else 0) + (if u2 then 2 else 0)
      if f = 1 ∨ f = 2 then some ⟨ScanKind.unit f, hv, k⟩
      else if f = 3 then some ⟨ScanKind.conflict, hv, k⟩
      else if hv = st.t then some ⟨ScanKind.nounit, hv, hv⟩
      else scanLoop lits st hv fuel
    | _, _ => none

/-- Lines 241-251: `d_h[d++] = k = h`, then delete `k` from the ring
(or empty the ring when it was the last variable).  Returns the new state
and the committed variable `k`. -/
def commitMove (st : SState) (hv : Nat) : SState × Nat :=
  let k := hv
  let st1 := { st with
    dh := upd st.dh st.d k
    d := st.d + 1
    maxD := max st.maxD (st.d + 1) }
  if st1.t = k then ({ st1 with t := SAT_sentinel }, k)
  else ({ st1 with next := upd st1.next st1.t (st1.next k), h := st1.next k }, k)

/-- Lines 285-295: set the assignment from the move code
(`b = (d_state[d-1] + 1) & 1`) and migrate the watch list of the literal
the assignment falsifies.  The boolean returned by `update_watchlist` is
discarded by the source; the ghost field `failed` records it. -/
def commitTail (lits : Nat → Nat) (st : SState) (k fuel : Nat) : Option SState :=
  match updateWatchlist lits (2*k + ((st.dstate (st.d - 1) + 1) &&& 1))
      { st with assignment := upd st.assignment k ((st.dstate (st.d - 1) + 1) &&& 1) }
      fuel with
  | none => none
  | some (st2, ok) => some { st2 with failed := st2.failed || !ok }

/-- The backtrack loop at lines 257-269: pop stack entries whose state is
`>= 2`, un-assigning each popped variable and re-inserting it at the ring
head when it is still watched somewhere.  Structural in the gas; gas
`st.d` always suffices because `d` strictly decreases. -/
def unwindBody (st : SState) : SState :=
  if st.watch (2 * st.dh (st.d - 1)) ≠ SAT_sentinel ∨
      st.watch (2 * st.dh (st.d - 1) + 1) ≠ SAT_sentinel then
    { st with
      assignment := upd st.assignment (st.dh (st.d - 1)) SAT_sentinel
      next := upd (upd st.next (st.dh (st.d - 1)) st.h) st.t (st.dh (st.d - 1))
      h := st.dh (st.d - 1)
      d := st.d - 1 }
  else
    { st with
      assignment := upd st.assignment (st.dh (st.d - 1)) SAT_sentinel
      d := st.d - 1 }

def unwind (start : Nat) (st : SState) : Nat → SState
  | 0 => st
  | gas+1 =>
    if start < st.d ∧ 2 ≤ st.dstate (st.d - 1) then
      unwind start (unwindBody st) gas
    else st

/-- Result of one iteration of the outer while-loop: either the search
continues, or the component was found unsatisfiable (`atomicAdd(d_unsat,1)`
followed by `return`). -/
inductive StepRes where
  | cont (st : SState)
  | unsatExit (st : SState)

/-- One full iteration of the `while (true)` loop of `kernel::solve_sat`
(lines 183-296), assuming `t != SAT_sentinel` on entry: scan for units,
then either commit a forced assignment, commit a two-way branch decision,
or backtrack. -/
def stepIter (lits : Nat → Nat) (start : Nat) (st : SState) (fuel : Nat) :
    Option StepRes :=
  match scanLoop lits st st.t fuel with
  | none => none
  | some out =>
    match out.kind with
    | ScanKind.unit f =>
      let st1 := { st with
        dstate := upd st.dstate st.d (f + 3)
        t := out.kv
        h := out.hv }
      let p := commitMove st1 out.hv
      (commitTail lits p.1 p.2 fuel).map StepRes.cont
    | ScanKind.nounit =>
      let hv := st.next st.t
      let code : Nat :=
        if st.watch (2*hv) = SAT_sentinel ∨ st.watch (2*hv+1) ≠ SAT_sentinel
        then 1 else 0
      let st1 := { st with dstate := upd st.dstate st.d code, h := hv }
      let p := commitMove st1 hv
      (commitTail lits p.1 p.2 fuel).map StepRes.cont
    | ScanKind.conflict =>
      let st1 := { st with t := out.kv, h := out.hv }
      let st2 := unwind start st1 st1.d
      if st2.d = start then
        some (StepRes.unsatExit { st2 with unsat := st2.unsat + 1 })
      else
        let st3 := { st2 with
          dstate := upd st2.dstate (st2.d - 1) (3 - st2.dstate (st2.d - 1)) }
        (commitTail lits st3 (st3.dh (st3.d - 1)) fuel).map StepRes.cont

/-- How a component's worker exits its search loop. -/
inductive ExitKind where
  | sat
  | unsat
deriving Repr, DecidableEq

/-- The outer while-loop: exit with SAT when the ring is empty, otherwise
run one iteration. -/
def runLoop (lits : Nat → Nat) (start : Nat) : SState → Nat → Option (SState × ExitKind)
  | _, 0 => none
  | st, fuel+1 =>
    if st.t = SAT_sentinel then some (st, ExitKind.sat)
    else
      match stepIter lits start st (fuel+1) with
      | none => none
      | some (StepRes.unsatExit st') => some (st', ExitKind.unsat)
      | some (StepRes.cont st') => runLoop lits start st' fuel

/-- Lines 166-174: chase `d_next` from the head to find the tail `t` and
the component size `n`. -/
def ringChase (next : Nat → Nat) : Nat → Nat → Nat → Nat → Option (Nat × Nat)
  | _, _, _, 0 => none
  | v, t, n, fuel+1 =>
    if v = SAT_sentinel then some (t, n)
    else ringChase next (next v) v (n+1) fuel

/-- One thread of `kernel::solve_sat`: a no-op unless `node` is its own
component representative; otherwise close the ring, allocate the scratch
range by advancing the shared heap offset, and run the search to an exit. -/
def runNode (lits : Nat → Nat) (node : Nat) (st : SState) (fuel : Nat) :
    Option SState :=
  if st.rep node ≠ node then some st
  else
    let hv := st.head node
    match ringChase st.next hv SAT_sentinel 0 fuel with
    | none => none
    | some (tv, n) =>
      let stA := if tv ≠ SAT_sentinel then { st with next := upd st.next tv hv } else st
      let start := stA.heap
      let stB := { stA with
        heap := stA.heap + n
        h := hv
        t := tv
        d := start
        maxD := max stA.maxD start
        curStart := start
        curN := n }
      match runLoop lits start stB fuel with
      | none => none
      | some (stC, _) => some stC

/-- The kernel grid, sequentialized: threads `node, node+1, ...` for
`nleft` nodes. -/
def solveNodes (lits : Nat → Nat) : Nat → Nat → SState → Nat → Option SState
  | _, 0, st, _ => some st
  | node, nleft+1, st, fuel =>
    match runNode lits node st fuel with
    | none => none
    | some st' => solveNodes lits (node+1) nleft st' fuel

/-! ## `kernel::setup_watch_list`

One thread per variable walks the variable's row of the clause store and,
for the first literal `l` of each clause, links the clause into `l`'s
watch list with a CAS loop.  The CAS loop
`p = atomicCAS(&d_watch[l], sent, c); while (p != sent) p =
atomicCAS(&d_next_clause[p], sent, c);` walks to the end of the list and
installs `c` there: sequentially it is a tail append. -/

/-- The CAS walk after the head was found non-sentinel: follow
`d_next_clause` to the first sentinel link and install `c` there. -/
def wlWalk (nextClause : Nat → Nat) (p c : Nat) : Nat → Option (Nat → Nat)
  | 0 => none
  | fuel+1 =>
    if nextClause p = SAT_sentinel then some (upd nextClause p c)
    else wlWalk nextClause (nextClause p) c fuel

/-- The full CAS insertion of clause `c` into the list with head slot
`head l` and links `link`: install at the head when empty, else append at
the tail.  Also used by `initialize_components` for the per-component
variable list (`d_head` / `d_next`). -/
def wlAppend (head link : Nat → Nat) (l c : Nat) (fuel : Nat) :
    Option ((Nat → Nat) × (Nat → Nat)) :=
  if head l = SAT_sentinel then some (upd head l c, link)
  else (wlWalk link (head l) c fuel).map (fun nc => (head, nc))

/-- The per-row loop of `setup_watch_list` over `i = 0 .. nlit-1`, with the
`first` flag reset after each sentinel. -/
def setupRowAux (maxn : Nat) (lits : Nat → Nat) (tidx : Nat) :
    (Nat → Nat) → (Nat → Nat) → Bool → Nat → Nat → Nat →
    Option ((Nat → Nat) × (Nat → Nat))
  | watch, nc, _, _, 0, _ => some (watch, nc)
  | watch, nc, first, i, cnt+1, fuel =>
    let l := lits (tidx * maxn + i)
    if l = SAT_sentinel then setupRowAux maxn lits tidx watch nc true (i+1) cnt fuel
    else if first then
      match wlAppend watch nc l (tidx * maxn + i) fuel with
      | none => none
      | some (w', nc') => setupRowAux maxn lits tidx w' nc' false (i+1) cnt fuel
    else setupRowAux maxn lits tidx watch nc false (i+1) cnt fuel

/-- The thread grid of `setup_watch_list`, sequentialized over `tidx`. -/
def setupAux (maxn : Nat) (lits nlits : Nat → Nat) :
    (Nat → Nat) → (Nat → Nat) → Nat → Nat → Nat →
    Option ((Nat → Nat) × (Nat → Nat))
  | watch, nc, _, 0, _ => some (watch, nc)
  | watch, nc, tidx, nleft+1, fuel =>
    match setupRowAux maxn lits tidx watch nc true 0 (nlits tidx) fuel with
    | none => none
    | some (w', nc') => setupAux maxn lits nlits w' nc' (tidx+1) nleft fuel

/-- `setup_watch_list` for `n_variables` rows, starting from the
memset-to-sentinel watch and next-clause arrays of `gpu::solve_sat`. -/
def setupWatchList (nvars maxn : Nat) (lits nlits : Nat → Nat) (fuel : Nat) :
    Option ((Nat → Nat) × (Nat → Nat)) :=
  setupAux maxn lits nlits (fun _ => SAT_sentinel) (fun _ => SAT_sentinel) 0 nvars fuel

/-! ## `kernel::initialize_components` -/

/-- One thread of `initialize_components`: chase the component label to its
representative, record it, reset the node's assignment to the sentinel and,
when the node is watched somewhere, append it to its component's list. -/
def initNode (ptr : Nat → Nat) (st : SState) (node fuel : Nat) : Option SState :=
  if st.watch (2*node) ≠ SAT_sentinel ∨ st.watch (2*node+1) ≠ SAT_sentinel then
    match wlAppend st.head st.next (findRepFuel ptr (ptr node) (ptr node)) node fuel with
    | none => none
    | some (hd, nx) => some { st with
        rep := upd st.rep node (findRepFuel ptr (ptr node) (ptr node))
        assignment := upd st.assignment node SAT_sentinel
        head := hd
        next := nx }
  else some { st with
    rep := upd st.rep node (findRepFuel ptr (ptr node) (ptr node))
    assignment := upd st.assignment node SAT_sentinel }

/-- The thread grid of `initialize_components`, sequentialized. -/
def initComponents (ptr : Nat → Nat) : SState → Nat → Nat → Nat → Option SState
  | st, _, 0, _ => some st
  | st, node, nleft+1, fuel =>
    match initNode ptr st node fuel with
    | none => none
    | some st' => initComponents ptr st' (node+1) nleft fuel

/-! ## `kernel::find_dependencies`

One thread per variable walks the variable's row and, for every pair of
consecutive non-sentinel literals, bumps the shared edge counter by 2 and,
when the pair still fits the capacity, writes the bidirectional edge into
the COO arrays. -/

/-- The per-row loop: `prev` carries the previous literal (the sentinel
initially and after each clause end).  Returns the final counter value and
the edges actually written, in write order. -/
def depRowAux (maxn : Nat) (lits : Nat → Nat) (tidx maxe : Nat) :
    Nat → Nat → Nat → List (Nat × Nat) → Nat → Nat × List (Nat × Nat)
  | _, 0, _, acc, count => (count, acc)
  | j, cnt+1, prev, acc, count =>
    let l := lits (tidx * maxn + j)
    if prev ≠ SAT_sentinel ∧ l ≠ SAT_sentinel then
      let v := l >>> 1
      let w := prev >>> 1
      let acc' := if count + 1 < maxe then acc ++ [(v, w), (w, v)] else acc
      depRowAux maxn lits tidx maxe (j+1) cnt l acc' (count + 2)
    else depRowAux maxn lits tidx maxe (j+1) cnt l acc count

/-- The thread grid of `find_dependencies`, sequentialized over rows. -/
def findDepsAux (maxn : Nat) (lits nlits : Nat → Nat) (maxe : Nat) :
    Nat → Nat → List (Nat × Nat) → Nat → Nat × List (Nat × Nat)
  | _, 0, acc, count => (count, acc)
  | tidx, nleft+1, acc, count =>
    let p := depRowAux maxn lits tidx maxe 0 (nlits tidx) SAT_sentinel acc count
    findDepsAux maxn lits nlits maxe (tidx+1) nleft p.2 p.1

/-- `find_dependencies` over all `n_variables` rows, starting from the
zeroed edge counter: the final `d_n_elem` value and the written edge list. -/
def findDeps (nvars maxn : Nat) (lits nlits : Nat → Nat) (maxe : Nat) :
    Nat × List (Nat × Nat) :=
  findDepsAux maxn lits nlits maxe 0 nvars [] 0

/-! ## `identify_connected_components` -/

/-- Modelled from the spec: `ecl_connected_components` lives in
`hoomd/extern/ECL.cuh`, which is not among this repository's sources.  Per
the spec its contract is a total map from variable to the representative of
its connected component under the transitive closure of the edge list.
Here it is realised by `n` rounds of minimum-label propagation along the
(already bidirectional) edge list, starting from the identity labelling. -/
def eclModel (nvars : Nat) (edges : List (Nat × Nat)) : Nat → Nat :=
  let relax : (Nat → Nat) → (Nat → Nat) := fun lab =>
    edges.foldl (fun f e => fun v => if v = e.2 then min (f v) (f e.1) else f v) lab
  Nat.rec (motive := fun _ => Nat → Nat) (fun v => v) (fun _ lab => relax lab) nvars

/-- Result of `identify_connected_components`: the host-side edge count
output parameter `n_elem`, the component label array, and the (untouched)
assignment array.  The assignment array is not even a parameter of the
source function; it is threaded here to state the frame property. -/
structure CCResult where
  n_elem : Nat
  compPtr : Nat → Nat
  assignment : Nat → Nat

/-- `identify_connected_components`: run `find_dependencies`, copy the edge
count back to the host, and return early — before the sort, the CSR build
and the labeling — when it exceeds the capacity, leaving the component
array exactly as it was. -/
def identifyCC (nvars maxn : Nat) (lits nlits : Nat → Nat) (maxe : Nat)
    (compPtr0 asg : Nat → Nat) : CCResult :=
  let p := findDeps nvars maxn lits nlits maxe
  if p.1 > maxe then ⟨p.1, compPtr0, asg⟩
  else ⟨p.1, eclModel nvars p.2, asg⟩

/-! ## `gpu::solve_sat`

The host driver: memset the sentinel into the head, next, watch and
next-clause arrays, zero the unsat counter and the heap offset, then launch
`setup_watch_list`, `initialize_components` and `kernel::solve_sat`. -/

/-- `gpu::solve_sat`.  `asg0`, `dh0`, `dstate0`, `rep0` are the (possibly
garbage) initial contents of the device arrays the driver does not memset. -/
def gpuSolveSat (nvars maxn : Nat) (lits nlits ptr : Nat → Nat)
    (asg0 dh0 dstate0 rep0 : Nat → Nat) (fuel : Nat) : Option SState :=
  let st0 : SState :=
    { watch := fun _ => SAT_sentinel
      nextClause := fun _ => SAT_sentinel
      next := fun _ => SAT_sentinel
      head := fun _ => SAT_sentinel
      assignment := asg0
      dh := dh0
      dstate := dstate0
      rep := rep0
      h := 0, t := 0, d := 0
      unsat := 0
      heap := 0
      failed := false
      maxD := 0, curStart := 0, curN := 0 }
  match setupWatchList nvars maxn lits nlits fuel with
  | none => none
  | some (w, nc) =>
    match initComponents ptr { st0 with watch := w, nextClause := nc } 0 nvars fuel with
    | none => none
    | some st1 => solveNodes lits 0 nvars st1 fuel

/-! ## Clause parsing and graph relations

Used to state the dependency-graph claims: the clause store of row-stride
`maxn` is parsed into the lists of literals between sentinels, exactly the
maximal runs the kernels walk. -/

/-- The row of literals of variable `tidx`: positions
`tidx*maxn .. tidx*maxn + nlit - 1`. -/
def rowList (maxn : Nat) (lits : Nat → Nat) (tidx nlit : Nat) : List Nat :=
  (List.range nlit).map (fun j => lits (tidx * maxn + j))

/-- Split a row on the sentinel into clauses (possibly empty runs). -/
def splitRow : List Nat → List Nat → List (List Nat)
  | [], cur => [cur.reverse]
  | l :: rest, cur =>
    if l = SAT_sentinel then cur.reverse :: splitRow rest []
    else splitRow rest (l :: cur)

/-- All clauses of the store, row-major. -/
def allClauses (nvars maxn : Nat) (lits nlits : Nat → Nat) : List (List Nat) :=
  (List.range nvars).flatMap (fun t => splitRow (rowList maxn lits t (nlits t)) [])

/-- Two variables co-occur in a clause of the store. -/
def cliqueStep (clauses : List (List Nat)) (x y : Nat) : Prop :=
  ∃ C ∈ clauses, (∃ l ∈ C, l >>> 1 = x) ∧ (∃ l ∈ C, l >>> 1 = y)

/-- Membership of a directed edge in an edge list. -/
def edgeStep (E : List (Nat × Nat)) (x y : Nat) : Prop := (x, y) ∈ E

/-- A watch list (or any sentinel-terminated linked list) read off as the
list of its members by chasing the link array. -/
def chain (link : Nat → Nat) : Nat → Nat → Option (List Nat)
  | _, 0 => none
  | c, fuel+1 =>
    if c = SAT_sentinel then some []
    else (chain link (link c) fuel).map (fun L => c :: L)

/-- The literals of the clause starting at position `j`, up to (and
excluding) the terminating sentinel. -/
def clauseLits (lits : Nat → Nat) : Nat → Nat → Option (List Nat)
  | _, 0 => none
  | j, fuel+1 =>
    if lits j = SAT_sentinel then some []
    else (clauseLits lits (j+1) fuel).map (fun C => lits j :: C)

/-- The clause-level predicate of the unit test: every literal of the
clause other than the watched `literal` itself is currently false. -/
def othersFalse (asg : Nat → Nat) (literal : Nat) (C : List Nat) : Bool :=
  C.all (fun l => l == literal || !litNonFalse asg l)

/-- The consecutive pairs of a list. -/
def consecPairs : List Nat → List (Nat × Nat)
  | [] => []
  | [_] => []
  | a :: b :: rest => (a, b) :: consecPairs (b :: rest)

/-- The clause-start positions encountered by `setup_watch_list`'s row
traversal from offset `i` with `cnt` literals left and the given `first`
flag: the positions at which the kernel performs a watch-list insertion. -/
def rowFirstPositions (maxn : Nat) (lits : Nat → Nat) (tidx : Nat) :
    Bool → Nat → Nat → List Nat
  | _, _, 0 => []
  | first, i, cnt+1 =>
    if lits (tidx * maxn + i) = SAT_sentinel then
      rowFirstPositions maxn lits tidx true (i+1) cnt
    else if first then
      (tidx * maxn + i) :: rowFirstPositions maxn lits tidx false (i+1) cnt
    else rowFirstPositions maxn lits tidx false (i+1) cnt

/-- All clause-start positions of the store in row-major insertion order. -/
def allFirstPositions (maxn : Nat) (lits nlits : Nat → Nat) : Nat → Nat → List Nat
  | _, 0 => []
  | tidx, nleft+1 =>
    rowFirstPositions maxn lits tidx true 0 (nlits tidx) ++
      allFirstPositions maxn lits nlits (tidx+1) nleft

/-- Invariant of watch-list construction: after the insertions recorded in
`P` (in order), every literal's list reads off as exactly the processed
clause positions whose first literal it is, in insertion order; processed
positions lie below `B`; and every link at or above `B` is still the
sentinel. -/
def InvW (lits w nc : Nat → Nat) (P : List Nat) (B : Nat) : Prop :=
  (∀ l, ∃ fu, chain nc (w l) fu = some (P.filter (fun x => lits x == l))) ∧
  (∀ x ∈ P, x < B ∧ x ≠ SAT_sentinel) ∧
  P.Nodup ∧
  (∀ x, B ≤ x → nc x = SAT_sentinel)

/-- The two-clause row used against the watch-list ordering claim:
clauses at positions 0 and 2, both with first literal 0. -/
def litsC6 : Nat → Nat := ofList [0, SAT_sentinel, 0, SAT_sentinel]

/-- The edges `find_dependencies` emits for one row (positional form,
mirroring the kernel's `prev`/`l` loop): a bidirectional variable pair for
every two consecutive non-sentinel literals. -/
def rowEdges (maxn : Nat) (lits : Nat → Nat) (tidx : Nat) :
    Nat → Nat → Nat → List (Nat × Nat)
  | _, 0, _ => []
  | j, cnt+1, prev =>
    if prev ≠ SAT_sentinel ∧ lits (tidx * maxn + j) ≠ SAT_sentinel then
      (lits (tidx * maxn + j) >>> 1, prev >>> 1) ::
        (prev >>> 1, lits (tidx * maxn + j) >>> 1) ::
        rowEdges maxn lits tidx (j+1) cnt (lits (tidx * maxn + j))
    else rowEdges maxn lits tidx (j+1) cnt (lits (tidx * maxn + j))

/-- All edges of the dependency graph, row-major. -/
def allEdges (maxn : Nat) (lits nlits : Nat → Nat) : Nat → Nat → List (Nat × Nat)
  | _, 0 => []
  | tidx, nleft+1 =>
    rowEdges maxn lits tidx 0 (nlits tidx) SAT_sentinel ++
      allEdges maxn lits nlits (tidx+1) nleft

/-- The same chain-edge emission over a plain literal list. -/
def listEdges : Nat → List Nat → List (Nat × Nat)
  | _, [] => []
  | prev, l :: rest =>
    if prev ≠ SAT_sentinel ∧ l ≠ SAT_sentinel then
      (l >>> 1, prev >>> 1) :: (prev >>> 1, l >>> 1) :: listEdges l rest
    else listEdges l rest

/-! ## Soundness infrastructure (C1)

Shallow predicates used to state and prove the soundness of the search:
sentinel-terminated linked lists, clause parsing as a relation, the active
ring, the watch-table facts and the per-component solver invariant. -/

/-- A sentinel-terminated linked list: the pointer chase from `p` along
`link` visits exactly the members of `L` and ends at the sentinel. -/
inductive IsChain (link : Nat → Nat) : Nat → List Nat → Prop
  | nil : IsChain link SAT_sentinel []
  | cons (c : Nat) (L : List Nat) (hc : c ≠ SAT_sentinel)
      (ht : IsChain link (link c) L) : IsChain link c (c :: L)

/-- The clause starting at position `j` of the literal array, read as the
run of literals up to the terminating sentinel. -/
inductive ClauseAt (lits : Nat → Nat) : Nat → List Nat → Prop
  | nil (j : Nat) (hj : lits j = SAT_sentinel) : ClauseAt lits j []
  | cons (j : Nat) (C : List Nat) (hj : lits j ≠ SAT_sentinel)
      (ht : ClauseAt lits (j+1) C) : ClauseAt lits j (lits j :: C)

/-- The polarity committed for stack state `s`: `b = (s + 1) &&& 1`. -/
def bitOf (s : Nat) : Nat := (s + 1) &&& 1

/-- The segment of variable `tidx`'s row from offset `i`, `cnt` literals
long: the tail of `rowList` the row traversals still have to process. -/
def rowSeg (maxn : Nat) (lits : Nat → Nat) (tidx i cnt : Nat) : List Nat :=
  (List.range cnt).map (fun j => lits (tidx * maxn + (i + j)))

/-- The literal `l` is true under `asg`: its variable is assigned, with
the value that differs from the literal's polarity bit. -/
def litTrue (asg : Nat → Nat) (l : Nat) : Bool :=
  !(asg (l >>> 1) == SAT_sentinel) && litNonFalse asg l

/-- A clause (list of literals) is satisfied: some literal is true. -/
def clauseSat (asg : Nat → Nat) (C : List Nat) : Bool :=
  C.any (litTrue asg)

/-- The assignment as seen after popping stack entries `p, ..., d-1`:
every variable recorded there reads as unassigned. -/
def maskAsg (asg dh : Nat → Nat) (p d : Nat) : Nat → Nat :=
  fun v =>
    if (List.range (d - p)).any (fun j => dh (p + j) == v) then SAT_sentinel
    else asg v

/-- `next`-adjacency along a list: every element links to its successor. -/
def NextAdj (next : Nat → Nat) : List Nat → Prop
  | [] => True
  | [_] => True
  | a :: b :: rest => next a = b ∧ NextAdj next (b :: rest)

/-- The active ring: empty exactly when `t` is the sentinel; otherwise `R`
lists the members from the head `h` to the tail `t`, consecutively linked,
with the tail linked back to the head. -/
def RingOK (next : Nat → Nat) (h t : Nat) (R : List Nat) : Prop :=
  if t = SAT_sentinel then R = []
  else R ≠ [] ∧ R.getLast? = some t ∧ R.head? = some h ∧ next t = h ∧
    NextAdj next R ∧ R.Nodup

/-- The representative label `initialize_components` computes for a node
(the fuelled chase, whose fuel is always sufficient). -/
def repOf (ptr : Nat → Nat) (v : Nat) : Nat := findRepFuel ptr (ptr v) (ptr v)

/-- Well-formed clause store of row stride `maxn`: every row fits the
stride, a nonempty row ends with the sentinel, every stored literal is a
literal of a variable below `nvars`, and the store is small enough that no
position or literal collides with the sentinel. -/
def WFStore (nvars maxn : Nat) (lits nlits : Nat → Nat) : Prop :=
  2 * nvars < SAT_sentinel ∧ nvars * maxn < SAT_sentinel ∧
  ∀ t, t < nvars →
    nlits t ≤ maxn ∧
    (0 < nlits t → lits (t * maxn + (nlits t - 1)) = SAT_sentinel) ∧
    ∀ j, j < nlits t → lits (t * maxn + j) ≠ SAT_sentinel →
      lits (t * maxn + j) < 2 * nvars

/-- Consistent component labelling: every representative is in range and a
fixed point of the chase, and all variables of one clause of the store
share one representative — which the dependency-graph pipeline guarantees,
since the variables of one clause are connected. -/
def WFLabels (nvars maxn : Nat) (lits nlits ptr : Nat → Nat) : Prop :=
  (∀ v, v < nvars → repOf ptr v < nvars) ∧
  (∀ v, v < nvars → repOf ptr (repOf ptr v) = repOf ptr v) ∧
  (∀ C ∈ allClauses nvars maxn lits nlits, ∀ l1 ∈ C, ∀ l2 ∈ C,
    repOf ptr (l1 >>> 1) = repOf ptr (l2 >>> 1))

/-- The facts the soundness proof tracks about the watch table `w`/`nc`:
`W l` is the list read off literal `l`'s watch list; every listed position
is one of the store's clause starts and watches one of its own literals;
the lists are pairwise disjoint and jointly cover every clause start. -/
structure WatchInv (nvars maxn : Nat) (lits nlits : Nat → Nat)
    (w nc : Nat → Nat) (W : Nat → List Nat) : Prop where
  chains : ∀ l, l < 2 * nvars → IsChain nc (w l) (W l)
  mem_pos : ∀ l, l < 2 * nvars → ∀ c ∈ W l,
    c ∈ allFirstPositions maxn lits nlits 0 nvars
  mem_lit : ∀ l, l < 2 * nvars → ∀ c ∈ W l, ∃ C, ClauseAt lits c C ∧ l ∈ C
  disj : ∀ l1 l2, l1 < 2 * nvars → l2 < 2 * nvars → l1 ≠ l2 →
    ∀ c ∈ W l1, c ∉ W l2
  cover : ∀ c ∈ allFirstPositions maxn lits nlits 0 nvars,
    ∃ l, l < 2 * nvars ∧ c ∈ W l

/-- The coverage-free part of the watch-table facts: used across the
migration loop, while the clauses popped off the falsified literal's list
are still waiting to be re-inserted. -/
structure WatchCore (nvars maxn : Nat) (lits nlits : Nat → Nat)
    (w nc : Nat → Nat) (W : Nat → List Nat) : Prop where
  chains : ∀ l, l < 2 * nvars → IsChain nc (w l) (W l)
  mem_pos : ∀ l, l < 2 * nvars → ∀ c ∈ W l,
    c ∈ allFirstPositions maxn lits nlits 0 nvars
  mem_lit : ∀ l, l < 2 * nvars → ∀ c ∈ W l, ∃ C, ClauseAt lits c C ∧ l ∈ C
  disj : ∀ l1 l2, l1 < 2 * nvars → l2 < 2 * nvars → l1 ≠ l2 →
    ∀ c ∈ W l1, c ∉ W l2

/-- The effect of the migration loop `uwLoop` on the watch table and the
ring: the orphan clauses `O` are redistributed (each onto a literal that
was non-false before the loop), lists only grow, the ring gains only
unassigned component variables that just became watched, and all writes
stay inside component `r`. -/
structure MigRes (nvars maxn : Nat) (lits nlits ptr : Nat → Nat) (r : Nat)
    (O : List Nat) (st st' : SState) (W W' : Nat → List Nat)
    (R R' : List Nat) : Prop where
  hWc : WatchCore nvars maxn lits nlits st'.watch st'.nextClause W'
  cover : ∀ x, ((∃ l, l < 2 * nvars ∧ x ∈ W l) ∨ x ∈ O) →
    ∃ l, l < 2 * nvars ∧ x ∈ W' l
  growth : ∀ l, l < 2 * nvars → ∃ A, W' l = A ++ W l ∧ (∀ x ∈ A, x ∈ O) ∧
    (A ≠ [] → litNonFalse st.assignment l = true)
  hRing : RingOK st'.next st'.h st'.t R'
  ringGrow : ∀ v ∈ R, v ∈ R'
  ringVars : ∀ v ∈ R', v < nvars ∧ repOf ptr v = r ∧
    st.assignment v = SAT_sentinel ∧
    (st'.watch (2*v) ≠ SAT_sentinel ∨ st'.watch (2*v+1) ≠ SAT_sentinel)
  active : ∀ v, v < nvars → repOf ptr v = r → st.assignment v = SAT_sentinel →
    (st'.watch (2*v) ≠ SAT_sentinel ∨ st'.watch (2*v+1) ≠ SAT_sentinel) →
    v ∈ R'
  wmono : ∀ l, st.watch l ≠ SAT_sentinel → st'.watch l ≠ SAT_sentinel
  fnext : ∀ v, ¬(v < nvars ∧ repOf ptr v = r) → st'.next v = st.next v
  fwatch : ∀ l, ¬(l >>> 1 < nvars ∧ repOf ptr (l >>> 1) = r) →
    st'.watch l = st.watch l
  fnc : ∀ x, ¬(lits x >>> 1 < nvars ∧ repOf ptr (lits x >>> 1) = r) →
    st'.nextClause x = st.nextClause x

/-- The per-component invariant of the search loop of `kernel::solve_sat`
for component representative `r` with scratch start `start`: the watch
table, the active ring of unassigned watched component variables, the
decision stack, the assignment/stack correspondence, non-falseness of
watched component literals, and flip-safety of decision entries. -/
structure SInv (nvars maxn : Nat) (lits nlits ptr : Nat → Nat) (r start : Nat)
    (st : SState) (W : Nat → List Nat) (R : List Nat) : Prop where
  hW : WatchInv nvars maxn lits nlits st.watch st.nextClause W
  hRing : RingOK st.next st.h st.t R
  ringVars : ∀ v ∈ R, v < nvars ∧ repOf ptr v = r ∧
    st.assignment v = SAT_sentinel ∧
    (st.watch (2*v) ≠ SAT_sentinel ∨ st.watch (2*v+1) ≠ SAT_sentinel)
  hstart : start ≤ st.d
  stackVar : ∀ j, start ≤ j → j < st.d →
    st.dh j < nvars ∧ repOf ptr (st.dh j) = r
  stackState : ∀ j, start ≤ j → j < st.d → st.dstate j ≤ 5
  stackAsg : ∀ j, start ≤ j → j < st.d →
    st.assignment (st.dh j) = bitOf (st.dstate j)
  stackNodup : ∀ j1 j2, start ≤ j1 → j1 < st.d → start ≤ j2 → j2 < st.d →
    j1 ≠ j2 → st.dh j1 ≠ st.dh j2
  asgStack : ∀ v, v < nvars → repOf ptr v = r →
    st.assignment v ≠ SAT_sentinel → ∃ j, start ≤ j ∧ j < st.d ∧ st.dh j = v
  active : ∀ v, v < nvars → repOf ptr v = r → st.assignment v = SAT_sentinel →
    (st.watch (2*v) ≠ SAT_sentinel ∨ st.watch (2*v+1) ≠ SAT_sentinel) → v ∈ R
  nonFalse : ∀ l, l < 2 * nvars → repOf ptr (l >>> 1) = r → W l ≠ [] →
    litNonFalse st.assignment l = true
  flipSafe : ∀ p, start ≤ p → p < st.d → st.dstate p ≤ 1 →
    ∀ c ∈ W (2 * st.dh p + st.dstate p), ∃ C, ClauseAt lits c C ∧ ∃ w ∈ C,
      w = 2 * st.dh p + (1 - st.dstate p) ∨
      (w >>> 1 ≠ st.dh p ∧
        litNonFalse (maskAsg st.assignment st.dh p st.d) w = true)

/-- The transitional invariant holding just before the common commit tail
(lines 285-295 of the kernel file): the committed variable `k` sits on top
of the stack and outside the ring, everything below the top is consistent,
and every watched component literal is still non-false. -/
structure MidInv (nvars maxn : Nat) (lits nlits ptr : Nat → Nat) (r start : Nat)
    (st : SState) (W : Nat → List Nat) (R : List Nat) (k : Nat) : Prop where
  hW : WatchInv nvars maxn lits nlits st.watch st.nextClause W
  hRing : RingOK st.next st.h st.t R
  ringVars : ∀ v ∈ R, v < nvars ∧ repOf ptr v = r ∧
    st.assignment v = SAT_sentinel ∧
    (st.watch (2*v) ≠ SAT_sentinel ∨ st.watch (2*v+1) ≠ SAT_sentinel)
  hstart : start < st.d
  htop : st.dh (st.d - 1) = k
  hkvar : k < nvars ∧ repOf ptr k = r
  hkring : k ∉ R
  stackVar : ∀ j, start ≤ j → j < st.d →
    st.dh j < nvars ∧ repOf ptr (st.dh j) = r
  stackState : ∀ j, start ≤ j → j < st.d → st.dstate j ≤ 5
  stackAsg : ∀ j, start ≤ j → j < st.d - 1 →
    st.assignment (st.dh j) = bitOf (st.dstate j)
  stackNodup : ∀ j1 j2, start ≤ j1 → j1 < st.d → start ≤ j2 → j2 < st.d →
    j1 ≠ j2 → st.dh j1 ≠ st.dh j2
  asgStack : ∀ v, v < nvars → repOf ptr v = r →
    st.assignment v ≠ SAT_sentinel → ∃ j, start ≤ j ∧ j < st.d ∧ st.dh j = v
  active : ∀ v, v < nvars → repOf ptr v = r → st.assignment v = SAT_sentinel →
    (st.watch (2*v) ≠ SAT_sentinel ∨ st.watch (2*v+1) ≠ SAT_sentinel) →
    v ∈ R ∨ v = k
  nonFalse : ∀ l, l < 2 * nvars → repOf ptr (l >>> 1) = r → W l ≠ [] →
    litNonFalse st.assignment l = true
  flipSafe : ∀ p, start ≤ p → p < st.d - 1 → st.dstate p ≤ 1 →
    ∀ c ∈ W (2 * st.dh p + st.dstate p), ∃ C, ClauseAt lits c C ∧ ∃ w ∈ C,
      w = 2 * st.dh p + (1 - st.dstate p) ∨
      (w >>> 1 ≠ st.dh p ∧
        litNonFalse (maskAsg st.assignment st.dh p st.d) w = true)

/-- Existential packaging of the per-component invariant. -/
def SInvEx (nvars maxn : Nat) (lits nlits ptr : Nat → Nat) (r start : Nat)
    (st : SState) : Prop :=
  ∃ W R, SInv nvars maxn lits nlits ptr r start st W R

/-- Writes performed by a component's worker stay inside its component:
agreement of the successor state with the predecessor outside component
`r` (on assignments, ring links, watch heads of foreign literals, clause
links of foreign clauses, and on the untouched head and representative
arrays). -/
def AgreeOut (nvars : Nat) (lits ptr : Nat → Nat) (r : Nat)
    (st st' : SState) : Prop :=
  (∀ v, ¬(v < nvars ∧ repOf ptr v = r) → st'.assignment v = st.assignment v) ∧
  (∀ v, ¬(v < nvars ∧ repOf ptr v = r) → st'.next v = st.next v) ∧
  (∀ l, ¬(l >>> 1 < nvars ∧ repOf ptr (l >>> 1) = r) →
    st'.watch l = st.watch l) ∧
  (∀ c, ¬(lits c >>> 1 < nvars ∧ repOf ptr (lits c >>> 1) = r) →
    st'.nextClause c = st.nextClause c) ∧
  st'.head = st.head ∧ st'.rep = st.rep

/-- The state of an unprocessed component before its worker runs: the
per-component variable list built by `initialize_components` holds exactly
the watched variables of the component, linearly linked from `d_head`. -/
def PreComp (nvars : Nat) (ptr : Nat → Nat) (st : SState) (r : Nat) : Prop :=
  ∃ L, IsChain st.next (st.head r) L ∧
    (∀ v ∈ L, v < nvars ∧ repOf ptr v = r) ∧
    (∀ v, v < nvars → repOf ptr v = r →
      ((st.watch (2*v) ≠ SAT_sentinel ∨ st.watch (2*v+1) ≠ SAT_sentinel) ↔
        v ∈ L))

/-- The global invariant of the sequentialized worker grid, before the
worker of node index `node` runs, provided no component has yet failed:
the watch table is intact, representatives and fresh assignments are as
initialization left them for unprocessed components, every unprocessed
component still has its initialization list, and every clause of an
already processed component is satisfied. -/
def BigInv (nvars maxn : Nat) (lits nlits ptr : Nat → Nat) (node : Nat)
    (st : SState) : Prop :=
  st.unsat = 0 →
  (∃ W, WatchInv nvars maxn lits nlits st.watch st.nextClause W) ∧
  (∀ v, v < nvars → st.rep v = repOf ptr v) ∧
  (∀ v, v < nvars → node ≤ repOf ptr v → st.assignment v = SAT_sentinel) ∧
  (∀ r, node ≤ r → r < nvars → PreComp nvars ptr st r) ∧
  (∀ c ∈ allFirstPositions maxn lits nlits 0 nvars,
    repOf ptr (lits c >>> 1) < node →
    ∃ C, ClauseAt lits c C ∧ clauseSat st.assignment C = true)

/-! ## Concrete states used to witness and refute claims -/

/-- A one-variable solver state in immediate conflict: both literals of
variable 0 are watched by the clause at position 0, whose literal array is
all-sentinel, so both polarities are vacuously unit. -/
def stC5 : SState :=
  { watch := ofList [0, 0]
    nextClause := ofList []
    next := ofList [0]
    head := ofList []
    assignment := ofList []
    dh := ofList []
    dstate := ofList []
    rep := ofList []
    h := 0, t := 0, d := 0
    unsat := 0
    heap := 0
    failed := false
    maxD := 0, curStart := 0, curN := 0 }

/-- The clause store `{x0 ∨ x1, ¬x0}` (both clauses in variable 0's row),
used to exhibit the scratch-range overflow and the migration-driven
assignment of an initially unwatched variable. -/
def litsC89 : Nat → Nat := ofList [0, 2, SAT_sentinel, 1, SAT_sentinel]

/-- The full solve on that store: 2 variables, row stride 5, component
labels all 0, ample fuel. -/
def runC89 : Option SState :=
  gpuSolveSat 2 5 litsC89 (ofList [5, 0]) (ofList [0, 0])
    (ofList []) (ofList []) (ofList []) (ofList []) 30

/-- The literal array of the migration-failure kernel input: clauses
`F = [2, 1]` at 0, `c = [4]` at 3, `D = [6]` at 5, `G1 = [8, 3]` at 7 and
`G2 = [9, 3]` at 10. -/
def litsC3 : Nat → Nat :=
  ofList [2, 1, SAT_sentinel, 4, SAT_sentinel, 6, SAT_sentinel,
    8, 3, SAT_sentinel, 9, 3, SAT_sentinel]

/-- A kernel input on which `update_watchlist` returns false mid-run: the
clause at 3 heads both literal 0's and literal 3's watch lists (arbitrary
device arrays are legitimate kernel inputs), so after one migration the
doomed clause at 5 — whose only literal is permanently false — becomes
reachable from literal 0's list and is hit by the backtracking flip. -/
def stC3 : SState :=
  { watch := ofList [3, SAT_sentinel, 0, 3, 5, SAT_sentinel, SAT_sentinel,
      SAT_sentinel, 7, 10]
    nextClause := ofList []
    next := ofList [1, 4]
    head := ofList [0]
    assignment := ofList [SAT_sentinel, SAT_sentinel, SAT_sentinel, 0, SAT_sentinel]
    dh := ofList []
    dstate := ofList []
    rep := ofList [0, 0, 0, 0, 0]
    h := 0, t := 0, d := 0
    unsat := 0
    heap := 0
    failed := false
    maxD := 0, curStart := 0, curN := 0 }

/-- Literal array for the commit-tail witness: one clause `[6]` at 0. -/
def litsC3w : Nat → Nat := ofList [6, SAT_sentinel]

/-- A state about to commit variable 0 whose falsified literal 0 is
watched by the clause `[6]`, with variable 3 assigned false: migration
finds no alternative. -/
def stC3w : SState :=
  { watch := ofList [0]
    nextClause := ofList []
    next := ofList [0]
    head := ofList []
    assignment := ofList [SAT_sentinel, SAT_sentinel, SAT_sentinel, 0]
    dh := ofList [0]
    dstate := ofList [3]
    rep := ofList []
    h := 0, t := 0, d := 1
    unsat := 0
    heap := 0
    failed := false
    maxD := 1, curStart := 0, curN := 1 }

/-- The variable is watched somewhere: the guard of the ring insertion of
`initialize_components`, as a boolean. -/
def wflag (w : Nat → Nat) (v : Nat) : Bool :=
  !(w (2*v) == SAT_sentinel) || !(w (2*v+1) == SAT_sentinel)

/-- The watched variables of component `r` among the first `m` nodes, in
node order: the members of the per-component list built by
`initialize_components` after the first `m` threads ran. -/
def compList (ptr w : Nat → Nat) (r m : Nat) : List Nat :=
  (List.range m).filter (fun v => (repOf ptr v == r) && wflag w v)

/-- The final state of the solve on the store `{x0 ∨ x1, ¬x0}`, used to
witness the soundness theorem on a concrete input. -/
def stC1w : SState := runC89.getD stC5

/-! ## Theorems -/

@[simp] theorem upd_same (f : Nat → Nat) (i v : Nat) : upd f i v i = v := by
  simp [upd]

@[simp] theorem upd_other (f : Nat → Nat) (i v x : Nat) (h : x ≠ i) :
    upd f i v x = f x := by
  simp [upd, h]

theorem findRep_eq (ptr : Nat → Nat) (v : Nat) :
    findRep ptr v = if ptr v < v then findRep ptr (ptr v) else v := by
  rw [findRep]

theorem findRepSteps_eq (ptr : Nat → Nat) (v : Nat) :
    findRepSteps ptr v = if ptr v < v then findRepSteps ptr (ptr v) + 1 else 0 := by
  rw [findRepSteps]

/-- The chase ends at a fixed point: the final label is not larger than its
own successor label. -/
theorem findRep_fixed (ptr : Nat → Nat) (v : Nat) :
    ¬ ptr (findRep ptr v) < findRep ptr v := by
  induction v using Nat.strong_induction_on with
  | _ v ih =>
    rw [findRep_eq]
    by_cases h : ptr v < v
    · simpa [h] using ih (ptr v) h
    · simp [h]

/-- The step count is bounded by the starting label. -/
theorem findRepSteps_le (ptr : Nat → Nat) (v : Nat) :
    findRepSteps ptr v ≤ v := by
  induction v using Nat.strong_induction_on with
  | _ v ih =>
    rw [findRepSteps_eq]
    by_cases h : ptr v < v
    · simp only [h, if_true]
      exact Nat.succ_le_of_lt (Nat.lt_of_le_of_lt (ih (ptr v) h) h)
    · simp [h]

/-- The final representative is bounded by the starting label. -/
theorem findRep_le (ptr : Nat → Nat) (v : Nat) :
    findRep ptr v ≤ v := by
  induction v using Nat.strong_induction_on with
  | _ v ih =>
    rw [findRep_eq]
    by_cases h : ptr v < v
    · simp only [h, if_true]
      exact Nat.le_of_lt (Nat.lt_of_le_of_lt (ih (ptr v) h) h)
    · simp [h]

/-- C10, counterexample: the claim bounds the number of loop iterations of
the representative chase by `node_idx`; for the input component-pointer
array `[2, 0, 1]` and `node_idx = 0` the chase started at
`d_component_ptr[0] = 2` performs 2 iterations, exceeding the claimed
bound of 0. -/
theorem C10_counterexample :
    ¬ findRepSteps (ofList [2, 0, 1]) (ofList [2, 0, 1] 0) ≤ 0 := by
  have h0 : ofList [2, 0, 1] 0 = 2 := rfl
  have h : findRepSteps (ofList [2, 0, 1]) 2 = 2 := by
    rw [findRepSteps_eq]
    norm_num [ofList, List.getD]
    rw [findRepSteps_eq]
    norm_num [ofList, List.getD]
    rw [findRepSteps_eq]
    norm_num [ofList, List.getD]
  rw [h0, h]
  omega

/-- C10 (amended): the representative chase of `initialize_components`
terminates on every input component-pointer array — the followed labels
are strictly decreasing, `findRep` is total — the loop performs at most
`d_component_ptr[node_idx]` iterations (not at most `node_idx`), and the
result is a fixed point: its own label is not smaller than it. -/
theorem C10_theorem (ptr : Nat → Nat) (node : Nat) :
    findRepSteps ptr (ptr node) ≤ ptr node ∧
    ¬ ptr (findRep ptr (ptr node)) < findRep ptr (ptr node) :=
  ⟨findRepSteps_le ptr (ptr node), findRep_fixed ptr (ptr node)⟩

/-- C2: when the edge count produced by `find_dependencies` exceeds the
caller-provided capacity `max_n_elem`, `identify_connected_components`
returns before sorting, CSR construction and labeling: the component-label
array is untouched, the assignment array is untouched (the function never
writes it), and the overflow is reported to the caller through the
`n_elem` output parameter, which carries the count exceeding the
capacity. -/
theorem C2_theorem (nvars maxn maxe : Nat) (lits nlits compPtr0 asg : Nat → Nat)
    (hov : (findDeps nvars maxn lits nlits maxe).1 > maxe) :
    (identifyCC nvars maxn lits nlits maxe compPtr0 asg).n_elem > maxe ∧
    (identifyCC nvars maxn lits nlits maxe compPtr0 asg).compPtr = compPtr0 ∧
    (identifyCC nvars maxn lits nlits maxe compPtr0 asg).assignment = asg := by
  unfold identifyCC
  simp [hov]

/-- C2 witness: a single row `x0 ∨ x1` emits two directed edges while the
capacity is 1, so the call overflows and hands back the untouched label
array. -/
theorem C2_witness :
    (identifyCC 1 2 (ofList [0, 2]) (ofList [2]) 1 (ofList [7]) (ofList [9])).n_elem > 1 ∧
    (identifyCC 1 2 (ofList [0, 2]) (ofList [2]) 1 (ofList [7]) (ofList [9])).compPtr
      = ofList [7] ∧
    (identifyCC 1 2 (ofList [0, 2]) (ofList [2]) 1 (ofList [7]) (ofList [9])).assignment
      = ofList [9] :=
  C2_theorem 1 2 1 (ofList [0, 2]) (ofList [2]) (ofList [7]) (ofList [9]) (by decide)

/-! ### Frame lemmas: which fields each operation can touch -/

theorem ringInsert_assignment (st : SState) (v : Nat) :
    (ringInsert st v).assignment = st.assignment := by
  unfold ringInsert
  split
  · split <;> rfl
  · rfl

theorem ringInsert_watch (st : SState) (v : Nat) :
    (ringInsert st v).watch = st.watch := by
  unfold ringInsert
  split
  · split <;> rfl
  · rfl

theorem ringInsert_scalars (st : SState) (v : Nat) :
    (ringInsert st v).dstate = st.dstate ∧ (ringInsert st v).dh = st.dh ∧
    (ringInsert st v).d = st.d ∧ (ringInsert st v).unsat = st.unsat ∧
    (ringInsert st v).failed = st.failed ∧
    (ringInsert st v).nextClause = st.nextClause := by
  unfold ringInsert
  split
  · split <;> exact ⟨rfl, rfl, rfl, rfl, rfl, rfl⟩
  · exact ⟨rfl, rfl, rfl, rfl, rfl, rfl⟩

/-- `uwLoop` (the body of `update_watchlist`) never touches the assignment,
the decision stack, the stack index, or the unsat counter. -/
theorem uwLoop_frame (lits : Nat → Nat) :
    ∀ (fuel c : Nat) (st : SState) (r : SState × Bool),
    uwLoop lits c st fuel = some r →
    r.1.assignment = st.assignment ∧ r.1.dstate = st.dstate ∧ r.1.dh = st.dh ∧
    r.1.d = st.d ∧ r.1.unsat = st.unsat ∧ r.1.failed = st.failed := by
  intro fuel
  induction fuel with
  | zero => intro c st r h; simp [uwLoop] at h
  | succ n ih =>
    intro c st r h
    rw [uwLoop] at h
    by_cases hc : c = SAT_sentinel
    · simp only [hc, if_true] at h
      cases h
      exact ⟨rfl, rfl, rfl, rfl, rfl, rfl⟩
    · simp only [hc, if_false] at h
      rcases ha : findAlt lits st.assignment c (n+1) with _ | alt
      · rw [ha] at h; cases h
      · rw [ha] at h
        rcases alt with _ | l
        · cases h
          exact ⟨rfl, rfl, rfl, rfl, rfl, rfl⟩
        · have h2 := ih (st.nextClause c) _ r h
          have e1 := ringInsert_assignment st (l >>> 1)
          have e2 := ringInsert_scalars st (l >>> 1)
          simp only [e1, e2.1, e2.2.1, e2.2.2.1, e2.2.2.2.1, e2.2.2.2.2.1] at h2
          exact h2

/-- `update_watchlist` never touches the assignment, the decision stack,
the stack index, or the unsat counter. -/
theorem updateWatchlist_frame (lits : Nat → Nat) (falseLit : Nat) (st : SState)
    (fuel : Nat) (r : SState × Bool) (h : updateWatchlist lits falseLit st fuel = some r) :
    r.1.assignment = st.assignment ∧ r.1.dstate = st.dstate ∧ r.1.dh = st.dh ∧
    r.1.d = st.d ∧ r.1.unsat = st.unsat ∧ r.1.failed = st.failed := by
  unfold updateWatchlist at h
  exact uwLoop_frame lits fuel (st.watch falseLit)
    { st with watch := upd st.watch falseLit SAT_sentinel } r h

/-- Effect of the common commit tail (lines 285-295): the committed
variable receives `(d_state[d-1] + 1) & 1`; stack, index and counter are
unchanged. -/
theorem commitTail_spec (lits : Nat → Nat) (st : SState) (k fuel : Nat) (st' : SState)
    (h : commitTail lits st k fuel = some st') :
    st'.assignment = upd st.assignment k ((st.dstate (st.d - 1) + 1) &&& 1) ∧
    st'.dstate = st.dstate ∧ st'.dh = st.dh ∧ st'.d = st.d ∧ st'.unsat = st.unsat := by
  unfold commitTail at h
  rcases hu : updateWatchlist lits (2*k + ((st.dstate (st.d - 1) + 1) &&& 1))
      { st with assignment := upd st.assignment k ((st.dstate (st.d - 1) + 1) &&& 1) }
      fuel with _ | p
  · rw [hu] at h; cases h
  · rw [hu] at h
    cases h
    have hf := updateWatchlist_frame lits _ _ fuel p hu
    exact ⟨hf.1, hf.2.1, hf.2.2.1, hf.2.2.2.1, hf.2.2.2.2.1⟩

/-! ### The backtrack unwind -/

theorem unwindBody_fields (st : SState) :
    (unwindBody st).d = st.d - 1 ∧ (unwindBody st).dstate = st.dstate ∧
    (unwindBody st).dh = st.dh ∧ (unwindBody st).unsat = st.unsat ∧
    (unwindBody st).assignment = upd st.assignment (st.dh (st.d - 1)) SAT_sentinel := by
  unfold unwindBody
  split <;> exact ⟨rfl, rfl, rfl, rfl, rfl⟩

/-- Characterization of the backtrack loop: it pops exactly the maximal
suffix of stack entries whose state is at least 2, un-assigning each popped
variable, and stops at the first decision entry (or at the component
start).  The decision stack, its index bound, the unsat counter and the
untouched assignments are preserved. -/
theorem unwind_spec (start : Nat) :
    ∀ (gas : Nat) (st : SState), st.d ≤ gas → start ≤ st.d →
    ∃ j, start ≤ j ∧ j ≤ st.d ∧
      (∀ i, j ≤ i → i < st.d → 2 ≤ st.dstate i) ∧
      (j = start ∨ ¬ 2 ≤ st.dstate (j - 1)) ∧
      (unwind start st gas).d = j ∧
      (unwind start st gas).dstate = st.dstate ∧
      (unwind start st gas).dh = st.dh ∧
      (unwind start st gas).unsat = st.unsat ∧
      (∀ i, j ≤ i → i < st.d → (unwind start st gas).assignment (st.dh i) = SAT_sentinel) ∧
      (∀ v, (∀ i, j ≤ i → i < st.d → st.dh i ≠ v) →
        (unwind start st gas).assignment v = st.assignment v) := by
  intro gas
  induction gas with
  | zero =>
    intro st hgas hd
    have hd0 : st.d = 0 := Nat.le_zero.mp hgas
    refine ⟨st.d, hd, Nat.le_refl _, ?_, ?_, ?_, rfl, rfl, rfl, ?_, ?_⟩
    · intro i h1 h2; omega
    · left; omega
    · simp [unwind]
    · intro i h1 h2; omega
    · intro v _; simp [unwind]
  | succ gas ih =>
    intro st hgas hd
    by_cases hguard : start < st.d ∧ 2 ≤ st.dstate (st.d - 1)
    · have hun : unwind start st (gas+1) = unwind start (unwindBody st) gas := by
        rw [unwind, if_pos hguard]
      obtain ⟨hMd, hMdstate, hMdh, hMunsat, hMasg⟩ := unwindBody_fields st
      have hMgas : (unwindBody st).d ≤ gas := by omega
      have hMstart : start ≤ (unwindBody st).d := by omega
      obtain ⟨j, hj1, hj2, hall, hstop, hud, hudstate, hudh, huunsat, hpop, hkeep⟩ :=
        ih (unwindBody st) hMgas hMstart
      rw [hMd] at hj2
      refine ⟨j, hj1, by omega, ?_, ?_, ?_, ?_, ?_, ?_, ?_, ?_⟩
      · intro i h1 h2
        by_cases hi : i < st.d - 1
        · have := hall i h1 (by omega)
          rwa [hMdstate] at this
        · have : i = st.d - 1 := by omega
          subst this
          exact hguard.2
      · rcases hstop with h | h
        · exact Or.inl h
        · exact Or.inr (by rwa [hMdstate] at h)
      · rw [hun, hud]
      · rw [hun, hudstate, hMdstate]
      · rw [hun, hudh, hMdh]
      · rw [hun, huunsat, hMunsat]
      · intro i h1 h2
        rw [hun]
        by_cases hi : i < st.d - 1
        · have := hpop i h1 (by rw [hMd]; omega)
          rwa [hMdh] at this
        · have hieq : i = st.d - 1 := by omega
          subst hieq
          by_cases hdup : ∀ i', j ≤ i' → i' < (unwindBody st).d →
              (unwindBody st).dh i' ≠ st.dh (st.d - 1)
          · have := hkeep (st.dh (st.d - 1)) hdup
            rw [hMasg] at this
            rw [this]
            exact upd_same _ _ _
          · push_neg at hdup
            obtain ⟨i', hi1, hi2, hieq2⟩ := hdup
            have := hpop i' hi1 hi2
            rw [hMdh] at this hieq2
            rw [← hieq2]
            exact this
      · intro v hv
        rw [hun]
        have hv' : ∀ i, j ≤ i → i < (unwindBody st).d → (unwindBody st).dh i ≠ v := by
          intro i h1 h2
          rw [hMdh]
          exact hv i h1 (by omega)
        have := hkeep v hv'
        rw [hMasg] at this
        rw [this]
        have hkv : st.dh (st.d - 1) ≠ v := hv (st.d - 1) (by omega) (by omega)
        exact upd_other _ _ _ _ (fun he => hkv he.symm)
    · have hun : unwind start st (gas+1) = st := by
        rw [unwind, if_neg hguard]
      rw [hun]
      refine ⟨st.d, hd, Nat.le_refl _, ?_, ?_, rfl, rfl, rfl, rfl, ?_, ?_⟩
      · intro i h1 h2; omega
      · rcases Nat.lt_or_ge start st.d with h | h
        · right
          intro habs
          exact hguard ⟨h, habs⟩
        · left; omega
      · intro i h1 h2; omega
      · intro v _; rfl

/-- C5: when the scan finds a conflict (both polarities of a ring variable
unit), the iteration unwinds the decision stack, un-assigning every entry
whose state marks it forced (`d_state >= 2`) down to the first
decision-marked entry; if one exists its state is flipped to `3 - s`
(which is again `>= 2`, i.e. the re-commit is marked forced) and the
variable is re-assigned with the opposite polarity; if the stack unwinds
all the way back to the component start, the global unsat counter is
incremented by exactly one and the worker exits (`StepRes.unsatExit`). -/
theorem C5_theorem (lits : Nat → Nat) (start : Nat) (st : SState) (fuel : Nat)
    (out : ScanOut)
    (hscan : scanLoop lits st st.t fuel = some out)
    (hconf : out.kind = ScanKind.conflict)
    (hd : start ≤ st.d)
    (hsome : (stepIter lits start st fuel).isSome = true) :
    ∃ j, start ≤ j ∧ j ≤ st.d ∧
      (∀ i, j ≤ i → i < st.d → 2 ≤ st.dstate i) ∧
      (if j = start then
        ∃ st', stepIter lits start st fuel = some (StepRes.unsatExit st') ∧
          st'.unsat = st.unsat + 1 ∧
          (∀ i, j ≤ i → i < st.d → st'.assignment (st.dh i) = SAT_sentinel)
      else
        ¬ 2 ≤ st.dstate (j - 1) ∧
        ∃ st', stepIter lits start st fuel = some (StepRes.cont st') ∧
          st'.d = j ∧
          st'.dstate (j - 1) = 3 - st.dstate (j - 1) ∧
          2 ≤ st'.dstate (j - 1) ∧
          st'.assignment (st.dh (j - 1)) = ((3 - st.dstate (j - 1)) + 1) &&& 1 ∧
          ((3 - st.dstate (j - 1)) + 1) &&& 1 ≠ (st.dstate (j - 1) + 1) &&& 1 ∧
          (∀ i, j ≤ i → i < st.d → st.dh i ≠ st.dh (j - 1) →
            st'.assignment (st.dh i) = SAT_sentinel) ∧
          st'.unsat = st.unsat) := by
  obtain ⟨j, hj1, hj2, hall, hstop, hud, hudstate, hudh, huunsat, hpop, hkeep⟩ :=
    unwind_spec start st.d { st with t := out.kv, h := out.hv } (Nat.le_refl _) hd
  have hstepeq : stepIter lits start st fuel =
      (if (unwind start { st with t := out.kv, h := out.hv } st.d).d = start then
        some (StepRes.unsatExit
          { unwind start { st with t := out.kv, h := out.hv } st.d with
            unsat := (unwind start { st with t := out.kv, h := out.hv } st.d).unsat + 1 })
      else
        (commitTail lits
          { unwind start { st with t := out.kv, h := out.hv } st.d with
            dstate := upd (unwind start { st with t := out.kv, h := out.hv } st.d).dstate
              ((unwind start { st with t := out.kv, h := out.hv } st.d).d - 1)
              (3 - (unwind start { st with t := out.kv, h := out.hv } st.d).dstate
                ((unwind start { st with t := out.kv, h := out.hv } st.d).d - 1)) }
          ((unwind start { st with t := out.kv, h := out.hv } st.d).dh
            ((unwind start { st with t := out.kv, h := out.hv } st.d).d - 1))
          fuel).map StepRes.cont) := by
    unfold stepIter
    rw [hscan]
    dsimp only
    rw [hconf]
  dsimp only at hj2 hall hstop hud hudstate hudh huunsat hpop hkeep
  revert hsome
  generalize hG : unwind start { st with t := out.kv, h := out.hv } st.d = stU
    at hstepeq hud hudstate hudh huunsat hpop hkeep
  intro hsome
  refine ⟨j, hj1, hj2, hall, ?_⟩
  by_cases hjs : j = start
  · rw [if_pos hjs]
    have hcond : stU.d = start := by rw [hud, hjs]
    rw [hstepeq, if_pos hcond]
    refine ⟨_, rfl, ?_, ?_⟩
    · show stU.unsat + 1 = st.unsat + 1
      rw [huunsat]
    · intro i h1 h2
      exact hpop i h1 h2
  · rw [if_neg hjs]
    have hcond : ¬ stU.d = start := by rw [hud]; exact hjs
    rw [hstepeq, if_neg hcond] at hsome ⊢
    have hs2 : ¬ 2 ≤ st.dstate (j - 1) := by
      rcases hstop with h | h
      · exact absurd h hjs
      · exact h
    obtain ⟨st', hct⟩ := Option.isSome_iff_exists.mp (by simpa using hsome)
    have hspec := commitTail_spec lits
      { stU with dstate := upd stU.dstate (stU.d - 1) (3 - stU.dstate (stU.d - 1)) }
      (stU.dh (stU.d - 1)) fuel st' hct
    have hgoal1 : Option.map StepRes.cont (commitTail lits
        { stU with dstate := upd stU.dstate (stU.d - 1) (3 - stU.dstate (stU.d - 1)) }
        (stU.dh (stU.d - 1)) fuel) = some (StepRes.cont st') := by
      rw [hct]; rfl
    dsimp only at hspec
    rw [hud, hudstate, hudh] at hspec
    have hs01 : st.dstate (j - 1) = 0 ∨ st.dstate (j - 1) = 1 := by omega
    refine ⟨hs2, st', ?_, ?_, ?_, ?_, ?_, ?_, ?_, ?_⟩
    · exact hgoal1
    · exact hspec.2.2.2.1
    · rw [hspec.2.1, upd_same]
    · rw [hspec.2.1, upd_same]; omega
    · rw [hspec.1, upd_same, upd_same]
    · rcases hs01 with h | h <;> rw [h] <;> decide
    · intro i h1 h2 hne
      rw [hspec.1, upd_other _ _ _ _ hne]
      exact hpop i h1 h2
    · rw [hspec.2.2.2.2, huunsat]

/-- C5 witness: on the one-variable state `stC5`, whose sole ring variable
is unit in both polarities, the iteration takes the conflict path, finds an
already-empty stack and exits with the unsat counter incremented to 1. -/
theorem C5_witness :
    ∃ st', stepIter (ofList []) 0 stC5 5 = some (StepRes.unsatExit st') ∧
      st'.unsat = 1 := by
  obtain ⟨j, hj0, hj1, hall, hc⟩ :=
    C5_theorem (ofList []) 0 stC5 5 ⟨ScanKind.conflict, 0, 0⟩ (by decide) rfl
      (by decide) (by decide)
  have hj : j = 0 := Nat.le_antisymm hj1 hj0
  rw [hj, if_pos rfl] at hc
  obtain ⟨st', h1, h2, _⟩ := hc
  exact ⟨st', h1, by rw [h2]; rfl⟩

/-! ### The unit test `is_unit` -/

theorem clauseUnitScan_true (lits asg : Nat → Nat) (literal : Nat) :
    ∀ fuel j, clauseUnitScan lits asg literal j fuel = some true →
    ∃ C, clauseLits lits j fuel = some C ∧ othersFalse asg literal C = true := by
  intro fuel
  induction fuel with
  | zero => intro j h; simp [clauseUnitScan] at h
  | succ n ih =>
    intro j h
    rw [clauseUnitScan] at h
    rw [clauseLits]
    by_cases h1 : lits j = SAT_sentinel
    · exact ⟨[], by simp [h1], rfl⟩
    · simp only [h1, if_false] at h ⊢
      by_cases h2 : lits j = literal
      · simp only [h2, if_true] at h
        obtain ⟨C, hC, hall⟩ := ih (j+1) h
        refine ⟨lits j :: C, by rw [hC]; rfl, ?_⟩
        simp only [othersFalse, List.all_cons] at hall ⊢
        simp [h2, hall]
      · simp only [h2, if_false] at h
        by_cases h3 : litNonFalse asg (lits j) = true
        · simp [h3] at h
        · simp only [h3, if_false] at h
          obtain ⟨C, hC, hall⟩ := ih (j+1) h
          refine ⟨lits j :: C, by rw [hC]; rfl, ?_⟩
          simp only [othersFalse, List.all_cons] at hall ⊢
          simp only [Bool.not_eq_true] at h3
          simp [h3, hall]

theorem clauseUnitScan_false (lits asg : Nat → Nat) (literal : Nat) :
    ∀ fuel j, clauseUnitScan lits asg literal j fuel = some false →
    ∀ fu C, clauseLits lits j fu = some C → othersFalse asg literal C = false := by
  intro fuel
  induction fuel with
  | zero => intro j h; simp [clauseUnitScan] at h
  | succ n ih =>
    intro j h fu C hC
    rw [clauseUnitScan] at h
    by_cases h1 : lits j = SAT_sentinel
    · simp [h1] at h
    · simp only [h1, if_false] at h
      rcases fu with _ | fu
      · simp [clauseLits] at hC
      · rw [clauseLits] at hC
        simp only [h1, if_false] at hC
        rcases hC' : clauseLits lits (j+1) fu with _ | C'
        · rw [hC'] at hC; cases hC
        · rw [hC'] at hC
          cases hC
          by_cases h2 : lits j = literal
          · simp only [h2, if_true] at h
            have := ih (j+1) h fu C' hC'
            simp [othersFalse, List.all_cons] at this ⊢
            intro _
            exact this
          · simp only [h2, if_false] at h
            by_cases h3 : litNonFalse asg (lits j) = true
            · simp [othersFalse, List.all_cons, h2, h3]
            · simp only [h3, if_false] at h
              have := ih (j+1) h fu C' hC'
              simp [othersFalse, List.all_cons] at this ⊢
              intro _
              exact this

theorem isUnitLoop_iff (lits asg nc : Nat → Nat) (literal : Nat) :
    ∀ fuel c L b, chain nc c fuel = some L →
    isUnitLoop lits asg nc literal c fuel = some b →
    (b = true ↔ ∃ x ∈ L, ∃ fu C, clauseLits lits x fu = some C ∧
      othersFalse asg literal C = true) := by
  intro fuel
  induction fuel with
  | zero => intro c L b hch; simp [chain] at hch
  | succ n ih =>
    intro c L b hch hb
    rw [chain] at hch
    rw [isUnitLoop] at hb
    by_cases hc : c = SAT_sentinel
    · simp only [hc, if_true] at hch hb
      cases hch
      cases hb
      simp
    · simp only [hc, if_false] at hch hb
      rcases hL' : chain nc (nc c) n with _ | L'
      · rw [hL'] at hch; cases hch
      · rw [hL'] at hch
        cases hch
        rcases hscan : clauseUnitScan lits asg literal c (n+1) with _ | bs
        · rw [hscan] at hb; cases hb
        · rw [hscan] at hb
          rcases bs with _ | _
          · -- scan returned false: this clause is not unit, recurse
            have hiff := ih (nc c) L' b hL' hb
            rw [hiff]
            constructor
            · rintro ⟨x, hx, fu, C, hC, hall⟩
              exact ⟨x, List.mem_cons_of_mem _ hx, fu, C, hC, hall⟩
            · rintro ⟨x, hx, fu, C, hC, hall⟩
              rcases List.mem_cons.mp hx with rfl | hx'
              · have := clauseUnitScan_false lits asg literal (n+1) x hscan fu C hC
                rw [this] at hall
                cases hall
              · exact ⟨x, hx', fu, C, hC, hall⟩
          · -- scan returned true: this clause is unit
            cases hb
            obtain ⟨C, hC, hall⟩ := clauseUnitScan_true lits asg literal (n+1) c hscan
            simp only [true_iff]
            exact ⟨c, List.mem_cons_self _ _, n+1, C, hC, hall⟩

/-- C4 (amended): `is_unit(literal)` returns true if and only if SOME
clause currently watching `literal` has all of its literals other than
`literal` currently false (an existential over the watch list, not a
universal): the watch list read off as `L`, a terminating `is_unit` call
returns true exactly when some clause of `L` parses to a literal list
whose members other than `literal` are all false. -/
theorem C4_theorem (lits asg watch nc : Nat → Nat) (literal fuel : Nat)
    (L : List Nat) (b : Bool)
    (hchain : chain nc (watch literal) fuel = some L)
    (hb : is_unit lits watch nc asg literal fuel = some b) :
    (b = true ↔ ∃ x ∈ L, ∃ fu C, clauseLits lits x fu = some C ∧
      othersFalse asg literal C = true) :=
  isUnitLoop_iff lits asg nc literal fuel (watch literal) L b hchain hb

/-- C4, counterexample: literal 0 is watched by the clause at position 0
(unit: its other literal `2` is false) and by the clause at position 2
(not unit: its literal `4` is unassigned, hence not false).  `is_unit`
returns true although not every clause watching literal 0 has all its
other literals false, refuting the claimed "if and only if every clause"
characterisation. -/
theorem C4_counterexample :
    is_unit (ofList [2, SAT_sentinel, 4]) (ofList [0]) (ofList [2]) (ofList [9, 0]) 0 10
      = some true ∧
    chain (ofList [2]) (ofList [0] 0) 10 = some [0, 2] ∧
    clauseLits (ofList [2, SAT_sentinel, 4]) 2 10 = some [4] ∧
    ¬ othersFalse (ofList [9, 0]) 0 [4] = true := by
  refine ⟨by decide, by decide, by decide, by decide⟩

/-- C4 witness: the amended characterisation applied to the two-clause
counterexample state. -/
theorem C4_witness :
    (true = true ↔ ∃ x ∈ [0, 2], ∃ fu C,
      clauseLits (ofList [2, SAT_sentinel, 4]) x fu = some C ∧
      othersFalse (ofList [9, 0]) 0 C = true) :=
  C4_theorem (ofList [2, SAT_sentinel, 4]) (ofList [9, 0]) (ofList [0]) (ofList [2])
    0 10 [0, 2] true (by decide) (by decide)

/-! ### Watch-list construction -/

theorem chain_congr (link link' : Nat → Nat) :
    ∀ fu p L, chain link p fu = some L → (∀ x ∈ L, link' x = link x) →
    chain link' p fu = some L := by
  intro fu
  induction fu with
  | zero => intro p L h; simp [chain] at h
  | succ n ih =>
    intro p L h hcong
    rw [chain] at h ⊢
    by_cases hp : p = SAT_sentinel
    · simpa [hp] using h
    · simp only [hp, if_false] at h ⊢
      rcases hL : chain link (link p) n with _ | L'
      · rw [hL] at h; cases h
      · rw [hL] at h
        cases h
        have hp' : link' p = link p := hcong p (by simp)
        rw [hp', ih (link p) L' hL (fun x hx => hcong x (by simp [hx]))]
        rfl

/-- The CAS walk installs `c` at the tail: the represented list gains `c`
at its end, and only the link of the old last element changes. -/
theorem wlWalk_chain (nc : Nat → Nat) (c : Nat) (hcS : c ≠ SAT_sentinel)
    (hcc : nc c = SAT_sentinel) :
    ∀ fu p L FU nc', chain nc p fu = some L → L.Nodup → c ∉ L →
    p ≠ SAT_sentinel → wlWalk nc p c FU = some nc' →
    chain nc' p (fu+1) = some (L ++ [c]) ∧ (∀ x, x ∉ L → nc' x = nc x) := by
  intro fu
  induction fu with
  | zero => intro p L FU nc' h; simp [chain] at h
  | succ n ih =>
    intro p L FU nc' hch hnd hcL hp hwalk
    rw [chain] at hch
    simp only [hp, if_false] at hch
    rcases hL' : chain nc (nc p) n with _ | L'
    · rw [hL'] at hch; cases hch
    · rw [hL'] at hch
      cases hch
      rcases FU with _ | F
      · simp [wlWalk] at hwalk
      · rw [wlWalk] at hwalk
        by_cases hnp : nc p = SAT_sentinel
        · simp only [hnp, if_true] at hwalk
          cases hwalk
          have hL'nil : L' = [] := by
            rcases n with _ | m
            · simp [chain] at hL'
            · rw [chain] at hL'
              simp only [hnp, if_true] at hL'
              exact (Option.some.inj hL').symm
          subst hL'nil
          have hn1 : 1 ≤ n := by
            rcases n with _ | m
            · simp [chain] at hL'
            · omega
          constructor
          · rw [chain]
            simp only [hp, if_false, upd_same]
            rw [chain]
            have hcp : c ≠ p := by
              intro he; exact hcL (by simp [he])
            simp only [hcS, if_false]
            rw [upd_other nc p c c (hcp), hcc]
            rcases n with _ | m
            · omega
            · rw [chain]
              simp
          · intro x hx
            have hxp : x ≠ p := by simpa using hx
            exact upd_other nc p c x hxp
        · simp only [hnp, if_false] at hwalk
          have hnd' : L'.Nodup := (List.nodup_cons.mp hnd).2
          have hcL' : c ∉ L' := fun hh => hcL (List.mem_cons_of_mem _ hh)
          obtain ⟨hchain', hframe⟩ := ih (nc p) L' F nc' hL' hnd' hcL' hnp hwalk
          have hpL' : p ∉ L' := (List.nodup_cons.mp hnd).1
          constructor
          · rw [chain]
            simp only [hp, if_false]
            rw [hframe p hpL', hchain']
            rfl
          · intro x hx
            exact hframe x (fun hh => hx (List.mem_cons_of_mem _ hh))

/-- The full CAS insertion: the list of `l` gains `c` at its tail; other
heads are untouched, and links outside the old list are untouched. -/
theorem wlAppend_chain (w nc : Nat → Nat) (l c FU : Nat) (w' nc' : Nat → Nat)
    (happ : wlAppend w nc l c FU = some (w', nc'))
    (fu : Nat) (L : List Nat) (hch : chain nc (w l) fu = some L)
    (hnd : L.Nodup) (hcL : c ∉ L) (hcS : c ≠ SAT_sentinel)
    (hcc : nc c = SAT_sentinel) :
    chain nc' (w' l) (fu+1) = some (L ++ [c]) ∧
    (∀ l2, l2 ≠ l → w' l2 = w l2) ∧
    (∀ x, x ∉ L → nc' x = nc x) := by
  unfold wlAppend at happ
  by_cases hwl : w l = SAT_sentinel
  · simp only [hwl, if_true, Option.some.injEq, Prod.mk.injEq] at happ
    obtain ⟨hw', hnc'⟩ := happ
    subst hw'
    subst hnc'
    rcases fu with _ | f
    · simp [chain] at hch
    · have hLnil : L = [] := by
        rw [chain] at hch
        simp [hwl] at hch
        exact hch
      subst hLnil
      refine ⟨?_, ?_, fun x _ => rfl⟩
      · show chain nc (upd w l c l) (f + 1 + 1) = some [c]
        rw [upd_same, chain]
        simp only [hcS, if_false]
        rw [hcc, chain]
        simp
      · intro l2 hl2
        exact upd_other w l c l2 hl2
  · simp only [hwl, if_false] at happ
    rcases hwk : wlWalk nc (w l) c FU with _ | nc2
    · rw [hwk] at happ; cases happ
    · rw [hwk] at happ
      simp only [Option.map_some', Option.some.injEq, Prod.mk.injEq] at happ
      obtain ⟨hw', hnc'⟩ := happ
      subst hw'
      subst hnc'
      obtain ⟨h2, hframe⟩ := wlWalk_chain nc c hcS hcc fu (w l) L FU nc2 hch hnd hcL hwl hwk
      exact ⟨h2, fun l2 _ => rfl, hframe⟩

theorem InvW_mono (lits w nc : Nat → Nat) (P : List Nat) (B B' : Nat)
    (hBB : B ≤ B') (hInv : InvW lits w nc P B) : InvW lits w nc P B' := by
  obtain ⟨h1, h2, h3, h4⟩ := hInv
  refine ⟨h1, ?_, h3, ?_⟩
  · intro x hx
    obtain ⟨ha, hb⟩ := h2 x hx
    exact ⟨by omega, hb⟩
  · intro x hx
    exact h4 x (by omega)

/-- Appending the clause at position `c` (whose first literal is `lits c`)
preserves the construction invariant. -/
theorem InvW_append (lits w nc : Nat → Nat) (P : List Nat) (B c FU : Nat)
    (w' nc' : Nat → Nat) (hInv : InvW lits w nc P B) (hBc : B ≤ c)
    (hcS : c ≠ SAT_sentinel)
    (happ : wlAppend w nc (lits c) c FU = some (w', nc')) :
    InvW lits w' nc' (P ++ [c]) (c+1) := by
  obtain ⟨hch, hbd, hnd, hfresh⟩ := hInv
  have hcP : c ∉ P := fun hh => by
    have := (hbd c hh).1
    omega
  have hcc : nc c = SAT_sentinel := hfresh c hBc
  obtain ⟨fu0, hch0⟩ := hch (lits c)
  have hndf : (P.filter (fun x => lits x == lits c)).Nodup := hnd.filter _
  have hcLf : c ∉ P.filter (fun x => lits x == lits c) :=
    fun hh => hcP (List.mem_of_mem_filter hh)
  obtain ⟨hmain, hwf, hncf⟩ :=
    wlAppend_chain w nc (lits c) c FU w' nc' happ fu0 _ hch0 hndf hcLf hcS hcc
  refine ⟨?_, ?_, ?_, ?_⟩
  · intro l
    by_cases hl : l = lits c
    · subst hl
      refine ⟨fu0 + 1, ?_⟩
      rw [hmain]
      congr 1
      rw [List.filter_append]
      congr 1
      simp
    · obtain ⟨fu1, hch1⟩ := hch l
      refine ⟨fu1, ?_⟩
      rw [hwf l hl]
      have hstep : chain nc' (w l) fu1 = some (P.filter (fun x => lits x == l)) := by
        apply chain_congr nc nc' fu1 _ _ hch1
        intro x hx
        apply hncf
        intro hxin
        have h1 : lits x = l := by simpa using List.of_mem_filter hx
        have h2 : lits x = lits c := by simpa using List.of_mem_filter hxin
        exact hl (h1 ▸ h2)
      rw [hstep]
      congr 1
      rw [List.filter_append]
      have hcfalse : (lits c == l) = false := by
        rw [beq_eq_false_iff_ne]
        exact fun hh => hl hh.symm
      have hfil : [c].filter (fun x => lits x == l) = [] := by
        simp [List.filter, hcfalse]
      rw [hfil, List.append_nil]
  · intro x hx
    rcases List.mem_append.mp hx with hh | hh
    · obtain ⟨ha, hb⟩ := hbd x hh
      exact ⟨by omega, hb⟩
    · have : x = c := by simpa using hh
      subst this
      exact ⟨by omega, hcS⟩
  · refine hnd.append (List.nodup_singleton c) ?_
    intro a ha hb
    have : a = c := by simpa using hb
    subst this
    exact hcP ha
  · intro x hxge
    have hxf : x ∉ P.filter (fun y => lits y == lits c) := by
      intro hxin
      have := (hbd x (List.mem_of_mem_filter hxin)).1
      omega
    rw [hncf x hxf]
    exact hfresh x (by omega)

/-- Row invariant: processing `cnt` literals from offset `i` appends
exactly the row's first-literal positions, in order. -/
theorem setupRowAux_inv (maxn : Nat) (lits : Nat → Nat) (tidx : Nat) :
    ∀ cnt i first w nc FU w' nc' P,
    setupRowAux maxn lits tidx w nc first i cnt FU = some (w', nc') →
    InvW lits w nc P (tidx * maxn + i) →
    tidx * maxn + i + cnt ≤ SAT_sentinel →
    InvW lits w' nc' (P ++ rowFirstPositions maxn lits tidx first i cnt)
      (tidx * maxn + i + cnt) := by
  intro cnt
  induction cnt with
  | zero =>
    intro i first w nc FU w' nc' P hrun hInv _
    rw [setupRowAux] at hrun
    simp only [Option.some.injEq, Prod.mk.injEq] at hrun
    obtain ⟨hw, hnc⟩ := hrun
    subst hw
    subst hnc
    simpa [rowFirstPositions] using hInv
  | succ cnt ih =>
    intro i first w nc FU w' nc' P hrun hInv hbnd
    rw [setupRowAux] at hrun
    rw [rowFirstPositions]
    by_cases hS : lits (tidx * maxn + i) = SAT_sentinel
    · simp only [hS, if_true] at hrun ⊢
      have hres := ih (i+1) true w nc FU w' nc' P hrun
        (InvW_mono lits w nc P _ _ (by omega) hInv) (by omega)
      have heq : tidx * maxn + (i+1) + cnt = tidx * maxn + i + (cnt+1) := by omega
      rwa [heq] at hres
    · simp only [hS, if_false] at hrun ⊢
      cases first with
      | false =>
        simp only [Bool.false_eq_true, if_false] at hrun ⊢
        have hres := ih (i+1) false w nc FU w' nc' P hrun
          (InvW_mono lits w nc P _ _ (by omega) hInv) (by omega)
        have heq : tidx * maxn + (i+1) + cnt = tidx * maxn + i + (cnt+1) := by omega
        rwa [heq] at hres
      | true =>
        simp only [if_true] at hrun ⊢
        rcases happ : wlAppend w nc (lits (tidx * maxn + i)) (tidx * maxn + i) FU
          with _ | p
        · rw [happ] at hrun; cases hrun
        · rw [happ] at hrun
          have hInv2 := InvW_append lits w nc P (tidx * maxn + i) (tidx * maxn + i) FU
            p.1 p.2 hInv (Nat.le_refl _) (fun he => by omega) (by rw [happ])
          have hres := ih (i+1) false p.1 p.2 FU w' nc' (P ++ [tidx * maxn + i]) hrun
            (by
              have heq2 : tidx * maxn + (i+1) = tidx * maxn + i + 1 := by omega
              rw [heq2]
              exact hInv2) (by omega)
          have heq : tidx * maxn + (i+1) + cnt = tidx * maxn + i + (cnt+1) := by omega
          rw [heq] at hres
          rwa [List.append_assoc, List.singleton_append] at hres

/-- Grid invariant over the rows. -/
theorem setupAux_inv (maxn : Nat) (lits nlits : Nat → Nat) :
    ∀ nleft tidx w nc FU w' nc' P,
    setupAux maxn lits nlits w nc tidx nleft FU = some (w', nc') →
    InvW lits w nc P (tidx * maxn) →
    (∀ t, t < tidx + nleft → nlits t ≤ maxn) →
    (tidx + nleft) * maxn ≤ SAT_sentinel →
    InvW lits w' nc' (P ++ allFirstPositions maxn lits nlits tidx nleft)
      ((tidx + nleft) * maxn) := by
  intro nleft
  induction nleft with
  | zero =>
    intro tidx w nc FU w' nc' P hrun hInv _ _
    rw [setupAux] at hrun
    simp only [Option.some.injEq, Prod.mk.injEq] at hrun
    obtain ⟨hw, hnc⟩ := hrun
    subst hw
    subst hnc
    simpa [allFirstPositions] using hInv
  | succ nleft ih =>
    intro tidx w nc FU w' nc' P hrun hInv hnl hbnd
    rw [setupAux] at hrun
    rw [allFirstPositions]
    rcases hrow : setupRowAux maxn lits tidx w nc true 0 (nlits tidx) FU with _ | p
    · rw [hrow] at hrun; cases hrun
    · rw [hrow] at hrun
      have hle1 : nlits tidx ≤ maxn := hnl tidx (by omega)
      have hle2 : (tidx + 1) * maxn ≤ (tidx + (nleft + 1)) * maxn :=
        Nat.mul_le_mul_right _ (by omega)
      have hrowInv := setupRowAux_inv maxn lits tidx (nlits tidx) 0 true w nc FU
        p.1 p.2 P (by rw [← hrow]) (by simpa using hInv)
        (by
          have hsm : (tidx + 1) * maxn = tidx * maxn + maxn := by ring
          omega)
      have hrowInv2 : InvW lits p.1 p.2 (P ++ rowFirstPositions maxn lits tidx true 0 (nlits tidx))
          ((tidx + 1) * maxn) := by
        apply InvW_mono _ _ _ _ _ _ ?hle hrowInv
        case hle =>
          have hsm : (tidx + 1) * maxn = tidx * maxn + maxn := by ring
          omega
      have hres := ih (tidx + 1) p.1 p.2 FU w' nc'
        (P ++ rowFirstPositions maxn lits tidx true 0 (nlits tidx)) hrun hrowInv2
        (fun t ht => hnl t (by omega))
        (by
          have heq : tidx + 1 + nleft = tidx + (nleft + 1) := by omega
          rw [heq]
          exact hbnd)
      have heq : tidx + 1 + nleft = tidx + (nleft + 1) := by omega
      rw [heq] at hres
      rwa [List.append_assoc] at hres

/-- C6 (amended): after `setup_watch_list`, each literal's watch list
contains exactly the clauses (clause-start positions, one insertion per
clause) whose first literal it is — but in row-major insertion order with
the FIRST inserted clause at the head: the CAS loop walks to the end of
the list and installs the new clause at the tail (a lock-free tail append,
not a stack push). -/
theorem C6_theorem (nvars maxn : Nat) (lits nlits : Nat → Nat) (FU : Nat)
    (w nc : Nat → Nat)
    (hsetup : setupWatchList nvars maxn lits nlits FU = some (w, nc))
    (hnl : ∀ t, t < nvars → nlits t ≤ maxn)
    (hbound : nvars * maxn ≤ SAT_sentinel) :
    ∀ l, ∃ fu, chain nc (w l) fu =
      some ((allFirstPositions maxn lits nlits 0 nvars).filter
        (fun c => lits c == l)) := by
  have hInv0 : InvW lits (fun _ => SAT_sentinel) (fun _ => SAT_sentinel) [] 0 := by
    refine ⟨fun l => ⟨1, by simp [chain]⟩, by simp, List.nodup_nil, fun x _ => rfl⟩
  have hres := setupAux_inv maxn lits nlits nvars 0 _ _ FU w nc [] hsetup
    (by simpa using hInv0) (by simpa using hnl) (by simpa using hbound)
  intro l
  obtain ⟨fu, hch⟩ := hres.1 l
  exact ⟨fu, by simpa using hch⟩

/-- C6, counterexample: a row with two clauses (positions 0 and 2) sharing
first literal 0.  After construction the watch list of literal 0 reads
`[0, 2]`: the FIRST inserted clause 0 is at the head, not the most
recently inserted clause 2, refuting the claimed lock-free stack push
(head insertion) ordering. -/
theorem C6_counterexample :
    (setupWatchList 1 4 litsC6 (ofList [4]) 10).map
      (fun p => chain p.2 (p.1 0) 10) = some (some [0, 2]) := by
  decide

/-- C6 witness: the amended characterisation evaluated on the two-clause
row; the filter of all first positions by first literal 0 is `[0, 2]`. -/
theorem C6_witness :
    ∃ w nc, setupWatchList 1 4 litsC6 (ofList [4]) 10 = some (w, nc) ∧
      ∃ fu, chain nc (w 0) fu =
        some ((allFirstPositions 4 litsC6 (ofList [4]) 0 1).filter
          (fun c => litsC6 c == 0)) := by
  have hsome : (setupWatchList 1 4 litsC6 (ofList [4]) 10).isSome = true := by decide
  obtain ⟨p, hp⟩ := Option.isSome_iff_exists.mp hsome
  refine ⟨p.1, p.2, by rw [hp], ?_⟩
  exact C6_theorem 1 4 litsC6 (ofList [4]) 10 p.1 p.2 (by rw [hp])
    (by intro t ht; interval_cases t; decide) (by decide) 0

/-! ### The dependency-graph builder -/

theorem depRowAux_count (maxn : Nat) (lits : Nat → Nat) (tidx maxe : Nat) :
    ∀ cnt j prev acc count,
    (depRowAux maxn lits tidx maxe j cnt prev acc count).1 =
      count + (rowEdges maxn lits tidx j cnt prev).length := by
  intro cnt
  induction cnt with
  | zero => intro j prev acc count; simp [depRowAux, rowEdges]
  | succ cnt ih =>
    intro j prev acc count
    rw [depRowAux, rowEdges]
    by_cases hc : prev ≠ SAT_sentinel ∧ lits (tidx * maxn + j) ≠ SAT_sentinel
    · rw [if_pos hc, if_pos hc]
      rw [ih]
      simp only [List.length_cons]
      omega
    · rw [if_neg hc, if_neg hc]
      rw [ih]

theorem depRowAux_acc (maxn : Nat) (lits : Nat → Nat) (tidx maxe : Nat) :
    ∀ cnt j prev acc count,
    (depRowAux maxn lits tidx maxe j cnt prev acc count).1 ≤ maxe →
    (depRowAux maxn lits tidx maxe j cnt prev acc count).2 =
      acc ++ rowEdges maxn lits tidx j cnt prev := by
  intro cnt
  induction cnt with
  | zero => intro j prev acc count _; simp [depRowAux, rowEdges]
  | succ cnt ih =>
    intro j prev acc count hle
    rw [depRowAux] at hle ⊢
    rw [rowEdges]
    by_cases hc : prev ≠ SAT_sentinel ∧ lits (tidx * maxn + j) ≠ SAT_sentinel
    · rw [if_pos hc] at hle ⊢
      rw [if_pos hc]
      dsimp only at hle ⊢
      have hcnt := depRowAux_count maxn lits tidx maxe cnt (j+1)
        (lits (tidx * maxn + j))
        (if count + 1 < maxe then
          acc ++ [(lits (tidx * maxn + j) >>> 1, prev >>> 1),
                  (prev >>> 1, lits (tidx * maxn + j) >>> 1)]
         else acc) (count + 2)
      have hfit : count + 1 < maxe := by
        rw [hcnt] at hle
        omega
      rw [if_pos hfit] at hle ⊢
      rw [ih (j+1) (lits (tidx * maxn + j)) _ (count + 2) hle]
      simp
    · rw [if_neg hc] at hle ⊢
      rw [if_neg hc]
      exact ih (j+1) (lits (tidx * maxn + j)) acc count hle

theorem findDepsAux_count (maxn : Nat) (lits nlits : Nat → Nat) (maxe : Nat) :
    ∀ nleft tidx acc count,
    (findDepsAux maxn lits nlits maxe tidx nleft acc count).1 =
      count + (allEdges maxn lits nlits tidx nleft).length := by
  intro nleft
  induction nleft with
  | zero => intro tidx acc count; simp [findDepsAux, allEdges]
  | succ nleft ih =>
    intro tidx acc count
    rw [findDepsAux, allEdges]
    rw [ih]
    rw [depRowAux_count]
    simp [Nat.add_assoc]

theorem findDepsAux_acc (maxn : Nat) (lits nlits : Nat → Nat) (maxe : Nat) :
    ∀ nleft tidx acc count,
    (findDepsAux maxn lits nlits maxe tidx nleft acc count).1 ≤ maxe →
    (findDepsAux maxn lits nlits maxe tidx nleft acc count).2 =
      acc ++ allEdges maxn lits nlits tidx nleft := by
  intro nleft
  induction nleft with
  | zero => intro tidx acc count _; simp [findDepsAux, allEdges]
  | succ nleft ih =>
    intro tidx acc count hle
    rw [findDepsAux] at hle ⊢
    rw [allEdges]
    have hrowle : (depRowAux maxn lits tidx maxe 0 (nlits tidx) SAT_sentinel acc count).1
        ≤ maxe := by
      rw [findDepsAux_count] at hle
      rw [depRowAux_count] at hle ⊢
      omega
    rw [ih _ _ _ hle]
    rw [depRowAux_acc maxn lits tidx maxe (nlits tidx) 0 SAT_sentinel acc count hrowle]
    rw [List.append_assoc]

/-- The positional row-edge emission equals the list-level one over the
row segment. -/
theorem rowEdges_eq_listEdges (maxn : Nat) (lits : Nat → Nat) (tidx : Nat) :
    ∀ cnt j prev, rowEdges maxn lits tidx j cnt prev =
      listEdges prev ((List.range cnt).map (fun k => lits (tidx * maxn + (j + k)))) := by
  intro cnt
  induction cnt with
  | zero => intro j prev; simp [rowEdges, listEdges]
  | succ cnt ih =>
    intro j prev
    rw [List.range_succ_eq_map]
    simp only [List.map_cons, List.map_map]
    rw [rowEdges, listEdges]
    have hmap : (List.range cnt).map ((fun k => lits (tidx * maxn + (j + k))) ∘ Nat.succ)
        = (List.range cnt).map (fun k => lits (tidx * maxn + (j + 1 + k))) := by
      apply List.map_congr_left
      intro k _
      simp only [Function.comp]
      congr 1
      omega
    rw [hmap]
    simp only [Nat.add_zero]
    rw [ih (j+1) (lits (tidx * maxn + j))]

theorem consecPairs_append_pair :
    ∀ (ys : List Nat) (a b : Nat),
    consecPairs (ys ++ [a, b]) = consecPairs (ys ++ [a]) ++ [(a, b)] := by
  intro ys
  induction ys with
  | nil => intro a b; simp [consecPairs]
  | cons y ys ih =>
    intro a b
    cases ys with
    | nil => simp [consecPairs]
    | cons z zs =>
      have h1 : (y :: z :: zs) ++ [a, b] = y :: ((z :: zs) ++ [a, b]) := rfl
      have h2 : (y :: z :: zs) ++ [a] = y :: ((z :: zs) ++ [a]) := rfl
      rw [h1, h2]
      have h3 : ∀ w ws, consecPairs (y :: ((z :: zs) ++ ([w] : List Nat) ++ ws)) =
          (y, z) :: consecPairs ((z :: zs) ++ [w] ++ ws) := by
        intro w ws
        rfl
      have h4 : consecPairs (y :: ((z :: zs) ++ [a, b])) =
          (y, z) :: consecPairs ((z :: zs) ++ [a, b]) := rfl
      have h5 : consecPairs (y :: ((z :: zs) ++ [a])) =
          (y, z) :: consecPairs ((z :: zs) ++ [a]) := rfl
      rw [h4, h5, ih]
      rfl

theorem splitRow_first :
    ∀ (rest cur : List Nat), ∃ C ∈ splitRow rest cur, ∀ x ∈ cur, x ∈ C := by
  intro rest
  induction rest with
  | nil =>
    intro cur
    exact ⟨cur.reverse, by simp [splitRow], fun x hx => List.mem_reverse.mpr hx⟩
  | cons l rest ih =>
    intro cur
    by_cases hl : l = SAT_sentinel
    · refine ⟨cur.reverse, ?_, fun x hx => List.mem_reverse.mpr hx⟩
      rw [splitRow, if_pos hl]
      simp
    · obtain ⟨C, hC, hsub⟩ := ih (l :: cur)
      refine ⟨C, ?_, fun x hx => hsub x (List.mem_cons_of_mem _ hx)⟩
      rw [splitRow, if_neg hl]
      exact hC

theorem listEdges_subset (prev l : Nat) (rest : List Nat) :
    ∀ q ∈ listEdges l rest, q ∈ listEdges prev (l :: rest) := by
  intro q hq
  rw [listEdges]
  by_cases hc : prev ≠ SAT_sentinel ∧ l ≠ SAT_sentinel
  · rw [if_pos hc]
    exact List.mem_cons_of_mem _ (List.mem_cons_of_mem _ hq)
  · rw [if_neg hc]
    exact hq

/-- Every emitted edge joins two variables occurring in a common clause of
the row. -/
theorem listEdges_clique :
    ∀ (xs cur : List Nat) (prev : Nat), (prev ≠ SAT_sentinel → prev ∈ cur) →
    ∀ a b, (a, b) ∈ listEdges prev xs →
    ∃ C ∈ splitRow xs cur, (∃ l2 ∈ C, l2 >>> 1 = a) ∧ (∃ l2 ∈ C, l2 >>> 1 = b) := by
  intro xs
  induction xs with
  | nil => intro cur prev _ a b hab; simp [listEdges] at hab
  | cons l rest ih =>
    intro cur prev hinv a b hab
    rw [listEdges] at hab
    rw [splitRow]
    by_cases hl : l = SAT_sentinel
    · rw [if_neg (by tauto)] at hab
      rw [if_pos hl]
      subst hl
      obtain ⟨C, hC, hocc⟩ := ih [] SAT_sentinel (by simp) a b hab
      exact ⟨C, List.mem_cons_of_mem _ hC, hocc⟩
    · rw [if_neg hl]
      by_cases hp : prev ≠ SAT_sentinel
      · rw [if_pos ⟨hp, hl⟩] at hab
        rcases List.mem_cons.mp hab with heq | hab'
        · obtain ⟨C, hC, hsub⟩ := splitRow_first rest (l :: cur)
          have ha : a = l >>> 1 := (Prod.mk.injEq _ _ _ _ ▸ heq).1
          have hb : b = prev >>> 1 := (Prod.mk.injEq _ _ _ _ ▸ heq).2
          exact ⟨C, hC, ⟨l, hsub l (by simp), ha.symm⟩,
            ⟨prev, hsub prev (List.mem_cons_of_mem _ (hinv hp)), hb.symm⟩⟩
        · rcases List.mem_cons.mp hab' with heq | hab''
          · obtain ⟨C, hC, hsub⟩ := splitRow_first rest (l :: cur)
            have ha : a = prev >>> 1 := (Prod.mk.injEq _ _ _ _ ▸ heq).1
            have hb : b = l >>> 1 := (Prod.mk.injEq _ _ _ _ ▸ heq).2
            exact ⟨C, hC, ⟨prev, hsub prev (List.mem_cons_of_mem _ (hinv hp)), ha.symm⟩,
              ⟨l, hsub l (by simp), hb.symm⟩⟩
          · exact ih (l :: cur) l (fun _ => by simp) a b hab''
      · rw [if_neg (by tauto)] at hab
        exact ih (l :: cur) l (fun _ => by simp) a b hab

/-- Every pair of consecutive literals of a clause of the row is joined
(bidirectionally, on variables) by an emitted edge. -/
theorem listEdges_covers :
    ∀ (xs cur : List Nat) (prev : Nat),
    (cur = [] ∨ (prev ≠ SAT_sentinel ∧ ∃ cur', cur = prev :: cur')) →
    ∀ C ∈ splitRow xs cur, ∀ p ∈ consecPairs C,
      p ∈ consecPairs cur.reverse ∨
      ((p.1 >>> 1, p.2 >>> 1) ∈ listEdges prev xs ∧
       (p.2 >>> 1, p.1 >>> 1) ∈ listEdges prev xs) := by
  intro xs
  induction xs with
  | nil =>
    intro cur prev _ C hC p hp
    rw [splitRow] at hC
    simp only [List.mem_singleton] at hC
    subst hC
    exact Or.inl hp
  | cons l rest ih =>
    intro cur prev hinv C hC p hp
    rw [splitRow] at hC
    rw [listEdges]
    by_cases hl : l = SAT_sentinel
    · rw [if_pos hl] at hC
      rw [if_neg (by tauto)]
      rcases List.mem_cons.mp hC with rfl | hC'
      · exact Or.inl hp
      · have hres := ih [] l (Or.inl rfl) C hC' p hp
        rcases hres with hin | hin
        · simp [consecPairs] at hin
        · subst hl
          exact Or.inr hin
    · rw [if_neg hl] at hC
      have hres := ih (l :: cur) l (Or.inr ⟨hl, cur, rfl⟩) C hC p hp
      rcases hres with hin | hin
      · rcases hinv with rfl | ⟨hp0, cur', rfl⟩
        · simp [consecPairs] at hin
        · have hrev : (l :: prev :: cur').reverse = cur'.reverse ++ [prev, l] := by
            simp
          rw [hrev, consecPairs_append_pair] at hin
          rcases List.mem_append.mp hin with hin' | hin'
          · left
            have hrev2 : (prev :: cur').reverse = cur'.reverse ++ [prev] := by simp
            rw [hrev2]
            exact hin'
          · right
            have hpeq : p = (prev, l) := by simpa using hin'
            subst hpeq
            rw [if_pos ⟨hp0, hl⟩]
            constructor
            · exact List.mem_cons_of_mem _ (List.mem_cons_self _ _)
            · exact List.mem_cons_self _ _
      · refine Or.inr ⟨?_, ?_⟩
        · exact listEdges_subset prev l rest _ hin.1
        · exact listEdges_subset prev l rest _ hin.2

theorem clause_head_path (E : List (Nat × Nat)) :
    ∀ (C : List Nat) (a : Nat),
    (∀ p ∈ consecPairs (a :: C), (p.1 >>> 1, p.2 >>> 1) ∈ E) →
    ∀ y ∈ C, Relation.EqvGen (edgeStep E) (a >>> 1) (y >>> 1) := by
  intro C
  induction C with
  | nil => intro a _ y hy; simp at hy
  | cons b rest ih =>
    intro a hadj y hy
    have hab : Relation.EqvGen (edgeStep E) (a >>> 1) (b >>> 1) :=
      Relation.EqvGen.rel _ _ (hadj (a, b) (by simp [consecPairs]))
    rcases List.mem_cons.mp hy with rfl | hy'
    · exact hab
    · have hadj2 : ∀ p ∈ consecPairs (b :: rest), (p.1 >>> 1, p.2 >>> 1) ∈ E := by
        intro p hp
        apply hadj
        show p ∈ consecPairs (a :: b :: rest)
        rw [consecPairs]
        exact List.mem_cons_of_mem _ hp
      exact Relation.EqvGen.trans _ _ _ hab (ih b hadj2 y hy')

theorem clause_path (E : List (Nat × Nat)) (C : List Nat)
    (hadj : ∀ p ∈ consecPairs C, (p.1 >>> 1, p.2 >>> 1) ∈ E) :
    ∀ x ∈ C, ∀ y ∈ C, Relation.EqvGen (edgeStep E) (x >>> 1) (y >>> 1) := by
  intro x hx y hy
  cases C with
  | nil => simp at hx
  | cons a rest =>
    have key := clause_head_path E rest a hadj
    rcases List.mem_cons.mp hx with rfl | hx'
    · rcases List.mem_cons.mp hy with rfl | hy'
      · exact Relation.EqvGen.refl _
      · exact key y hy'
    · rcases List.mem_cons.mp hy with rfl | hy'
      · exact Relation.EqvGen.symm _ _ (key x hx')
      · exact Relation.EqvGen.trans _ _ _ (Relation.EqvGen.symm _ _ (key x hx')) (key y hy')

theorem mem_allEdges (maxn : Nat) (lits nlits : Nat → Nat) :
    ∀ nleft tidx t, tidx ≤ t → t < tidx + nleft →
    ∀ q ∈ rowEdges maxn lits t 0 (nlits t) SAT_sentinel,
    q ∈ allEdges maxn lits nlits tidx nleft := by
  intro nleft
  induction nleft with
  | zero => intro tidx t h1 h2 q _; exact absurd h2 (by omega)
  | succ nleft ih =>
    intro tidx t h1 h2 q hq
    rw [allEdges]
    rcases Nat.eq_or_lt_of_le h1 with rfl | hlt
    · exact List.mem_append_left _ hq
    · exact List.mem_append_right _ (ih (tidx+1) t hlt (by omega) q hq)

theorem allEdges_mem_row (maxn : Nat) (lits nlits : Nat → Nat) :
    ∀ nleft tidx q, q ∈ allEdges maxn lits nlits tidx nleft →
    ∃ t, tidx ≤ t ∧ t < tidx + nleft ∧
      q ∈ rowEdges maxn lits t 0 (nlits t) SAT_sentinel := by
  intro nleft
  induction nleft with
  | zero => intro tidx q hq; simp [allEdges] at hq
  | succ nleft ih =>
    intro tidx q hq
    rw [allEdges] at hq
    rcases List.mem_append.mp hq with hq' | hq'
    · exact ⟨tidx, Nat.le_refl _, by omega, hq'⟩
    · obtain ⟨t, h1, h2, h3⟩ := ih (tidx+1) q hq'
      exact ⟨t, by omega, by omega, h3⟩

theorem rowEdges_rowList (maxn : Nat) (lits : Nat → Nat) (t nlit : Nat) :
    rowEdges maxn lits t 0 nlit SAT_sentinel =
      listEdges SAT_sentinel (rowList maxn lits t nlit) := by
  rw [rowEdges_eq_listEdges]
  unfold rowList
  congr 1
  apply List.map_congr_left
  intro k _
  congr 1
  omega

theorem mem_allClauses_intro (nvars maxn : Nat) (lits nlits : Nat → Nat)
    (t : Nat) (ht : t < nvars) (C : List Nat)
    (hC : C ∈ splitRow (rowList maxn lits t (nlits t)) []) :
    C ∈ allClauses nvars maxn lits nlits := by
  unfold allClauses
  rw [List.mem_flatMap]
  exact ⟨t, List.mem_range.mpr ht, hC⟩

theorem mem_allClauses_elim (nvars maxn : Nat) (lits nlits : Nat → Nat)
    (C : List Nat) (hC : C ∈ allClauses nvars maxn lits nlits) :
    ∃ t, t < nvars ∧ C ∈ splitRow (rowList maxn lits t (nlits t)) [] := by
  unfold allClauses at hC
  rw [List.mem_flatMap] at hC
  obtain ⟨t, ht, hC'⟩ := hC
  exact ⟨t, List.mem_range.mp ht, hC'⟩

/-- C7: when the emitted edge count fits the capacity, the edge list
written by `find_dependencies` is the full chain-edge list (one
bidirectional edge per consecutive literal pair within a clause, none
across the sentinel), and its equivalence closure coincides with the
equivalence closure of the clause co-occurrence (clique) relation: the
connected components agree. -/
theorem C7_theorem (nvars maxn maxe : Nat) (lits nlits : Nat → Nat)
    (hfit : (findDeps nvars maxn lits nlits maxe).1 ≤ maxe) :
    (findDeps nvars maxn lits nlits maxe).2 = allEdges maxn lits nlits 0 nvars ∧
    (∀ x y,
      Relation.EqvGen (edgeStep (findDeps nvars maxn lits nlits maxe).2) x y ↔
      Relation.EqvGen (cliqueStep (allClauses nvars maxn lits nlits)) x y) := by
  have hE : (findDeps nvars maxn lits nlits maxe).2 = allEdges maxn lits nlits 0 nvars := by
    unfold findDeps at hfit ⊢
    simpa using findDepsAux_acc maxn lits nlits maxe nvars 0 [] 0 hfit
  refine ⟨hE, ?_⟩
  intro x y
  rw [hE]
  constructor
  · intro h
    refine Relation.EqvGen.mono ?_ h
    intro a b hab
    obtain ⟨t, _, ht1, hq⟩ := allEdges_mem_row maxn lits nlits nvars 0 (a, b) hab
    rw [rowEdges_rowList] at hq
    obtain ⟨C, hC, hocc⟩ :=
      listEdges_clique (rowList maxn lits t (nlits t)) [] SAT_sentinel (by simp) a b hq
    exact ⟨C, mem_allClauses_intro nvars maxn lits nlits t (by omega) C hC, hocc⟩
  · intro h
    induction h with
    | rel a b hab =>
      obtain ⟨C, hC, ⟨la, hla, hla2⟩, ⟨lb, hlb, hlb2⟩⟩ := hab
      obtain ⟨t, ht, hCrow⟩ := mem_allClauses_elim nvars maxn lits nlits C hC
      have hadj : ∀ p ∈ consecPairs C,
          (p.1 >>> 1, p.2 >>> 1) ∈ allEdges maxn lits nlits 0 nvars := by
        intro p hp
        have hres := listEdges_covers (rowList maxn lits t (nlits t)) [] SAT_sentinel
          (Or.inl rfl) C hCrow p hp
        rcases hres with hin | hin
        · simp [consecPairs] at hin
        · have h1 := hin.1
          rw [← rowEdges_rowList] at h1
          exact mem_allEdges maxn lits nlits nvars 0 t (by omega) (by omega) _ h1
      have := clause_path (allEdges maxn lits nlits 0 nvars) C hadj la hla lb hlb
      rwa [hla2, hlb2] at this
    | refl a => exact Relation.EqvGen.refl a
    | symm a b _ ih => exact Relation.EqvGen.symm a b ih
    | trans a b c _ _ ih1 ih2 => exact Relation.EqvGen.trans a b c ih1 ih2

/-- C7 witness: the single row `x0 ∨ x1` with ample capacity; the written
edge list is the full bidirectional chain-edge list. -/
theorem C7_witness :
    (findDeps 1 2 (ofList [0, 2]) (ofList [2]) 10).2 =
      allEdges 2 (ofList [0, 2]) (ofList [2]) 0 1 :=
  (C7_theorem 1 2 10 (ofList [0, 2]) (ofList [2]) (by decide)).1

/-! ### Scratch allocation, ring initialization and error signalling -/

theorem findRepFuel_eq (ptr : Nat → Nat) :
    ∀ fuel v, v ≤ fuel → findRepFuel ptr v fuel = findRep ptr v := by
  intro fuel
  induction fuel with
  | zero =>
    intro v hv
    have hv0 : v = 0 := by omega
    subst hv0
    rw [findRepFuel, findRep_eq]
    simp
  | succ n ih =>
    intro v hv
    rw [findRepFuel, findRep_eq]
    by_cases hlt : ptr v < v
    · rw [if_pos hlt, if_pos hlt]
      exact ih (ptr v) (by omega)
    · rw [if_neg hlt, if_neg hlt]

/-- C8: at the clause store `{x0 ∨ x1, ¬x0}` the solve runs a single
component whose ring holds only variable 0 at initialization (variable 1
is watched nowhere after construction), so `n = 1` and
`component_start = 0`; yet during the search the watch-list migration
inserts variable 1 into the ring and the stack index `d` reaches 2, i.e.
`component_start + n < maxD`: the claimed bound
`d <= component_start + n` is violated and a second component allocated at
heap offset 1 would alias this component's stack. -/
theorem C8_theorem :
    (runC89.map (fun st => (st.curStart, st.curN, st.maxD, st.unsat)))
      = some (0, 1, 2, 0) ∧ (0 : Nat) + 1 < 2 :=
  ⟨by decide, by decide⟩

/-- C9, counterexample: in the store `{x0 ∨ x1, ¬x0}` variable 1 is the
first literal of no clause, so after `setup_watch_list` both its watch
lists (literal slots 2 and 3) are empty; nevertheless the solve forces
`¬x0`, migrates the clause `x0 ∨ x1` onto literal `x1` — inserting
variable 1 into the active ring — and returns with `unsat_count = 0` and
`assignment[1] = 1`, not the unassigned sentinel. -/
theorem C9_counterexample :
    ((setupWatchList 2 5 litsC89 (ofList [5, 0]) 30).map
      (fun p => (p.1 2, p.1 3))) = some (SAT_sentinel, SAT_sentinel) ∧
    (runC89.map (fun st => (st.assignment 1, st.unsat))) = some (1, 0) :=
  ⟨by decide, by decide⟩

/-- C9 (amended): a variable whose watch lists are both empty is not
appended to any component list by `initialize_components` — its thread
only records the representative and resets its assignment, leaving the
head and next arrays untouched.  (It may nevertheless be inserted into
the ring later by watch-list migration during search and end up assigned
even when `unsat_count == 0`, as the counterexample shows.) -/
theorem C9_theorem (ptr : Nat → Nat) (st : SState) (node fuel : Nat)
    (hempty : st.watch (2*node) = SAT_sentinel ∧ st.watch (2*node+1) = SAT_sentinel) :
    initNode ptr st node fuel = some { st with
      rep := upd st.rep node (findRep ptr (ptr node))
      assignment := upd st.assignment node SAT_sentinel } := by
  unfold initNode
  rw [if_neg]
  · rw [findRepFuel_eq ptr (ptr node) (ptr node) (Nat.le_refl _)]
  · intro hor
    rcases hor with hh | hh
    · exact hh hempty.1
    · exact hh hempty.2

/-- C9 witness: node 1 of the all-empty-watch state `stC5` is processed
without touching the head or next arrays. -/
theorem C9_witness :
    initNode (ofList []) stC5 1 5 = some { stC5 with
      rep := upd stC5.rep 1 (findRep (ofList []) (ofList [] 1))
      assignment := upd stC5.assignment 1 SAT_sentinel } :=
  C9_theorem (ofList []) stC5 1 5 ⟨by decide, by decide⟩

/-- C3, counterexample: on the kernel input `stC3` the search hits a
backtracking flip whose falsified literal is watched by a clause with no
alternative literal, so `update_watchlist` returns false (recorded by the
ghost flag `failed`); the boolean is discarded at the call site, the
search loop continues and the worker terminates through its normal
satisfied exit with `unsat_count = 0`: the failure is silently swallowed,
not signalled to the caller. -/
theorem C3_counterexample :
    ((runNode litsC3 0 stC3 40).map (fun st => (st.failed, st.unsat)))
      = some (true, 0) := by
  decide

/-- C3 (amended): when `update_watchlist` returns false during a commit,
`kernel::solve_sat` discards the result: the commit completes normally
and the search loop continues with only the ghost flag recording the
failure — the kernel writes no error output, so nothing reaches the
caller. -/
theorem C3_theorem (lits : Nat → Nat) (st : SState) (k fuel : Nat) (st2 : SState)
    (hu : updateWatchlist lits (2*k + ((st.dstate (st.d - 1) + 1) &&& 1))
        { st with assignment := upd st.assignment k ((st.dstate (st.d - 1) + 1) &&& 1) }
        fuel = some (st2, false)) :
    commitTail lits st k fuel = some { st2 with failed := true } := by
  unfold commitTail
  rw [hu]
  simp

/-- C3 witness: a commit whose migration fails; the commit still returns
normally. -/
theorem C3_witness :
    ∃ st2 : SState, commitTail litsC3w stC3w 0 10 = some { st2 with failed := true } := by
  obtain ⟨p, hp⟩ : ∃ p, updateWatchlist litsC3w 0
      { stC3w with assignment := upd stC3w.assignment 0 ((stC3w.dstate (stC3w.d - 1) + 1) &&& 1) }
      10 = some p :=
    Option.isSome_iff_exists.mp (by decide)
  have hsnd : p.2 = false := by
    have hm : ((updateWatchlist litsC3w 0
        { stC3w with assignment := upd stC3w.assignment 0 ((stC3w.dstate (stC3w.d - 1) + 1) &&& 1) }
        10).map Prod.snd) = some false := by decide
    rw [hp] at hm
    simpa using hm
  have hp2 : updateWatchlist litsC3w (2*0 + ((stC3w.dstate (stC3w.d - 1) + 1) &&& 1))
      { stC3w with assignment := upd stC3w.assignment 0 ((stC3w.dstate (stC3w.d - 1) + 1) &&& 1) }
      10 = some (p.1, false) := by
    show updateWatchlist litsC3w (2*0 + ((stC3w.dstate (stC3w.d - 1) + 1) &&& 1))
      { stC3w with assignment := upd stC3w.assignment 0 ((stC3w.dstate (stC3w.d - 1) + 1) &&& 1) }
      10 = some (p.1, false)
    have h0 : (2*0 + ((stC3w.dstate (stC3w.d - 1) + 1) &&& 1)) = 0 := by decide
    rw [h0, hp, ← hsnd]
  exact ⟨p.1, C3_theorem litsC3w stC3w 0 10 p.1 hp2⟩

/-! ### Soundness development (C1): chain, clause and mask basics -/

theorem sentinel_large : 2 ≤ SAT_sentinel := by decide

theorem bitOf_le_one (s : Nat) : bitOf s ≤ 1 := by
  have h := Nat.and_le_right (n := s + 1) (m := 1)
  unfold bitOf
  omega

theorem bitOf_ne_sentinel (s : Nat) : bitOf s ≠ SAT_sentinel := by
  have h1 := bitOf_le_one s
  have h2 := sentinel_large
  omega

theorem bitOf_eq_sub (s : Nat) (hs : s ≤ 1) : bitOf s = 1 - s := by
  interval_cases s <;> decide

theorem bitOf_flip (s : Nat) (hs : s ≤ 1) : bitOf (3 - s) = s := by
  interval_cases s <;> decide

theorem shiftRight_one (l : Nat) : l >>> 1 = l / 2 := by
  rw [Nat.shiftRight_eq_div_pow]

theorem and_one_eq_mod (l : Nat) : l &&& 1 = l % 2 := Nat.and_one_is_mod l

theorem lit_var_bit (k b : Nat) (hb : b ≤ 1) :
    (2 * k + b) >>> 1 = k ∧ (2 * k + b) &&& 1 = b := by
  rw [shiftRight_one, and_one_eq_mod]
  omega

theorem lit_decomp (l : Nat) : l = 2 * (l >>> 1) + (l &&& 1) ∧ l &&& 1 ≤ 1 := by
  rw [shiftRight_one, and_one_eq_mod]
  omega

theorem lit_var_lt (l nvars : Nat) (h : l < 2 * nvars) : l >>> 1 < nvars := by
  rw [shiftRight_one]
  omega

theorem litNonFalse_unassigned (asg : Nat → Nat) (l : Nat)
    (h : asg (l >>> 1) = SAT_sentinel) : litNonFalse asg l = true := by
  simp [litNonFalse, h]

theorem litNonFalse_iff (asg : Nat → Nat) (l : Nat) :
    litNonFalse asg l = true ↔
      (asg (l >>> 1) = SAT_sentinel ∨ asg (l >>> 1) ≠ (l &&& 1)) := by
  unfold litNonFalse
  rcases Decidable.em (asg (l >>> 1) = SAT_sentinel) with h | h <;>
    rcases Decidable.em (asg (l >>> 1) = (l &&& 1)) with h2 | h2 <;>
    simp [h, h2]

theorem litTrue_iff (asg : Nat → Nat) (l : Nat) :
    litTrue asg l = true ↔
      (asg (l >>> 1) ≠ SAT_sentinel ∧ litNonFalse asg l = true) := by
  unfold litTrue
  rcases Decidable.em (asg (l >>> 1) = SAT_sentinel) with h | h <;>
    simp [h, litNonFalse, litNonFalse_iff]

theorem litNonFalse_false_commit (asg : Nat → Nat) (k b : Nat) (hb : b ≤ 1)
    (h : asg k = b) : litNonFalse asg (2 * k + b) = false := by
  have hv := lit_var_bit k b hb
  have h2 := sentinel_large
  unfold litNonFalse
  rw [hv.1, hv.2, h]
  simp
  omega

theorem litTrue_opp_commit (asg : Nat → Nat) (k b : Nat) (hb : b ≤ 1)
    (h : asg k = b) : litTrue asg (2 * k + (1 - b)) = true := by
  have hv := lit_var_bit k (1 - b) (by omega)
  have h2 := sentinel_large
  rw [litTrue_iff, hv.1, litNonFalse_iff, hv.1, hv.2, h]
  constructor
  · omega
  · right
    omega

/-! #### `IsChain` basics -/

theorem IsChain_head (link : Nat → Nat) (p c : Nat) (L : List Nat)
    (h : IsChain link p (c :: L)) : p = c ∧ c ≠ SAT_sentinel ∧
      IsChain link (link c) L := by
  cases h with
  | cons _ _ hc ht => exact ⟨rfl, hc, ht⟩

theorem IsChain_nil_head (link : Nat → Nat) (p : Nat)
    (h : IsChain link p []) : p = SAT_sentinel := by
  cases h
  rfl

theorem IsChain_det (link : Nat → Nat) :
    ∀ p L1, IsChain link p L1 → ∀ L2, IsChain link p L2 → L1 = L2 := by
  intro p L1 h1
  induction h1 with
  | nil =>
    intro L2 h2
    cases h2 with
    | nil => rfl
    | cons c L hc _ => exact absurd rfl hc
  | cons c L hc ht ih =>
    intro L2 h2
    cases h2 with
    | nil => exact absurd rfl hc
    | cons _ L2t _ ht2 => rw [ih L2t ht2]

theorem IsChain_congr (link link' : Nat → Nat) (p : Nat) (L : List Nat)
    (h : IsChain link p L) (hcong : ∀ x ∈ L, link' x = link x) :
    IsChain link' p L := by
  induction h with
  | nil => exact IsChain.nil
  | cons c L hc ht ih =>
    refine IsChain.cons c L hc ?_
    rw [hcong c (by simp)]
    exact ih (fun x hx => hcong x (by simp [hx]))

theorem IsChain_mem_ne_sent (link : Nat → Nat) (p : Nat) (L : List Nat)
    (h : IsChain link p L) : ∀ x ∈ L, x ≠ SAT_sentinel := by
  induction h with
  | nil => simp
  | cons c L hc _ ih =>
    intro x hx
    rcases List.mem_cons.mp hx with rfl | hx'
    · exact hc
    · exact ih x hx'

theorem IsChain_mem_suffix (link : Nat → Nat) (p : Nat) (M : List Nat)
    (h : IsChain link p M) : ∀ c ∈ M, ∃ M2, IsChain link c (c :: M2) ∧
      (c :: M2).length ≤ M.length := by
  induction h with
  | nil => simp
  | cons c0 M0 hc ht ih =>
    intro c hcm
    rcases List.mem_cons.mp hcm with rfl | hc0
    · exact ⟨M0, IsChain.cons _ M0 hc ht, Nat.le_refl _⟩
    · obtain ⟨M2, hM2, hlen⟩ := ih c hc0
      refine ⟨M2, hM2, ?_⟩
      have h1 : (c :: M2).length = M2.length + 1 := List.length_cons _ _
      have h2 : (c0 :: M0).length = M0.length + 1 := List.length_cons _ _
      omega

theorem IsChain_nodup (link : Nat → Nat) (p : Nat) (L : List Nat)
    (h : IsChain link p L) : L.Nodup := by
  induction h with
  | nil => exact List.nodup_nil
  | cons c L hc ht ih =>
    rw [List.nodup_cons]
    refine ⟨?_, ih⟩
    intro hmem
    obtain ⟨M2, hM2, hlen⟩ := IsChain_mem_suffix link (link c) L ht c hmem
    have hfull : IsChain link c (c :: L) := IsChain.cons c L hc ht
    have heq := IsChain_det link c _ hM2 _ hfull
    have hlen2 : (c :: M2).length = (c :: L).length := by rw [heq]
    have h1 : (c :: M2).length = M2.length + 1 := List.length_cons _ _
    have h2 : (c :: L).length = L.length + 1 := List.length_cons _ _
    omega

theorem chain_to_isChain (link : Nat → Nat) :
    ∀ fu p L, chain link p fu = some L → IsChain link p L := by
  intro fu
  induction fu with
  | zero => intro p L h; simp [chain] at h
  | succ n ih =>
    intro p L h
    rw [chain] at h
    by_cases hp : p = SAT_sentinel
    · simp only [hp, if_true, Option.some.injEq] at h
      subst h
      subst hp
      exact IsChain.nil
    · simp only [hp, if_false] at h
      rcases hL : chain link (link p) n with _ | L2
      · rw [hL] at h; cases h
      · rw [hL] at h
        simp only [Option.map_some', Option.some.injEq] at h
        subst h
        exact IsChain.cons p L2 hp (ih (link p) L2 hL)

theorem isChain_to_chain (link : Nat → Nat) (p : Nat) (L : List Nat)
    (h : IsChain link p L) : chain link p (L.length + 1) = some L := by
  induction h with
  | nil => simp [chain]
  | cons c L hc _ ih =>
    rw [chain]
    simp only [hc, if_false, List.length_cons]
    rw [ih]
    rfl

/-! #### `ClauseAt` basics -/

theorem ClauseAt_head (lits : Nat → Nat) (j x : Nat) (C : List Nat)
    (h : ClauseAt lits j (x :: C)) : x = lits j ∧ lits j ≠ SAT_sentinel ∧
      ClauseAt lits (j+1) C := by
  cases h with
  | cons _ _ hj ht => exact ⟨rfl, hj, ht⟩

theorem ClauseAt_nil_head (lits : Nat → Nat) (j : Nat)
    (h : ClauseAt lits j []) : lits j = SAT_sentinel := by
  cases h with
  | nil _ hj => exact hj

theorem ClauseAt_det (lits : Nat → Nat) :
    ∀ j C1, ClauseAt lits j C1 → ∀ C2, ClauseAt lits j C2 → C1 = C2 := by
  intro j C1 h1
  induction h1 with
  | nil j hj =>
    intro C2 h2
    cases h2 with
    | nil => rfl
    | cons _ _ hj2 => exact absurd hj hj2
  | cons j C hj ht ih =>
    intro C2 h2
    cases h2 with
    | nil _ hj2 => exact absurd hj2 hj
    | cons _ C2t _ ht2 => rw [ih C2t ht2]

theorem clauseLits_to_clauseAt (lits : Nat → Nat) :
    ∀ fu j C, clauseLits lits j fu = some C → ClauseAt lits j C := by
  intro fu
  induction fu with
  | zero => intro j C h; simp [clauseLits] at h
  | succ n ih =>
    intro j C h
    rw [clauseLits] at h
    by_cases hj : lits j = SAT_sentinel
    · simp only [hj, if_true, Option.some.injEq] at h
      subst h
      exact ClauseAt.nil j hj
    · simp only [hj, if_false] at h
      rcases hC : clauseLits lits (j+1) n with _ | C2
      · rw [hC] at h; cases h
      · rw [hC] at h
        simp only [Option.map_some', Option.some.injEq] at h
        subst h
        exact ClauseAt.cons j C2 hj (ih (j+1) C2 hC)

theorem clauseAt_to_clauseLits (lits : Nat → Nat) (j : Nat) (C : List Nat)
    (h : ClauseAt lits j C) : clauseLits lits j (C.length + 1) = some C := by
  induction h with
  | nil j hj => simp [clauseLits, hj]
  | cons j C hj _ ih =>
    rw [clauseLits]
    simp only [hj, if_false, List.length_cons]
    rw [ih]
    rfl

/-! #### `maskAsg` basics -/

theorem maskAsg_mem (asg dh : Nat → Nat) (p d v : Nat)
    (h : ∃ j, p ≤ j ∧ j < d ∧ dh j = v) :
    maskAsg asg dh p d v = SAT_sentinel := by
  obtain ⟨j, h1, h2, h3⟩ := h
  unfold maskAsg
  rw [if_pos]
  rw [List.any_eq_true]
  refine ⟨j - p, List.mem_range.mpr (by omega), ?_⟩
  have : p + (j - p) = j := by omega
  rw [this, h3]
  exact beq_self_eq_true v

theorem maskAsg_not_mem (asg dh : Nat → Nat) (p d v : Nat)
    (h : ∀ j, p ≤ j → j < d → dh j ≠ v) :
    maskAsg asg dh p d v = asg v := by
  unfold maskAsg
  rw [if_neg]
  intro hany
  rw [List.any_eq_true] at hany
  obtain ⟨j, hj, hbeq⟩ := hany
  rw [List.mem_range] at hj
  exact h (p + j) (by omega) (by omega) (by
    have := of_decide_eq_true hbeq
    simpa using this)

/-! #### Ring lemmas -/

theorem head?_mem (R : List Nat) (h : Nat) (hh : R.head? = some h) : h ∈ R := by
  cases R with
  | nil => cases hh
  | cons a R =>
    simp only [List.head?_cons, Option.some.injEq] at hh
    subst hh
    simp

theorem getLast?_mem (R : List Nat) : ∀ (t : Nat), R.getLast? = some t → t ∈ R := by
  induction R with
  | nil => intro t ht; cases ht
  | cons a R ih =>
    intro t ht
    cases R with
    | nil =>
      simp only [List.getLast?_singleton, Option.some.injEq] at ht
      subst ht
      simp
    | cons b R2 =>
      rw [List.getLast?_cons_cons] at ht
      exact List.mem_cons_of_mem _ (ih t ht)

theorem getLast?_cons_of_ne (a : Nat) (R : List Nat) (h : R ≠ []) :
    (a :: R).getLast? = R.getLast? := by
  cases R with
  | nil => exact absurd rfl h
  | cons b R2 => exact List.getLast?_cons_cons

theorem getLast?_append_right (X Y : List Nat) (hY : Y ≠ []) :
    (X ++ Y).getLast? = Y.getLast? := by
  induction X with
  | nil => rfl
  | cons a X ih =>
    have hXY : X ++ Y ≠ [] := by
      intro habs
      exact hY (List.append_eq_nil.mp habs).2
    rw [List.cons_append, getLast?_cons_of_ne a _ hXY, ih]

theorem head?_append_left (X Y : List Nat) (hX : X ≠ []) :
    (X ++ Y).head? = X.head? := by
  cases X with
  | nil => exact absurd rfl hX
  | cons a X2 => rfl

theorem NextAdj_tail (next : Nat → Nat) (a : Nat) (R : List Nat)
    (h : NextAdj next (a :: R)) : NextAdj next R := by
  cases R with
  | nil => trivial
  | cons b R2 => exact h.2

theorem NextAdj_append (next : Nat → Nat) :
    ∀ (X Y : List Nat), NextAdj next (X ++ Y) ↔
      NextAdj next X ∧ NextAdj next Y ∧
      ∀ a b, X.getLast? = some a → Y.head? = some b → next a = b := by
  intro X
  induction X with
  | nil =>
    intro Y
    simp [NextAdj]
  | cons x X ih =>
    intro Y
    cases X with
    | nil =>
      cases Y with
      | nil => simp [NextAdj]
      | cons y Y2 =>
        simp only [List.nil_append, List.cons_append]
        constructor
        · intro hadj
          refine ⟨trivial, hadj.2, ?_⟩
          intro a b ha hb
          simp only [List.getLast?_singleton, Option.some.injEq] at ha
          simp only [List.head?_cons, Option.some.injEq] at hb
          subst ha
          subst hb
          exact hadj.1
        · rintro ⟨_, hY, hbd⟩
          exact ⟨hbd x y (by simp) (by simp), hY⟩
    | cons x2 X2 =>
      constructor
      · intro hadj
        have hadj1 : next x = x2 ∧ NextAdj next ((x2 :: X2) ++ Y) := hadj
        obtain ⟨ha, hb, hc⟩ := (ih Y).mp hadj1.2
        refine ⟨⟨hadj1.1, ha⟩, hb, ?_⟩
        intro a b h1 h2
        rw [List.getLast?_cons_cons] at h1
        exact hc a b h1 h2
      · rintro ⟨⟨h1, ha⟩, hb, hc⟩
        refine ⟨h1, (ih Y).mpr ⟨ha, hb, ?_⟩⟩
        intro a b h2 h3
        refine hc a b ?_ h3
        rw [List.getLast?_cons_cons]
        exact h2

theorem NextAdj_congr2 (next next2 : Nat → Nat) :
    ∀ R, NextAdj next R → R.Nodup →
    (∀ x ∈ R, R.getLast? = some x ∨ next2 x = next x) → NextAdj next2 R := by
  intro R
  induction R with
  | nil => intro _ _ _; trivial
  | cons a R ih =>
    intro hadj hnd hcong
    cases R with
    | nil => trivial
    | cons b R3 =>
      refine ⟨?_, ih hadj.2 (List.nodup_cons.mp hnd).2 ?_⟩
      · rcases hcong a (by simp) with hl | hne2
        · rw [List.getLast?_cons_cons] at hl
          have hmem := getLast?_mem _ a hl
          exact absurd hmem (List.nodup_cons.mp hnd).1
        · rw [hne2]
          exact hadj.1
      · intro x hx
        rcases hcong x (List.mem_cons_of_mem _ hx) with hl | hne2
        · rw [List.getLast?_cons_cons] at hl
          exact Or.inl hl
        · exact Or.inr hne2

theorem NextAdj_mem_succ (next : Nat → Nat) :
    ∀ R, NextAdj next R → ∀ k ∈ R, R.getLast? = some k ∨ next k ∈ R := by
  intro R
  induction R with
  | nil => simp
  | cons a R ih =>
    intro hadj k hk
    cases R with
    | nil =>
      simp only [List.mem_singleton] at hk
      subst hk
      left
      simp
    | cons b R2 =>
      rcases List.mem_cons.mp hk with rfl | hk2
      · right
        rw [hadj.1]
        simp
      · rcases ih hadj.2 k hk2 with hl | hn
        · left
          rw [List.getLast?_cons_cons]
          exact hl
        · right
          exact List.mem_cons_of_mem _ hn

theorem ringEmpty (next : Nat → Nat) (h : Nat) :
    RingOK next h SAT_sentinel [] := by
  simp [RingOK]

theorem RingOK_unpack (next : Nat → Nat) (h t : Nat) (R : List Nat)
    (hR : RingOK next h t R) (hne : t ≠ SAT_sentinel) :
    R ≠ [] ∧ R.getLast? = some t ∧ R.head? = some h ∧ next t = h ∧
      NextAdj next R ∧ R.Nodup := by
  unfold RingOK at hR
  rwa [if_neg hne] at hR

theorem RingOK_empty_of_sent (next : Nat → Nat) (h : Nat) (R : List Nat)
    (hR : RingOK next h SAT_sentinel R) : R = [] := by
  unfold RingOK at hR
  rwa [if_pos rfl] at hR

theorem ringClosed (next : Nat → Nat) (h t : Nat) (R : List Nat) (hR : RingOK next h t R)
    (hne : t ≠ SAT_sentinel) : ∀ k ∈ R, next k ∈ R := by
  obtain ⟨hR0, hlast, hhead, hth, hadj, hnd⟩ := RingOK_unpack next h t R hR hne
  intro k hk
  rcases NextAdj_mem_succ next R hadj k hk with hl | hn
  · rw [hlast] at hl
    have hkt : k = t := by
      simpa using hl.symm
    subst hkt
    rw [hth]
    exact head?_mem R h hhead
  · exact hn

theorem ringRotate (next : Nat → Nat) (h t : Nat) (R : List Nat) (hR : RingOK next h t R)
    (hne : t ≠ SAT_sentinel) (k : Nat) (hk : k ∈ R) (hks : k ≠ SAT_sentinel) :
    ∃ R2, RingOK next (next k) k R2 ∧ (∀ v, v ∈ R2 ↔ v ∈ R) ∧
      R2.getLast? = some k := by
  obtain ⟨hR0, hlast, hhead, hth, hadj, hnd⟩ := RingOK_unpack next h t R hR hne
  obtain ⟨A, B, hAB⟩ := List.append_of_mem hk
  refine ⟨B ++ (A ++ [k]), ?_, ?_, ?_⟩
  · -- the rotated list is a ring with tail k
    have hperm : R.Perm (B ++ (A ++ [k])) := by
      rw [hAB]
      have p1 : List.Perm (A ++ ([k] ++ B)) (A ++ (B ++ [k])) :=
        List.Perm.append_left A List.perm_append_comm
      have p2 : List.Perm ((A ++ B) ++ [k]) ((B ++ A) ++ [k]) :=
        List.Perm.append_right [k] List.perm_append_comm
      have hres : List.Perm (A ++ ([k] ++ B)) (B ++ (A ++ [k])) := by
        refine p1.trans ?_
        rw [(List.append_assoc A B [k]).symm]
        refine p2.trans ?_
        rw [List.append_assoc B A [k]]
      exact hres
    rw [hAB] at hadj
    obtain ⟨hadjA, hadjkB, hbd1⟩ := (NextAdj_append next A (k :: B)).mp hadj
    unfold RingOK
    rw [if_neg hks]
    refine ⟨by simp, ?_, ?_, rfl, ?_, hnd.perm hperm⟩
    · rw [getLast?_append_right _ _ (by simp), getLast?_append_right _ _ (by simp)]
      simp
    · -- head of the rotation is next k
      cases B with
      | nil =>
        -- k is the old tail: next k = next t = h, and the head is h
        have hkt : k = t := by
          rw [hAB, getLast?_append_right A [k] (by simp)] at hlast
          simpa using hlast
        subst hkt
        rw [List.nil_append, hth]
        cases A with
        | nil =>
          rw [hAB] at hhead
          simp only [List.nil_append, List.head?_cons, Option.some.injEq] at hhead
          simp [hhead]
        | cons a A2 =>
          rw [hAB, head?_append_left _ _ (by simp)] at hhead
          rw [head?_append_left _ _ (by simp)]
          exact hhead
      | cons b B2 =>
        rw [head?_append_left _ _ (by simp)]
        simp only [List.head?_cons, Option.some.injEq]
        exact hadjkB.1.symm
    · -- adjacency of the rotation
      rw [NextAdj_append]
      refine ⟨NextAdj_tail next k B hadjkB, ?_, ?_⟩
      · rw [NextAdj_append]
        refine ⟨hadjA, trivial, ?_⟩
        intro a b ha hb
        simp only [List.head?_cons, Option.some.injEq] at hb
        subst hb
        exact hbd1 a k ha (by simp)
      · intro a b ha hb
        -- a is the old overall tail t, b the old head h
        have hat : a = t := by
          have : R.getLast? = some a := by
            rw [hAB, getLast?_append_right A (k :: B) (by simp),
              getLast?_cons_of_ne k B (by intro habs; rw [habs] at ha; cases ha)]
            exact ha
          rw [hlast] at this
          simpa using this.symm
        subst hat
        rw [hth]
        cases A with
        | nil =>
          simp only [List.nil_append, List.head?_cons, Option.some.injEq] at hb
          rw [hAB] at hhead
          simp only [List.nil_append, List.head?_cons, Option.some.injEq] at hhead
          rw [← hb, ← hhead]
        | cons a2 A2 =>
          rw [head?_append_left _ _ (by simp)] at hb
          rw [hAB, head?_append_left _ _ (by simp)] at hhead
          rw [hhead] at hb
          simpa using hb
  · intro v
    constructor
    · intro hv
      rw [hAB]
      rcases List.mem_append.mp hv with hv1 | hv2
      · exact List.mem_append_right A (List.mem_cons_of_mem _ hv1)
      · rcases List.mem_append.mp hv2 with hv3 | hv4
        · exact List.mem_append_left _ hv3
        · simp only [List.mem_singleton] at hv4
          subst hv4
          exact List.mem_append_right A (by simp)
    · intro hv
      rw [hAB] at hv
      rcases List.mem_append.mp hv with hv1 | hv2
      · exact List.mem_append_right B (List.mem_append_left [k] hv1)
      · rcases List.mem_cons.mp hv2 with rfl | hv3
        · exact List.mem_append_right B (List.mem_append_right A (by simp))
        · exact List.mem_append_left _ hv3
  · rw [getLast?_append_right _ _ (by simp), getLast?_append_right _ _ (by simp)]
    simp

theorem ringPop_single (next : Nat → Nat) (h t : Nat) (R : List Nat) (hR : RingOK next h t R)
    (hne : t ≠ SAT_sentinel) (heq : t = h) : R = [t] := by
  obtain ⟨hR0, hlast, hhead, hth, hadj, hnd⟩ := RingOK_unpack next h t R hR hne
  cases R with
  | nil => exact absurd rfl hR0
  | cons a R2 =>
    simp only [List.head?_cons, Option.some.injEq] at hhead
    cases R2 with
    | nil =>
      rw [heq, hhead]
    | cons b R3 =>
      rw [List.getLast?_cons_cons] at hlast
      have hmem := getLast?_mem _ t hlast
      have hat : a = t := by rw [hhead, heq]
      rw [hat] at hnd
      exact absurd hmem (List.nodup_cons.mp hnd).1

theorem ringPop_multi (next : Nat → Nat) (h t : Nat) (R : List Nat) (hR : RingOK next h t R)
    (hne : t ≠ SAT_sentinel) (hneq : t ≠ h) :
    ∃ R2, R = h :: R2 ∧ R2 ≠ [] ∧ h ∉ R2 ∧
      RingOK (upd next t (next h)) (next h) t R2 := by
  obtain ⟨hR0, hlast, hhead, hth, hadj, hnd⟩ := RingOK_unpack next h t R hR hne
  cases R with
  | nil => exact absurd rfl hR0
  | cons a R2 =>
    simp only [List.head?_cons, Option.some.injEq] at hhead
    subst hhead
    have hR2 : R2 ≠ [] := by
      intro habs
      subst habs
      simp only [List.getLast?_singleton, Option.some.injEq] at hlast
      exact hneq hlast.symm
    have hanotin : a ∉ R2 := (List.nodup_cons.mp hnd).1
    refine ⟨R2, rfl, hR2, hanotin, ?_⟩
    have hlast2 : R2.getLast? = some t := by
      rwa [getLast?_cons_of_ne a R2 hR2] at hlast
    unfold RingOK
    rw [if_neg hne]
    have htmem : t ∈ R2 := getLast?_mem R2 t hlast2
    refine ⟨hR2, hlast2, ?_, upd_same _ _ _, ?_, (List.nodup_cons.mp hnd).2⟩
    · cases R2 with
      | nil => exact absurd rfl hR2
      | cons b R3 =>
        simp only [List.head?_cons, Option.some.injEq]
        exact hadj.1.symm
    · refine NextAdj_congr2 next _ R2 (NextAdj_tail next a _ hadj)
        (List.nodup_cons.mp hnd).2 ?_
      intro x hx
      by_cases hxt : x = t
      · subst hxt
        exact Or.inl hlast2
      · right
        exact upd_other _ _ _ _ hxt

theorem ringPush_empty (next : Nat → Nat) (v : Nat) (hv : v ≠ SAT_sentinel) :
    RingOK (upd next v v) v v [v] := by
  unfold RingOK
  rw [if_neg hv]
  refine ⟨by simp, by simp, by simp, upd_same _ _ _, trivial, by simp⟩

theorem ringPush (next : Nat → Nat) (h t v : Nat) (R : List Nat) (hR : RingOK next h t R)
    (hne : t ≠ SAT_sentinel) (hvR : v ∉ R) (hvs : v ≠ SAT_sentinel) :
    RingOK (upd (upd next v h) t v) v t (v :: R) := by
  obtain ⟨hR0, hlast, hhead, hth, hadj, hnd⟩ := RingOK_unpack next h t R hR hne
  have htmem : t ∈ R := getLast?_mem R t hlast
  have hvt : v ≠ t := by
    intro habs
    rw [habs] at hvR
    exact hvR htmem
  unfold RingOK
  rw [if_neg hne]
  refine ⟨by simp, ?_, by simp, upd_same _ _ _, ?_, List.nodup_cons.mpr ⟨hvR, hnd⟩⟩
  · rw [getLast?_cons_of_ne v R hR0]
    exact hlast
  · cases hRc : R with
    | nil => exact absurd hRc hR0
    | cons a R2 =>
      subst hRc
      refine ⟨?_, ?_⟩
      · -- first link: v points at the old head
        rw [upd_other _ _ _ _ hvt, upd_same]
        simp only [List.head?_cons, Option.some.injEq] at hhead
        exact hhead.symm
      · refine NextAdj_congr2 next _ (a :: R2) hadj hnd ?_
        intro x hx
        by_cases hxt : x = t
        · subst hxt
          exact Or.inl hlast
        · right
          have hxv : x ≠ v := by
            intro habs
            rw [habs] at hx
            exact hvR hx
          rw [upd_other _ _ _ _ hxt, upd_other _ _ _ _ hxv]

/-! #### The migration scan and the unit test against parsed clauses -/

theorem findAlt_spec (lits asg : Nat → Nat) :
    ∀ fuel j C res, ClauseAt lits j C →
    findAlt lits asg j fuel = some res →
    (res = none → ∀ x ∈ C, litNonFalse asg x = false) ∧
    (∀ alt, res = some alt → alt ∈ C ∧ litNonFalse asg alt = true) := by
  intro fuel
  induction fuel with
  | zero => intro j C res _ h; simp [findAlt] at h
  | succ n ih =>
    intro j C res hC h
    rw [findAlt] at h
    by_cases hj : lits j = SAT_sentinel
    · rw [if_pos hj] at h
      simp only [Option.some.injEq] at h
      subst h
      have hCnil : C = [] := by
        cases hC with
        | nil => rfl
        | cons _ _ hj2 => exact absurd hj hj2
      subst hCnil
      refine ⟨fun _ x hx => absurd hx (List.not_mem_nil x), ?_⟩
      intro alt halt
      cases halt
    · rw [if_neg hj] at h
      obtain ⟨C2, hCeq, hC2⟩ : ∃ C2, C = lits j :: C2 ∧ ClauseAt lits (j+1) C2 := by
        cases hC with
        | nil _ hj2 => exact absurd hj2 hj
        | cons _ C2 _ ht => exact ⟨C2, rfl, ht⟩
      subst hCeq
      by_cases hnf : litNonFalse asg (lits j) = true
      · rw [if_pos hnf] at h
        simp only [Option.some.injEq] at h
        subst h
        constructor
        · intro habs
          cases habs
        · intro alt halt
          simp only [Option.some.injEq] at halt
          subst halt
          exact ⟨by simp, hnf⟩
      · rw [if_neg hnf] at h
        have hres := ih (j+1) C2 res hC2 h
        refine ⟨?_, ?_⟩
        · intro hrn x hx
          rcases List.mem_cons.mp hx with rfl | hx2
          · simpa using hnf
          · exact hres.1 hrn x hx2
        · intro alt halt
          obtain ⟨h1, h2⟩ := hres.2 alt halt
          exact ⟨List.mem_cons_of_mem _ h1, h2⟩

theorem isUnitLoop_false (lits asg nc : Nat → Nat) (literal : Nat) :
    ∀ fuel c L, IsChain nc c L →
    isUnitLoop lits asg nc literal c fuel = some false →
    ∀ x ∈ L, ∀ C, ClauseAt lits x C → othersFalse asg literal C = false := by
  intro fuel
  induction fuel with
  | zero => intro c L _ h; simp [isUnitLoop] at h
  | succ n ih =>
    intro c L hch h
    rw [isUnitLoop] at h
    by_cases hc : c = SAT_sentinel
    · rw [if_pos hc] at h
      subst hc
      have hL : L = [] := IsChain_det nc _ _ hch _ IsChain.nil
      subst hL
      simp
    · rw [if_neg hc] at h
      obtain ⟨L2, hLeq, hch2⟩ : ∃ L2, L = c :: L2 ∧ IsChain nc (nc c) L2 := by
        cases hch with
        | nil => exact absurd rfl hc
        | cons _ L2 _ ht => exact ⟨L2, rfl, ht⟩
      subst hLeq
      rcases hscan : clauseUnitScan lits asg literal c (n+1) with _ | bs
      · rw [hscan] at h; cases h
      · rw [hscan] at h
        cases bs with
        | false =>
          intro x hx C hC
          rcases List.mem_cons.mp hx with rfl | hx2
          · exact clauseUnitScan_false lits asg literal (n+1) x hscan
              (C.length + 1) C (clauseAt_to_clauseLits lits x C hC)
          · exact ih (nc c) L2 hch2 h x hx2 C hC
        | true => simp at h

theorem othersFalse_witness (asg : Nat → Nat) (literal : Nat) (C : List Nat)
    (h : othersFalse asg literal C = false) :
    ∃ x ∈ C, x ≠ literal ∧ litNonFalse asg x = true := by
  unfold othersFalse at h
  rw [List.all_eq_false] at h
  obtain ⟨x, hx, hprop⟩ := h
  simp only [Bool.or_eq_true, beq_iff_eq, Bool.not_eq_true', not_or] at hprop
  push_neg at hprop
  exact ⟨x, hx, hprop.1, by
    have h2 := hprop.2
    rcases hb : litNonFalse asg x with _ | _
    · rw [hb] at h2; exact absurd rfl h2
    · rfl⟩

/-- The migration-success fact extracted from a false `is_unit` result:
every clause watching the literal has another non-false literal. -/
theorem watch_no_unit (nvars maxn : Nat) (lits nlits : Nat → Nat)
    (w nc asg : Nat → Nat) (W : Nat → List Nat)
    (hW : WatchInv nvars maxn lits nlits w nc W)
    (literal fuel : Nat) (hlit : literal < 2 * nvars)
    (hu : is_unit lits w nc asg literal fuel = some false) :
    ∀ c ∈ W literal, ∃ C, ClauseAt lits c C ∧
      ∃ x ∈ C, x ≠ literal ∧ litNonFalse asg x = true := by
  intro c hc
  obtain ⟨C, hC, _⟩ := hW.mem_lit literal hlit c hc
  have hof := isUnitLoop_false lits asg nc literal fuel (w literal) (W literal)
    (hW.chains literal hlit) hu c hc C hC
  obtain ⟨x, hx, hxl, hxt⟩ := othersFalse_witness asg literal C hof
  exact ⟨C, hC, x, hx, hxl, hxt⟩

/-! #### Positions of the clause store -/

theorem rowFirstPositions_spec (maxn : Nat) (lits : Nat → Nat) (tidx : Nat) :
    ∀ cnt first i, ∀ p ∈ rowFirstPositions maxn lits tidx first i cnt,
      lits p ≠ SAT_sentinel ∧ tidx * maxn + i ≤ p ∧ p < tidx * maxn + i + cnt := by
  intro cnt
  induction cnt with
  | zero => intro first i p hp; simp [rowFirstPositions] at hp
  | succ cnt ih
  =>
    intro first i p hp
    rw [rowFirstPositions] at hp
    by_cases hl : lits (tidx * maxn + i) = SAT_sentinel
    · rw [if_pos hl] at hp
      obtain ⟨h1, h2, h3⟩ := ih true (i+1) p hp
      exact ⟨h1, by omega, by omega⟩
    · rw [if_neg hl] at hp
      cases first with
      | true =>
        rw [if_pos rfl] at hp
        rcases List.mem_cons.mp hp with rfl | hp2
        · exact ⟨hl, by omega, by omega⟩
        · obtain ⟨h1, h2, h3⟩ := ih false (i+1) p hp2
          exact ⟨h1, by omega, by omega⟩
      | false =>
        rw [if_neg Bool.false_ne_true] at hp
        obtain ⟨h1, h2, h3⟩ := ih false (i+1) p hp
        exact ⟨h1, by omega, by omega⟩

theorem allFirstPositions_spec (maxn : Nat) (lits nlits : Nat → Nat) :
    ∀ nleft tidx p, p ∈ allFirstPositions maxn lits nlits tidx nleft →
    ∃ t, tidx ≤ t ∧ t < tidx + nleft ∧ lits p ≠ SAT_sentinel ∧
      t * maxn ≤ p ∧ p < t * maxn + nlits t := by
  intro nleft
  induction nleft with
  | zero => intro tidx p hp; simp [allFirstPositions] at hp
  | succ nleft ih =>
    intro tidx p hp
    rw [allFirstPositions] at hp
    rcases List.mem_append.mp hp with hp1 | hp2
    · obtain ⟨h1, h2, h3⟩ := rowFirstPositions_spec maxn lits tidx (nlits tidx)
        true 0 p hp1
      exact ⟨tidx, Nat.le_refl _, by omega, h1, by omega, by omega⟩
    · obtain ⟨t, ht1, ht2, h1, h2, h3⟩ := ih (tidx+1) p hp2
      exact ⟨t, by omega, by omega, h1, h2, h3⟩

theorem allPos_wf (nvars maxn : Nat) (lits nlits : Nat → Nat)
    (hWF : WFStore nvars maxn lits nlits) :
    ∀ c ∈ allFirstPositions maxn lits nlits 0 nvars,
      lits c ≠ SAT_sentinel ∧ lits c < 2 * nvars ∧ c < nvars * maxn ∧
      c ≠ SAT_sentinel := by
  intro c hc
  obtain ⟨t, _, ht2, h1, h2, h3⟩ := allFirstPositions_spec maxn lits nlits
    nvars 0 c hc
  obtain ⟨hnle, _, hbound⟩ := hWF.2.2 t (by omega)
  have hco : t * maxn + (c - t * maxn) = c := by omega
  have hlt : lits c < 2 * nvars := by
    have := hbound (c - t * maxn) (by omega) (by rwa [hco])
    rwa [hco] at this
  have hcm : c < nvars * maxn := by
    have hmul : (t + 1) * maxn ≤ nvars * maxn :=
      Nat.mul_le_mul_right _ (by omega)
    have hsm : (t + 1) * maxn = t * maxn + maxn := by ring
    omega
  exact ⟨h1, hlt, hcm, by have := hWF.2.1; omega⟩

theorem clauseAt_of_term (lits : Nat → Nat) :
    ∀ fuel j, lits (j + fuel) = SAT_sentinel → ∃ C, ClauseAt lits j C := by
  intro fuel
  induction fuel with
  | zero =>
    intro j hj
    exact ⟨[], ClauseAt.nil j (by simpa using hj)⟩
  | succ n ih =>
    intro j hj
    by_cases hjs : lits j = SAT_sentinel
    · exact ⟨[], ClauseAt.nil j hjs⟩
    · obtain ⟨C, hC⟩ := ih (j+1) (by
        have : j + 1 + n = j + (n + 1) := by omega
        rwa [this])
      exact ⟨lits j :: C, ClauseAt.cons j C hjs hC⟩

theorem clauseAt_exists (nvars maxn : Nat) (lits nlits : Nat → Nat)
    (hWF : WFStore nvars maxn lits nlits) :
    ∀ c ∈ allFirstPositions maxn lits nlits 0 nvars, ∃ C, ClauseAt lits c C := by
  intro c hc
  obtain ⟨t, _, ht2, h1, h2, h3⟩ := allFirstPositions_spec maxn lits nlits
    nvars 0 c hc
  obtain ⟨_, hterm, _⟩ := hWF.2.2 t (by omega)
  have hterm2 := hterm (by omega)
  refine clauseAt_of_term lits (t * maxn + (nlits t - 1) - c) c ?_
  have : c + (t * maxn + (nlits t - 1) - c) = t * maxn + (nlits t - 1) := by
    omega
  rw [this]
  exact hterm2

theorem clauseAt_mem_ne (lits : Nat → Nat) (j : Nat) (C : List Nat)
    (h : ClauseAt lits j C) : ∀ l ∈ C, l ≠ SAT_sentinel := by
  induction h with
  | nil => simp
  | cons j C hj _ ih =>
    intro l hl
    rcases List.mem_cons.mp hl with rfl | hl2
    · exact hj
    · exact ih l hl2

theorem clauseAt_members (lits : Nat → Nat) :
    ∀ C j, ClauseAt lits j C →
    ∀ l ∈ C, ∃ i, i < C.length ∧ lits (j + i) = l := by
  intro C
  induction C with
  | nil => simp
  | cons x C2 ih =>
    intro j hC l hl
    obtain ⟨hx, hne, ht⟩ := ClauseAt_head lits j x C2 hC
    rcases List.mem_cons.mp hl with rfl | hl2
    · exact ⟨0, by simp, by simpa using hx.symm⟩
    · obtain ⟨i, hi1, hi2⟩ := ih (j+1) ht l hl2
      refine ⟨i + 1, by simp; omega, ?_⟩
      have : j + (i + 1) = j + 1 + i := by omega
      rw [this]
      exact hi2

theorem clauseAt_len (lits : Nat → Nat) (e : Nat) (he : lits e = SAT_sentinel) :
    ∀ C j, ClauseAt lits j C → j ≤ e → j + C.length ≤ e := by
  intro C
  induction C with
  | nil => intro j _ _; simp; omega
  | cons x C2 ih =>
    intro j hC hje
    obtain ⟨_, hne, ht⟩ := ClauseAt_head lits j x C2 hC
    have hjne : j ≠ e := by
      intro habs
      rw [habs] at hne
      exact hne he
    have := ih (j+1) ht (by omega)
    simp only [List.length_cons]
    omega

theorem clauseAt_mem_bound (nvars maxn : Nat) (lits nlits : Nat → Nat)
    (hWF : WFStore nvars maxn lits nlits) :
    ∀ c ∈ allFirstPositions maxn lits nlits 0 nvars,
    ∀ C, ClauseAt lits c C → ∀ l ∈ C, l < 2 * nvars := by
  intro c hc C hC l hl
  obtain ⟨t, _, ht2, h1, h2, h3⟩ := allFirstPositions_spec maxn lits nlits
    nvars 0 c hc
  obtain ⟨hnle, hterm, hbound⟩ := hWF.2.2 t (by omega)
  have h0 : 0 < nlits t := by omega
  have hterm2 := hterm h0
  have hlen := clauseAt_len lits (t * maxn + (nlits t - 1)) hterm2 C c hC
    (by omega)
  obtain ⟨i, hi1, hi2⟩ := clauseAt_members lits C c hC l hl
  have hco : t * maxn + (c + i - t * maxn) = c + i := by omega
  have := hbound (c + i - t * maxn) (by omega)
    (by rw [hco, hi2]; exact clauseAt_mem_ne lits c C hC l hl)
  rw [hco, hi2] at this
  exact this

/-! #### Bridging clause-start positions and the parsed clause store -/

theorem rowSeg_zero (maxn : Nat) (lits : Nat → Nat) (tidx i : Nat) :
    rowSeg maxn lits tidx i 0 = [] := rfl

theorem rowSeg_succ (maxn : Nat) (lits : Nat → Nat) (tidx i cnt : Nat) :
    rowSeg maxn lits tidx i (cnt + 1) =
      lits (tidx * maxn + i) :: rowSeg maxn lits tidx (i + 1) cnt := by
  unfold rowSeg
  rw [List.range_succ_eq_map, List.map_cons, List.map_map]
  congr 1
  apply List.map_congr_left
  intro j _
  simp only [Function.comp_apply]
  congr 1
  omega

theorem rowSeg_eq_rowList (maxn : Nat) (lits : Nat → Nat) (tidx cnt : Nat) :
    rowSeg maxn lits tidx 0 cnt = rowList maxn lits tidx cnt := by
  unfold rowSeg rowList
  apply List.map_congr_left
  intro j _
  congr 1
  omega

/-- Run extraction: a clause parsed from inside a sentinel-terminated
segment is one of the rows `splitRow` produces, extended by the pending
accumulator. -/
theorem splitRow_run (maxn : Nat) (lits : Nat → Nat) (tidx : Nat) :
    ∀ cnt i acc C, 0 < cnt →
    lits (tidx * maxn + (i + cnt - 1)) = SAT_sentinel →
    ClauseAt lits (tidx * maxn + i) C →
    (acc.reverse ++ C) ∈ splitRow (rowSeg maxn lits tidx i cnt) acc := by
  intro cnt
  induction cnt with
  | zero => intro i acc C h0; omega
  | succ cnt ih =>
    intro i acc C _ hterm hC
    rw [rowSeg_succ, splitRow]
    by_cases hl : lits (tidx * maxn + i) = SAT_sentinel
    · rw [if_pos hl]
      have hCnil : C = [] := by
        cases hC with
        | nil => rfl
        | cons _ _ hj2 => exact absurd hl hj2
      subst hCnil
      rw [List.append_nil]
      exact List.mem_cons_self _ _
    · rw [if_neg hl]
      obtain ⟨C2, hCeq, hC2⟩ : ∃ C2, C = lits (tidx * maxn + i) :: C2 ∧
          ClauseAt lits (tidx * maxn + i + 1) C2 := by
        cases hC with
        | nil _ hj2 => exact absurd hj2 hl
        | cons _ C2 _ ht => exact ⟨C2, rfl, ht⟩
      subst hCeq
      have hcnt : 0 < cnt := by
        rcases Nat.eq_zero_or_pos cnt with h0 | h0
        · subst h0
          have : i + 1 - 1 = i := by omega
          rw [this] at hterm
          exact absurd hterm hl
        · exact h0
      have hterm2 : lits (tidx * maxn + (i + 1 + cnt - 1)) = SAT_sentinel := by
        have : i + 1 + cnt - 1 = i + (cnt + 1) - 1 := by omega
        rw [this]
        exact hterm
      have hC2b : ClauseAt lits (tidx * maxn + (i + 1)) C2 := by
        have : tidx * maxn + (i + 1) = tidx * maxn + i + 1 := by omega
        rwa [this]
      have hres := ih (i + 1) (lits (tidx * maxn + i) :: acc) C2 hcnt hterm2 hC2b
      rwa [List.reverse_cons, List.append_assoc] at hres

/-- Forward bridge, row version: the clause parsed at a recorded
clause-start position is one of the `splitRow` rows. -/
theorem rowFP_clause_mem (maxn : Nat) (lits : Nat → Nat) (tidx : Nat) :
    ∀ cnt i first acc, (first = true → acc = []) →
    (0 < cnt → lits (tidx * maxn + (i + cnt - 1)) = SAT_sentinel) →
    ∀ p ∈ rowFirstPositions maxn lits tidx first i cnt,
    ∀ C, ClauseAt lits p C →
    C ∈ splitRow (rowSeg maxn lits tidx i cnt) acc := by
  intro cnt
  induction cnt with
  | zero => intro i first acc _ _ p hp; simp [rowFirstPositions] at hp
  | succ cnt ih =>
    intro i first acc hfirst hterm p hp C hC
    rw [rowFirstPositions] at hp
    rw [rowSeg_succ, splitRow]
    have hterm2 : 0 < cnt → lits (tidx * maxn + (i + 1 + cnt - 1)) = SAT_sentinel := by
      intro h0
      have : i + 1 + cnt - 1 = i + (cnt + 1) - 1 := by omega
      rw [this]
      exact hterm (by omega)
    by_cases hl : lits (tidx * maxn + i) = SAT_sentinel
    · rw [if_pos hl] at hp
      rw [if_pos hl]
      exact List.mem_cons_of_mem _ (ih (i+1) true [] (fun _ => rfl) hterm2 p hp C hC)
    · rw [if_neg hl] at hp
      rw [if_neg hl]
      have hcnt : 0 < cnt := by
        rcases Nat.eq_zero_or_pos cnt with h0 | h0
        · subst h0
          have : i + 1 - 1 = i := by omega
          rw [this] at hterm
          exact absurd (hterm (by omega)) hl
        · exact h0
      cases first with
      | true =>
        rw [if_pos rfl] at hp
        have hacc : acc = [] := hfirst rfl
        subst hacc
        rcases List.mem_cons.mp hp with rfl | hp2
        · obtain ⟨C2, hCeq, hC2⟩ : ∃ C2, C = lits (tidx * maxn + i) :: C2 ∧
              ClauseAt lits (tidx * maxn + i + 1) C2 := by
            cases hC with
            | nil _ hj2 => exact absurd hj2 hl
            | cons _ C2 _ ht => exact ⟨C2, rfl, ht⟩
          subst hCeq
          have hC2b : ClauseAt lits (tidx * maxn + (i + 1)) C2 := by
            have : tidx * maxn + (i + 1) = tidx * maxn + i + 1 := by omega
            rwa [this]
          have hrun := splitRow_run maxn lits tidx cnt (i+1)
            [lits (tidx * maxn + i)] C2 hcnt (hterm2 hcnt) hC2b
          simpa using hrun
        · exact ih (i+1) false [lits (tidx * maxn + i)] (fun h => by cases h)
            hterm2 p hp2 C hC
      | false =>
        rw [if_neg Bool.false_ne_true] at hp
        exact ih (i+1) false (lits (tidx * maxn + i) :: acc) (fun h => by cases h)
          hterm2 p hp C hC

/-- A nonempty clause at the start of a segment makes the start a
recorded clause-start position. -/
theorem rowFP_head (maxn : Nat) (lits : Nat → Nat) (tidx i cnt : Nat)
    (h0 : 0 < cnt) (hne : lits (tidx * maxn + i) ≠ SAT_sentinel) :
    tidx * maxn + i ∈ rowFirstPositions maxn lits tidx true i cnt := by
  cases cnt with
  | zero => omega
  | succ cnt =>
    rw [rowFirstPositions, if_neg hne, if_pos rfl]
    exact List.mem_cons_self _ _

/-- Reverse bridge, segment version: every nonempty `splitRow` row either
starts at a recorded position, or extends the pending accumulator. -/
theorem splitRow_clause_pos (maxn : Nat) (lits : Nat → Nat) (tidx : Nat) :
    ∀ cnt i first acc, (first = true → acc = []) → (cnt = 0 → acc = []) →
    (0 < cnt → lits (tidx * maxn + (i + cnt - 1)) = SAT_sentinel) →
    ∀ C ∈ splitRow (rowSeg maxn lits tidx i cnt) acc, C ≠ [] →
    (∃ p ∈ rowFirstPositions maxn lits tidx first i cnt, ClauseAt lits p C) ∨
    (∃ D, C = acc.reverse ++ D ∧ ClauseAt lits (tidx * maxn + i) D) := by
  intro cnt
  induction cnt with
  | zero =>
    intro i first acc _ hz _ C hC hCne
    rw [rowSeg_zero, splitRow] at hC
    simp only [List.mem_singleton] at hC
    subst hC
    rw [hz rfl] at hCne
    exact absurd rfl hCne
  | succ cnt ih =>
    intro i first acc hfirst _ hterm C hC hCne
    rw [rowSeg_succ, splitRow] at hC
    rw [rowFirstPositions]
    have hterm2 : 0 < cnt → lits (tidx * maxn + (i + 1 + cnt - 1)) = SAT_sentinel := by
      intro h0
      have : i + 1 + cnt - 1 = i + (cnt + 1) - 1 := by omega
      rw [this]
      exact hterm (by omega)
    by_cases hl : lits (tidx * maxn + i) = SAT_sentinel
    · rw [if_pos hl] at hC
      rw [if_pos hl]
      rcases List.mem_cons.mp hC with rfl | hC2
      · right
        exact ⟨[], by simp, ClauseAt.nil _ hl⟩
      · have hz2 : cnt = 0 → ([] : List Nat) = [] := fun _ => rfl
        rcases ih (i+1) true [] (fun _ => rfl) hz2 hterm2 C hC2 hCne with
          ⟨p, hp, hPC⟩ | ⟨D, hD1, hD2⟩
        · exact Or.inl ⟨p, hp, hPC⟩
        · left
          simp only [List.reverse_nil, List.nil_append] at hD1
          subst hD1
          have hDne : lits (tidx * maxn + (i + 1)) ≠ SAT_sentinel := by
            intro habs
            have : C = [] := by
              cases hD2 with
              | nil => rfl
              | cons _ _ hj2 => exact absurd habs hj2
            exact hCne this
          have hcnt : 0 < cnt := by
            rcases Nat.eq_zero_or_pos cnt with h0 | h0
            · subst h0
              rw [rowSeg_zero, splitRow] at hC2
              simp only [List.mem_singleton] at hC2
              subst hC2
              exact absurd rfl hCne
            · exact h0
          exact ⟨tidx * maxn + (i + 1), rowFP_head maxn lits tidx (i+1) cnt
            hcnt hDne, hD2⟩
    · rw [if_neg hl] at hC
      rw [if_neg hl]
      have hcnt : 0 < cnt := by
        rcases Nat.eq_zero_or_pos cnt with h0 | h0
        · subst h0
          have : i + 1 - 1 = i := by omega
          rw [this] at hterm
          exact absurd (hterm (by omega)) hl
        · exact h0
      rcases ih (i+1) false (lits (tidx * maxn + i) :: acc)
        (fun h => by cases h) (fun h => by omega) hterm2 C hC hCne with
        ⟨p, hp, hPC⟩ | ⟨D, hD1, hD2⟩
      · cases first with
        | true =>
          rw [if_pos rfl]
          exact Or.inl ⟨p, List.mem_cons_of_mem _ hp, hPC⟩
        | false =>
          rw [if_neg Bool.false_ne_true]
          exact Or.inl ⟨p, hp, hPC⟩
      · right
        refine ⟨lits (tidx * maxn + i) :: D, ?_, ?_⟩
        · rw [hD1, List.reverse_cons, List.append_assoc]
          rfl
        · refine ClauseAt.cons _ D hl ?_
          have : tidx * maxn + i + 1 = tidx * maxn + (i + 1) := by omega
          rwa [this]

theorem allFP_row (maxn : Nat) (lits nlits : Nat → Nat) :
    ∀ nleft tidx p, p ∈ allFirstPositions maxn lits nlits tidx nleft →
    ∃ t, tidx ≤ t ∧ t < tidx + nleft ∧
      p ∈ rowFirstPositions maxn lits t true 0 (nlits t) := by
  intro nleft
  induction nleft with
  | zero => intro tidx p hp; simp [allFirstPositions] at hp
  | succ nleft ih =>
    intro tidx p hp
    rw [allFirstPositions] at hp
    rcases List.mem_append.mp hp with hp1 | hp2
    · exact ⟨tidx, Nat.le_refl _, by omega, hp1⟩
    · obtain ⟨t, h1, h2, h3⟩ := ih (tidx+1) p hp2
      exact ⟨t, by omega, by omega, h3⟩

theorem rowFP_sub_allFP (maxn : Nat) (lits nlits : Nat → Nat) :
    ∀ nleft tidx t, tidx ≤ t → t < tidx + nleft →
    ∀ p ∈ rowFirstPositions maxn lits t true 0 (nlits t),
    p ∈ allFirstPositions maxn lits nlits tidx nleft := by
  intro nleft
  induction nleft with
  | zero => intro tidx t h1 h2 p _; omega
  | succ nleft ih =>
    intro tidx t h1 h2 p hp
    rw [allFirstPositions]
    rcases Nat.eq_or_lt_of_le h1 with rfl | hlt
    · exact List.mem_append_left _ hp
    · exact List.mem_append_right _ (ih (tidx+1) t hlt (by omega) p hp)

/-- Forward bridge: the clause parsed at any clause-start position of the
store is one of the store's clauses. -/
theorem allPos_clause_mem (nvars maxn : Nat) (lits nlits : Nat → Nat)
    (hWF : WFStore nvars maxn lits nlits) :
    ∀ c ∈ allFirstPositions maxn lits nlits 0 nvars,
    ∀ C, ClauseAt lits c C → C ∈ allClauses nvars maxn lits nlits := by
  intro c hc C hC
  obtain ⟨t, _, ht2, hrow⟩ := allFP_row maxn lits nlits nvars 0 c hc
  have hterm : 0 < nlits t → lits (t * maxn + (0 + nlits t - 1)) = SAT_sentinel := by
    intro h0
    have := (hWF.2.2 t (by omega)).2.1 h0
    have heq : 0 + nlits t - 1 = nlits t - 1 := by omega
    rwa [heq]
  have hmem := rowFP_clause_mem maxn lits t (nlits t) 0 true [] (fun _ => rfl)
    hterm c hrow C hC
  rw [rowSeg_eq_rowList] at hmem
  exact mem_allClauses_intro nvars maxn lits nlits t (by omega) C hmem

/-- Reverse bridge: every nonempty clause of the store is parsed at some
clause-start position. -/
theorem allClauses_pos (nvars maxn : Nat) (lits nlits : Nat → Nat)
    (hWF : WFStore nvars maxn lits nlits) :
    ∀ C ∈ allClauses nvars maxn lits nlits, C ≠ [] →
    ∃ c ∈ allFirstPositions maxn lits nlits 0 nvars, ClauseAt lits c C := by
  intro C hC hCne
  obtain ⟨t, ht, hrow⟩ := mem_allClauses_elim nvars maxn lits nlits C hC
  have hterm : 0 < nlits t → lits (t * maxn + (0 + nlits t - 1)) = SAT_sentinel := by
    intro h0
    have := (hWF.2.2 t (by omega)).2.1 h0
    have heq : 0 + nlits t - 1 = nlits t - 1 := by omega
    rwa [heq]
  rw [← rowSeg_eq_rowList] at hrow
  rcases splitRow_clause_pos maxn lits t (nlits t) 0 true [] (fun _ => rfl)
    (fun _ => rfl) hterm C hrow hCne with ⟨p, hp, hPC⟩ | ⟨D, hD1, hD2⟩
  · exact ⟨p, rowFP_sub_allFP maxn lits nlits nvars 0 t (by omega) (by omega)
      p hp, hPC⟩
  · simp only [List.reverse_nil, List.nil_append] at hD1
    subst hD1
    have hDne : lits (t * maxn + 0) ≠ SAT_sentinel := by
      intro habs
      have : C = [] := by
        cases hD2 with
        | nil => rfl
        | cons _ _ hj2 => exact absurd habs hj2
      exact hCne this
    have hcnt : 0 < nlits t := by
      rcases Nat.eq_zero_or_pos (nlits t) with h0 | h0
      · rw [h0, rowSeg_zero, splitRow] at hrow
        simp only [List.mem_singleton] at hrow
        subst hrow
        exact absurd rfl hCne
      · exact h0
    exact ⟨t * maxn + 0, rowFP_sub_allFP maxn lits nlits nvars 0 t (by omega)
      (by omega) _ (rowFP_head maxn lits t 0 (nlits t) hcnt hDne), hD2⟩

/-- Positional form of the clause-labelling consistency hypothesis. -/
theorem labels_pos (nvars maxn : Nat) (lits nlits ptr : Nat → Nat)
    (hWF : WFStore nvars maxn lits nlits)
    (hL : WFLabels nvars maxn lits nlits ptr) :
    ∀ c ∈ allFirstPositions maxn lits nlits 0 nvars,
    ∀ C, ClauseAt lits c C → ∀ l ∈ C,
    repOf ptr (l >>> 1) = repOf ptr (lits c >>> 1) := by
  intro c hc C hC l hl
  have hmem := allPos_clause_mem nvars maxn lits nlits hWF c hc C hC
  have hne := (allPos_wf nvars maxn lits nlits hWF c hc).1
  have hhead : lits c ∈ C := by
    cases hC with
    | nil _ hj2 => exact absurd hj2 hne
    | cons _ C2 _ _ => exact List.mem_cons_self _ _
  exact hL.2.2 C hmem l hl (lits c) hhead

/-! #### `ringInsert` and the migration loop -/

theorem WatchInv_toCore (nvars maxn : Nat) (lits nlits : Nat → Nat)
    (w nc : Nat → Nat) (W : Nat → List Nat)
    (h : WatchInv nvars maxn lits nlits w nc W) :
    WatchCore nvars maxn lits nlits w nc W :=
  ⟨h.chains, h.mem_pos, h.mem_lit, h.disj⟩

theorem WatchCore_toInv (nvars maxn : Nat) (lits nlits : Nat → Nat)
    (w nc : Nat → Nat) (W : Nat → List Nat)
    (h : WatchCore nvars maxn lits nlits w nc W)
    (hcov : ∀ c ∈ allFirstPositions maxn lits nlits 0 nvars,
      ∃ l, l < 2 * nvars ∧ c ∈ W l) :
    WatchInv nvars maxn lits nlits w nc W :=
  ⟨h.chains, h.mem_pos, h.mem_lit, h.disj, hcov⟩

theorem ringInsert_effect (st : SState) (v : Nat) :
    ((¬(st.assignment v = SAT_sentinel ∧ st.watch (2*v) = SAT_sentinel ∧
        st.watch (2*v+1) = SAT_sentinel)) ∧ ringInsert st v = st) ∨
    ((st.assignment v = SAT_sentinel ∧ st.watch (2*v) = SAT_sentinel ∧
        st.watch (2*v+1) = SAT_sentinel) ∧
      ((st.t = SAT_sentinel ∧
        ringInsert st v = { st with t := v, h := v, next := upd st.next v v }) ∨
       (st.t ≠ SAT_sentinel ∧
        ringInsert st v =
          { st with next := upd (upd st.next v st.h) st.t v, h := v }))) := by
  unfold ringInsert
  by_cases hc : st.assignment v = SAT_sentinel ∧ st.watch (2*v) = SAT_sentinel ∧
      st.watch (2*v+1) = SAT_sentinel
  · rw [if_pos hc]
    by_cases ht : st.t = SAT_sentinel
    · rw [if_pos ht]
      exact Or.inr ⟨hc, Or.inl ⟨ht, rfl⟩⟩
    · rw [if_neg ht]
      exact Or.inr ⟨hc, Or.inr ⟨ht, rfl⟩⟩
  · rw [if_neg hc]
    exact Or.inl ⟨hc, rfl⟩

theorem ringInsert_sound (nvars : Nat) (ptr : Nat → Nat) (r : Nat) (st : SState)
    (v : Nat) (R : List Nat)
    (hRing : RingOK st.next st.h st.t R)
    (hrv : ∀ x ∈ R, x < nvars ∧ repOf ptr x = r ∧
      st.assignment x = SAT_sentinel ∧
      (st.watch (2*x) ≠ SAT_sentinel ∨ st.watch (2*x+1) ≠ SAT_sentinel))
    (hv : v < nvars) (hvr : repOf ptr v = r) (hvs : v ≠ SAT_sentinel) :
    ∃ R1, RingOK (ringInsert st v).next (ringInsert st v).h (ringInsert st v).t R1 ∧
      (∀ x ∈ R, x ∈ R1) ∧
      (∀ x ∈ R1, x ∈ R ∨ x = v) ∧
      (∀ x ∈ R1, x < nvars ∧ repOf ptr x = r ∧
        st.assignment x = SAT_sentinel) ∧
      (st.assignment v = SAT_sentinel ∧ st.watch (2*v) = SAT_sentinel ∧
        st.watch (2*v+1) = SAT_sentinel → v ∈ R1) := by
  rcases ringInsert_effect st v with ⟨hcond, heq⟩ | ⟨hcond, hcase⟩
  · refine ⟨R, by rw [heq]; exact hRing, fun x hx => hx, fun x hx => Or.inl hx,
      fun x hx => ⟨(hrv x hx).1, (hrv x hx).2.1, (hrv x hx).2.2.1⟩, ?_⟩
    intro habs
    exact absurd habs hcond
  · rcases hcase with ⟨ht, heq⟩ | ⟨ht, heq⟩
    · have hRnil : R = [] := RingOK_empty_of_sent st.next st.h R (ht ▸ hRing)
      subst hRnil
      refine ⟨[v], ?_, by simp, ?_, ?_, fun _ => by simp⟩
      · rw [heq]
        exact ringPush_empty st.next v hvs
      · intro x hx
        simp only [List.mem_singleton] at hx
        exact Or.inr hx
      · intro x hx
        simp only [List.mem_singleton] at hx
        subst hx
        exact ⟨hv, hvr, hcond.1⟩
    · have hvR : v ∉ R := by
        intro habs
        rcases (hrv v habs).2.2.2 with h1 | h1
        · exact h1 hcond.2.1
        · exact h1 hcond.2.2
      refine ⟨v :: R, ?_, fun x hx => List.mem_cons_of_mem _ hx, ?_, ?_,
        fun _ => by simp⟩
      · rw [heq]
        exact ringPush st.next st.h st.t v R hRing ht hvR hvs
      · intro x hx
        rcases List.mem_cons.mp hx with rfl | hx2
        · exact Or.inr rfl
        · exact Or.inl hx2
      · intro x hx
        rcases List.mem_cons.mp hx with rfl | hx2
        · exact ⟨hv, hvr, hcond.1⟩
        · exact ⟨(hrv x hx2).1, (hrv x hx2).2.1, (hrv x hx2).2.2.1⟩

theorem ringInsert_next_frame (st : SState) (v x : Nat) (hxv : x ≠ v)
    (hxt : st.t ≠ SAT_sentinel → x ≠ st.t) :
    (ringInsert st v).next x = st.next x := by
  rcases ringInsert_effect st v with ⟨_, heq⟩ | ⟨_, hcase⟩
  · rw [heq]
  · rcases hcase with ⟨ht, heq⟩ | ⟨ht, heq⟩
    · rw [heq]
      exact upd_other _ _ _ _ hxv
    · rw [heq]
      simp only
      rw [upd_other _ _ _ _ (hxt ht), upd_other _ _ _ _ hxv]

/-- Soundness of the migration loop: when every orphan clause has a
non-false literal, the loop returns true and redistributes the orphans
while preserving the watch-table and ring invariants. -/
theorem uwLoop_sound (nvars maxn : Nat) (lits nlits ptr : Nat → Nat) (r : Nat)
    (hWF : WFStore nvars maxn lits nlits)
    (hL : WFLabels nvars maxn lits nlits ptr) :
    ∀ fuel c O st W R res,
    uwLoop lits c st fuel = some res →
    IsChain st.nextClause c O →
    WatchCore nvars maxn lits nlits st.watch st.nextClause W →
    (∀ x ∈ O, x ∈ allFirstPositions maxn lits nlits 0 nvars) →
    (∀ x ∈ O, ∀ l, l < 2 * nvars → x ∉ W l) →
    (∀ x ∈ O, ∃ C, ClauseAt lits x C ∧ ∃ w2 ∈ C,
      litNonFalse st.assignment w2 = true) →
    (∀ x ∈ O, repOf ptr (lits x >>> 1) = r) →
    RingOK st.next st.h st.t R →
    (∀ x ∈ R, x < nvars ∧ repOf ptr x = r ∧
      st.assignment x = SAT_sentinel ∧
      (st.watch (2*x) ≠ SAT_sentinel ∨ st.watch (2*x+1) ≠ SAT_sentinel)) →
    (∀ v, v < nvars → repOf ptr v = r → st.assignment v = SAT_sentinel →
      (st.watch (2*v) ≠ SAT_sentinel ∨ st.watch (2*v+1) ≠ SAT_sentinel) →
      v ∈ R) →
    res.2 = true ∧
    ∃ W' R', MigRes nvars maxn lits nlits ptr r O st res.1 W W' R R' := by
  intro fuel
  induction fuel with
  | zero => intro c O st W R res h; simp [uwLoop] at h
  | succ n ih =>
    intro c O st W R res h hch hWc hopos hodisj hoalt hocomp hRing hrv hact
    rw [uwLoop] at h
    by_cases hc : c = SAT_sentinel
    · simp only [hc, if_true, Option.some.injEq] at h
      subst h
      have hO : O = [] := by
        subst hc
        exact IsChain_det st.nextClause _ _ hch _ IsChain.nil
      subst hO
      refine ⟨rfl, W, R, ?_⟩
      exact
        { hWc := hWc
          cover := by
            intro x hx
            rcases hx with hx | hx
            · exact hx
            · simp at hx
          growth := fun l _ => ⟨[], (List.nil_append _).symm, by simp,
            fun habs => absurd rfl habs⟩
          hRing := hRing
          ringGrow := fun v hv => hv
          ringVars := hrv
          active := hact
          wmono := fun l hl => hl
          fnext := fun v _ => rfl
          fwatch := fun l _ => rfl
          fnc := fun x _ => rfl }
    · simp only [hc, if_false] at h
      obtain ⟨O2, hOeq, hchtail⟩ : ∃ O2, O = c :: O2 ∧
          IsChain st.nextClause (st.nextClause c) O2 := by
        cases hch with
        | nil => exact absurd rfl hc
        | cons _ O2 _ ht => exact ⟨O2, rfl, ht⟩
      subst hOeq
      have hcpos := hopos c (List.mem_cons_self _ _)
      obtain ⟨Cc, hCc, wit, hwitmem, hwitnf⟩ := hoalt c (List.mem_cons_self _ _)
      rcases hfa : findAlt lits st.assignment c (n+1) with _ | altop
      · rw [hfa] at h
        cases h
      · rw [hfa] at h
        rcases altop with _ | alt
        · have hspec := (findAlt_spec lits st.assignment (n+1) c Cc none hCc hfa).1
            rfl wit hwitmem
          rw [hspec] at hwitnf
          cases hwitnf
        · obtain ⟨haltmem, haltnf⟩ :=
            (findAlt_spec lits st.assignment (n+1) c Cc (some alt) hCc hfa).2 alt rfl
          set st1 := ringInsert st (alt >>> 1) with hst1
          have hasg1 : st1.assignment = st.assignment := ringInsert_assignment st _
          have hw1 : st1.watch = st.watch := ringInsert_watch st _
          have hnc1 : st1.nextClause = st.nextClause :=
            (ringInsert_scalars st _).2.2.2.2.2
          -- the state after one migration step
          have h2 : uwLoop lits (st.nextClause c)
              { st1 with
                nextClause := upd st1.nextClause c (st1.watch alt)
                watch := upd st1.watch alt c } n = some res := h
          set st2 : SState :=
            { st1 with
              nextClause := upd st1.nextClause c (st1.watch alt)
              watch := upd st1.watch alt c } with hst2
          have hasg2 : st2.assignment = st.assignment := hasg1
          have hw2 : st2.watch = upd st.watch alt c := by
            rw [hst2]
            show upd st1.watch alt c = upd st.watch alt c
            rw [hw1]
          have hnc2 : st2.nextClause = upd st.nextClause c (st.watch alt) := by
            rw [hst2]
            show upd st1.nextClause c (st1.watch alt) = _
            rw [hnc1, hw1]
          have haltlt : alt < 2 * nvars :=
            clauseAt_mem_bound nvars maxn lits nlits hWF c hcpos Cc hCc alt haltmem
          have hvaltlt : alt >>> 1 < nvars := lit_var_lt _ _ haltlt
          have hvaltrep : repOf ptr (alt >>> 1) = r := by
            rw [labels_pos nvars maxn lits nlits ptr hWF hL c hcpos Cc hCc alt
              haltmem]
            exact hocomp c (List.mem_cons_self _ _)
          have hvalts : alt >>> 1 ≠ SAT_sentinel := by
            have := hWF.1
            omega
          have hcnW : ∀ l, l < 2 * nvars → c ∉ W l :=
            hodisj c (List.mem_cons_self _ _)
          have hcnO2 : c ∉ O2 :=
            (List.nodup_cons.mp (IsChain_nodup st.nextClause c _ hch)).1
          have hcwf := allPos_wf nvars maxn lits nlits hWF c hcpos
          obtain ⟨R1, hRing1, hgrow1, hsub1, hvars1, hins1⟩ :=
            ringInsert_sound nvars ptr r st (alt >>> 1) R hRing hrv hvaltlt
              hvaltrep hvalts
          rw [← hst1] at hRing1
          -- watch-slot monotonicity of the step
          have hwmono2 : ∀ l, st.watch l ≠ SAT_sentinel →
              st2.watch l ≠ SAT_sentinel := by
            intro l hlW
            rw [hw2]
            by_cases hla : l = alt
            · subst hla
              rw [upd_same]
              exact hcwf.2.2.2
            · rw [upd_other _ _ _ _ hla]
              exact hlW
          -- the new literal's slot is watched
          have haltslot : st2.watch alt = c := by
            rw [hw2, upd_same]
          have hvaltwatched : st2.watch (2 * (alt >>> 1)) ≠ SAT_sentinel ∨
              st2.watch (2 * (alt >>> 1) + 1) ≠ SAT_sentinel := by
            obtain ⟨haeq, hble⟩ := lit_decomp alt
            rcases Nat.lt_or_ge (alt &&& 1) 1 with hb | hb
            · left
              have : 2 * (alt >>> 1) = alt := by omega
              rw [this, haltslot]
              exact hcwf.2.2.2
            · right
              have : 2 * (alt >>> 1) + 1 = alt := by omega
              rw [this, haltslot]
              exact hcwf.2.2.2
          -- hypotheses of the recursive call
          have hch2 : IsChain st2.nextClause (st.nextClause c) O2 := by
            refine IsChain_congr st.nextClause st2.nextClause _ _ hchtail ?_
            intro x hx
            rw [hnc2]
            refine upd_other _ _ _ _ ?_
            intro habs
            rw [habs] at hx
            exact hcnO2 hx
          have hWc2 : WatchCore nvars maxn lits nlits st2.watch st2.nextClause
              (fun l => if l = alt then c :: W l else W l) := by
            refine ⟨?_, ?_, ?_, ?_⟩
            · intro l hl
              show IsChain st2.nextClause (st2.watch l)
                (if l = alt then c :: W l else W l)
              by_cases hla : l = alt
              · subst hla
                rw [if_pos rfl, haltslot]
                refine IsChain.cons c _ hc ?_
                have hlink : st2.nextClause c = st.watch l := by
                  rw [hnc2, upd_same]
                rw [hlink]
                refine IsChain_congr st.nextClause st2.nextClause _ _
                  (hWc.chains l hl) ?_
                intro x hx
                rw [hnc2]
                refine upd_other _ _ _ _ ?_
                intro habs
                rw [habs] at hx
                exact hcnW l hl hx
              · rw [if_neg hla]
                have hslot : st2.watch l = st.watch l := by
                  rw [hw2]
                  exact upd_other _ _ _ _ hla
                rw [hslot]
                refine IsChain_congr st.nextClause st2.nextClause _ _
                  (hWc.chains l hl) ?_
                intro x hx
                rw [hnc2]
                refine upd_other _ _ _ _ ?_
                intro habs
                rw [habs] at hx
                exact hcnW l hl hx
            · intro l hl x hx
              simp only at hx
              by_cases hla : l = alt
              · rw [if_pos hla] at hx
                rcases List.mem_cons.mp hx with rfl | hx2
                · exact hcpos
                · exact hWc.mem_pos l hl x hx2
              · rw [if_neg hla] at hx
                exact hWc.mem_pos l hl x hx
            · intro l hl x hx
              simp only at hx
              by_cases hla : l = alt
              · rw [if_pos hla] at hx
                rcases List.mem_cons.mp hx with rfl | hx2
                · exact ⟨Cc, hCc, hla ▸ haltmem⟩
                · exact hWc.mem_lit l hl x hx2
              · rw [if_neg hla] at hx
                exact hWc.mem_lit l hl x hx
            · intro l1 l2 hl1 hl2 hne x hx1
              simp only at hx1 ⊢
              intro hx2
              by_cases hla1 : l1 = alt
              · rw [if_pos hla1] at hx1
                have hla2 : l2 ≠ alt := by
                  rw [hla1] at hne
                  exact fun habs => hne habs.symm
                rw [if_neg hla2] at hx2
                rcases List.mem_cons.mp hx1 with rfl | hx1b
                · exact hcnW l2 hl2 hx2
                · exact hWc.disj l1 l2 hl1 hl2 hne x hx1b hx2
              · rw [if_neg hla1] at hx1
                by_cases hla2 : l2 = alt
                · rw [if_pos hla2] at hx2
                  rcases List.mem_cons.mp hx2 with heq | hx2b
                  · rw [heq] at hx1
                    exact hcnW l1 hl1 hx1
                  · exact hWc.disj l1 l2 hl1 hl2 hne x hx1 hx2b
                · rw [if_neg hla2] at hx2
                  exact hWc.disj l1 l2 hl1 hl2 hne x hx1 hx2
          have hopos2 : ∀ x ∈ O2, x ∈ allFirstPositions maxn lits nlits 0 nvars :=
            fun x hx => hopos x (List.mem_cons_of_mem _ hx)
          have hodisj2 : ∀ x ∈ O2, ∀ l, l < 2 * nvars →
              x ∉ (fun l => if l = alt then c :: W l else W l) l := by
            intro x hx l hl
            simp only
            by_cases hla : l = alt
            · rw [if_pos hla]
              intro habs
              rcases List.mem_cons.mp habs with rfl | habs2
              · exact hcnO2 hx
              · exact hodisj x (List.mem_cons_of_mem _ hx) l hl habs2
            · rw [if_neg hla]
              exact hodisj x (List.mem_cons_of_mem _ hx) l hl
          have hoalt2 : ∀ x ∈ O2, ∃ C, ClauseAt lits x C ∧ ∃ w2 ∈ C,
              litNonFalse st2.assignment w2 = true := by
            rw [hasg2]
            exact fun x hx => hoalt x (List.mem_cons_of_mem _ hx)
          have hocomp2 : ∀ x ∈ O2, repOf ptr (lits x >>> 1) = r :=
            fun x hx => hocomp x (List.mem_cons_of_mem _ hx)
          have hRing2 : RingOK st2.next st2.h st2.t R1 := hRing1
          have hrv2 : ∀ x ∈ R1, x < nvars ∧ repOf ptr x = r ∧
              st2.assignment x = SAT_sentinel ∧
              (st2.watch (2*x) ≠ SAT_sentinel ∨
                st2.watch (2*x+1) ≠ SAT_sentinel) := by
            intro x hx
            obtain ⟨h1, h2b, h3⟩ := hvars1 x hx
            refine ⟨h1, h2b, by rw [hasg2]; exact h3, ?_⟩
            rcases hsub1 x hx with hxR | rfl
            · rcases (hrv x hxR).2.2.2 with hw | hw
              · exact Or.inl (hwmono2 _ hw)
              · exact Or.inr (hwmono2 _ hw)
            · exact hvaltwatched
          have hact2 : ∀ v, v < nvars → repOf ptr v = r →
              st2.assignment v = SAT_sentinel →
              (st2.watch (2*v) ≠ SAT_sentinel ∨
                st2.watch (2*v+1) ≠ SAT_sentinel) → v ∈ R1 := by
            intro v hv hvrep hvasg hvw
            rw [hasg2] at hvasg
            by_cases hvold : st.watch (2*v) ≠ SAT_sentinel ∨
                st.watch (2*v+1) ≠ SAT_sentinel
            · exact hgrow1 v (hact v hv hvrep hvasg hvold)
            · push_neg at hvold
              have hvv : v = alt >>> 1 := by
                rcases hvw with hw | hw
                · rw [hw2] at hw
                  by_cases h2v : 2*v = alt
                  · have := lit_var_bit v 0 (by omega)
                    rw [← h2v]
                    simpa using this.1.symm
                  · rw [upd_other _ _ _ _ h2v] at hw
                    exact absurd hvold.1 hw
                · rw [hw2] at hw
                  by_cases h2v : 2*v+1 = alt
                  · have := lit_var_bit v 1 (by omega)
                    rw [← h2v]
                    simpa using this.1.symm
                  · rw [upd_other _ _ _ _ h2v] at hw
                    exact absurd hvold.2 hw
              subst hvv
              exact hins1 ⟨hvasg, hvold.1, hvold.2⟩
          have hres := ih (st.nextClause c) O2 st2
            (fun l => if l = alt then c :: W l else W l) R1 res h2 hch2 hWc2
            hopos2 hodisj2 hoalt2 hocomp2 hRing2 hrv2 hact2
          obtain ⟨hok, W', R', hM⟩ := hres
          refine ⟨hok, W', R', ?_⟩
          have hst2next : st2.next = st1.next := rfl
          refine
            { hWc := hM.hWc
              cover := ?_
              growth := ?_
              hRing := hM.hRing
              ringGrow := ?_
              ringVars := ?_
              active := ?_
              wmono := ?_
              fnext := ?_
              fwatch := ?_
              fnc := ?_ }
          · intro x hx
            refine hM.cover x ?_
            rcases hx with ⟨l, hl, hxl⟩ | hxO
            · refine Or.inl ⟨l, hl, ?_⟩
              by_cases hla : l = alt
              · rw [if_pos hla]
                exact List.mem_cons_of_mem _ hxl
              · rw [if_neg hla]
                exact hxl
            · rcases List.mem_cons.mp hxO with rfl | hxO2
              · refine Or.inl ⟨alt, haltlt, ?_⟩
                show x ∈ if alt = alt then x :: W alt else W alt
                rw [if_pos rfl]
                exact List.mem_cons_self _ _
              · exact Or.inr hxO2
          · intro l hl
            obtain ⟨A2, hA2eq, hA2mem, hA2nf⟩ := hM.growth l hl
            rw [hasg2] at hA2nf
            by_cases hla : l = alt
            · subst hla
              rw [if_pos rfl] at hA2eq
              refine ⟨A2 ++ [c], ?_, ?_, fun _ => haltnf⟩
              · rw [hA2eq, List.append_assoc]
                rfl
              · intro x hx
                rcases List.mem_append.mp hx with hx1 | hx2
                · exact List.mem_cons_of_mem _ (hA2mem x hx1)
                · simp only [List.mem_singleton] at hx2
                  subst hx2
                  exact List.mem_cons_self _ _
            · rw [if_neg hla] at hA2eq
              exact ⟨A2, hA2eq,
                fun x hx => List.mem_cons_of_mem _ (hA2mem x hx), hA2nf⟩
          · intro v hv
            exact hM.ringGrow v (hgrow1 v hv)
          · intro v hv
            obtain ⟨h1, h2b, h3, h4⟩ := hM.ringVars v hv
            rw [hasg2] at h3
            exact ⟨h1, h2b, h3, h4⟩
          · intro v hv hvrep hvasg hvw
            refine hM.active v hv hvrep ?_ hvw
            rw [hasg2]
            exact hvasg
          · intro l hl
            exact hM.wmono l (hwmono2 l hl)
          · intro v hvnc
            rw [hM.fnext v hvnc, hst2next, hst1]
            refine ringInsert_next_frame st _ v ?_ ?_
            · intro habs
              rw [habs] at hvnc
              exact hvnc ⟨hvaltlt, hvaltrep⟩
            · intro htne habs
              obtain ⟨_, hlast, _, _, _, _⟩ := RingOK_unpack st.next st.h st.t R
                hRing htne
              have htR : st.t ∈ R := getLast?_mem R st.t hlast
              have := hrv st.t htR
              rw [habs] at hvnc
              exact hvnc ⟨this.1, this.2.1⟩
          · intro l hlnc
            rw [hM.fwatch l hlnc, hw2]
            refine upd_other _ _ _ _ ?_
            intro habs
            rw [habs] at hlnc
            exact hlnc ⟨hvaltlt, hvaltrep⟩
          · intro x hxnc
            rw [hM.fnc x hxnc, hnc2]
            refine upd_other _ _ _ _ ?_
            intro habs
            rw [habs] at hxnc
            refine hxnc ⟨lit_var_lt _ _ hcwf.2.1, hocomp c (List.mem_cons_self _ _)⟩

/-- Soundness of `update_watchlist`: when its falsified literal's watchers
each hold another non-false literal, the call returns true, empties the
falsified literal's list and redistributes its clauses onto non-false
literals, preserving watch-table and ring invariants and touching only
component `r`. -/
theorem updateWatchlist_sound (nvars maxn : Nat) (lits nlits ptr : Nat → Nat)
    (r : Nat) (hWF : WFStore nvars maxn lits nlits)
    (hL : WFLabels nvars maxn lits nlits ptr)
    (st : SState) (falseLit fuel : Nat) (W : Nat → List Nat) (R : List Nat)
    (res : SState × Bool)
    (h : updateWatchlist lits falseLit st fuel = some res)
    (hW : WatchInv nvars maxn lits nlits st.watch st.nextClause W)
    (hflt : falseLit < 2 * nvars)
    (hfvar : repOf ptr (falseLit >>> 1) = r)
    (hkasg : st.assignment (falseLit >>> 1) ≠ SAT_sentinel)
    (hffalse : litNonFalse st.assignment falseLit = false)
    (halt : ∀ c ∈ W falseLit, ∃ C, ClauseAt lits c C ∧ ∃ w2 ∈ C,
      litNonFalse st.assignment w2 = true)
    (hRing : RingOK st.next st.h st.t R)
    (hrv : ∀ x ∈ R, x < nvars ∧ repOf ptr x = r ∧
      st.assignment x = SAT_sentinel ∧
      (st.watch (2*x) ≠ SAT_sentinel ∨ st.watch (2*x+1) ≠ SAT_sentinel))
    (hact : ∀ v, v < nvars → repOf ptr v = r → st.assignment v = SAT_sentinel →
      (st.watch (2*v) ≠ SAT_sentinel ∨ st.watch (2*v+1) ≠ SAT_sentinel) →
      v ∈ R) :
    res.2 = true ∧ ∃ W' R',
      WatchInv nvars maxn lits nlits res.1.watch res.1.nextClause W' ∧
      W' falseLit = [] ∧
      (∀ l, l < 2 * nvars → l ≠ falseLit → ∃ A, W' l = A ++ W l ∧
        (∀ x ∈ A, x ∈ W falseLit) ∧
        (A ≠ [] → litNonFalse st.assignment l = true)) ∧
      RingOK res.1.next res.1.h res.1.t R' ∧
      (∀ v ∈ R, v ∈ R') ∧
      (∀ v ∈ R', v < nvars ∧ repOf ptr v = r ∧
        st.assignment v = SAT_sentinel ∧
        (res.1.watch (2*v) ≠ SAT_sentinel ∨
          res.1.watch (2*v+1) ≠ SAT_sentinel)) ∧
      (∀ v, v < nvars → repOf ptr v = r → st.assignment v = SAT_sentinel →
        (res.1.watch (2*v) ≠ SAT_sentinel ∨
          res.1.watch (2*v+1) ≠ SAT_sentinel) → v ∈ R') ∧
      (∀ l, l ≠ falseLit → st.watch l ≠ SAT_sentinel →
        res.1.watch l ≠ SAT_sentinel) ∧
      (∀ v, ¬(v < nvars ∧ repOf ptr v = r) → res.1.next v = st.next v) ∧
      (∀ l, ¬(l >>> 1 < nvars ∧ repOf ptr (l >>> 1) = r) →
        res.1.watch l = st.watch l) ∧
      (∀ x, ¬(lits x >>> 1 < nvars ∧ repOf ptr (lits x >>> 1) = r) →
        res.1.nextClause x = st.nextClause x) := by
  unfold updateWatchlist at h
  have hfv2 : ∀ x, x ∈ R → 2*x ≠ falseLit ∧ 2*x+1 ≠ falseLit := by
    intro x hx
    have hxa := (hrv x hx).2.2.1
    constructor
    · intro habs
      have : falseLit >>> 1 = x := by
        rw [← habs]
        have := lit_var_bit x 0 (by omega)
        simpa using this.1
      rw [this] at hkasg
      exact hkasg hxa
    · intro habs
      have : falseLit >>> 1 = x := by
        rw [← habs]
        exact (lit_var_bit x 1 (by omega)).1
      rw [this] at hkasg
      exact hkasg hxa
  have hstep := uwLoop_sound nvars maxn lits nlits ptr r hWF hL fuel
    (st.watch falseLit) (W falseLit)
    { st with watch := upd st.watch falseLit SAT_sentinel }
    (fun l => if l = falseLit then [] else W l) R res h
    (hW.chains falseLit hflt)
    ?_ ?_ ?_ ?_ ?_ hRing ?_ ?_
  · obtain ⟨hok, W', R', hM⟩ := hstep
    refine ⟨hok, W', R', ?_, ?_, ?_, hM.hRing, hM.ringGrow, ?_, ?_, ?_, ?_, ?_, ?_⟩
    · -- full watch invariant with restored coverage
      refine WatchCore_toInv _ _ _ _ _ _ _ hM.hWc ?_
      intro c hc
      obtain ⟨l, hl, hcl⟩ := hW.cover c hc
      refine hM.cover c ?_
      by_cases hlf : l = falseLit
      · subst hlf
        exact Or.inr hcl
      · refine Or.inl ⟨l, hl, ?_⟩
        show c ∈ if l = falseLit then [] else W l
        rw [if_neg hlf]
        exact hcl
    · -- the falsified literal's list is empty afterwards
      obtain ⟨A, hAeq, _, hAnf⟩ := hM.growth falseLit hflt
      have hAnil : A = [] := by
        by_contra hAne
        have := hAnf hAne
        rw [hffalse] at this
        cases this
      subst hAnil
      rw [hAeq]
      show ([] : List Nat) ++ (if falseLit = falseLit then [] else W falseLit) = []
      rw [if_pos rfl]
      rfl
    · intro l hl hlf
      obtain ⟨A, hAeq, hAmem, hAnf⟩ := hM.growth l hl
      refine ⟨A, ?_, hAmem, hAnf⟩
      rw [hAeq]
      show A ++ (if l = falseLit then [] else W l) = A ++ W l
      rw [if_neg hlf]
    · intro v hv
      exact hM.ringVars v hv
    · intro v hv hvrep hvasg hvw
      exact hM.active v hv hvrep hvasg hvw
    · intro l hlf hlw
      refine hM.wmono l ?_
      show upd st.watch falseLit SAT_sentinel l ≠ SAT_sentinel
      rw [upd_other _ _ _ _ hlf]
      exact hlw
    · intro v hvnc
      exact hM.fnext v hvnc
    · intro l hlnc
      rw [hM.fwatch l hlnc]
      show upd st.watch falseLit SAT_sentinel l = st.watch l
      refine upd_other _ _ _ _ ?_
      intro habs
      rw [habs] at hlnc
      exact hlnc ⟨lit_var_lt _ _ hflt, hfvar⟩
    · intro x hxnc
      exact hM.fnc x hxnc
  · -- the detached table still satisfies the core facts
    refine ⟨?_, ?_, ?_, ?_⟩
    · intro l hl
      show IsChain st.nextClause (upd st.watch falseLit SAT_sentinel l)
        (if l = falseLit then [] else W l)
      by_cases hlf : l = falseLit
      · subst hlf
        rw [if_pos rfl, upd_same]
        exact IsChain.nil
      · rw [if_neg hlf, upd_other _ _ _ _ hlf]
        exact hW.chains l hl
    · intro l hl c hc
      by_cases hlf : l = falseLit
      · rw [if_pos hlf] at hc
        cases hc
      · rw [if_neg hlf] at hc
        exact hW.mem_pos l hl c hc
    · intro l hl c hc
      by_cases hlf : l = falseLit
      · rw [if_pos hlf] at hc
        cases hc
      · rw [if_neg hlf] at hc
        exact hW.mem_lit l hl c hc
    · intro l1 l2 hl1 hl2 hne c hc1
      by_cases hlf1 : l1 = falseLit
      · rw [if_pos hlf1] at hc1
        cases hc1
      · rw [if_neg hlf1] at hc1
        by_cases hlf2 : l2 = falseLit
        · rw [if_pos hlf2]
          exact List.not_mem_nil c
        · rw [if_neg hlf2]
          exact hW.disj l1 l2 hl1 hl2 hne c hc1
  · exact fun x hx => hW.mem_pos falseLit hflt x hx
  · intro x hx l hl
    show x ∉ if l = falseLit then [] else W l
    by_cases hlf : l = falseLit
    · rw [if_pos hlf]
      exact List.not_mem_nil x
    · rw [if_neg hlf]
      exact hW.disj falseLit l hflt hl (fun habs => hlf habs.symm) x hx
  · exact halt
  · intro x hx
    obtain ⟨C, hC, hfmem⟩ := hW.mem_lit falseLit hflt x hx
    rw [labels_pos nvars maxn lits nlits ptr hWF hL x
      (hW.mem_pos falseLit hflt x hx) C hC falseLit hfmem] at hfvar
    exact hfvar
  · intro x hx
    obtain ⟨h1, h2, h3, h4⟩ := hrv x hx
    refine ⟨h1, h2, h3, ?_⟩
    obtain ⟨hne1, hne2⟩ := hfv2 x hx
    show upd st.watch falseLit SAT_sentinel (2*x) ≠ SAT_sentinel ∨
      upd st.watch falseLit SAT_sentinel (2*x+1) ≠ SAT_sentinel
    rw [upd_other _ _ _ _ hne1, upd_other _ _ _ _ hne2]
    exact h4
  · intro v hv hvrep hvasg hvw
    refine hact v hv hvrep hvasg ?_
    rcases hvw with hw | hw
    · left
      intro habs
      refine hw ?_
      show upd st.watch falseLit SAT_sentinel (2*v) = SAT_sentinel
      by_cases hne : 2*v = falseLit
      · rw [hne, upd_same]
      · rw [upd_other _ _ _ _ hne]
        exact habs
    · right
      intro habs
      refine hw ?_
      show upd st.watch falseLit SAT_sentinel (2*v+1) = SAT_sentinel
      by_cases hne : 2*v+1 = falseLit
      · rw [hne, upd_same]
      · rw [upd_other _ _ _ _ hne]
        exact habs

/-! #### The common commit tail -/

theorem litTrue_to_nonFalse (asg : Nat → Nat) (l : Nat)
    (h : litTrue asg l = true) : litNonFalse asg l = true :=
  ((litTrue_iff asg l).mp h).2

theorem litNonFalse_upd_var_ne (asg : Nat → Nat) (k b l : Nat)
    (h : l >>> 1 ≠ k) : litNonFalse (upd asg k b) l = litNonFalse asg l := by
  unfold litNonFalse
  rw [upd_other _ _ _ _ h]

theorem litNonFalse_upd (asg : Nat → Nat) (k b l : Nat) (hb : b ≤ 1)
    (hne : l ≠ 2*k + b) (hl : litNonFalse asg l = true) :
    litNonFalse (upd asg k b) l = true := by
  by_cases hvar : l >>> 1 = k
  · obtain ⟨hdec, hble⟩ := lit_decomp l
    rw [litNonFalse_iff, hvar, upd_same]
    right
    intro habs
    refine hne ?_
    omega
  · rw [litNonFalse_upd_var_ne asg k b l hvar]
    exact hl

theorem mask_upd_eq (asg dh : Nat → Nat) (k b p d : Nat)
    (hk : ∃ j, p ≤ j ∧ j < d ∧ dh j = k) :
    maskAsg (upd asg k b) dh p d = maskAsg asg dh p d := by
  funext v
  by_cases hv : ∃ j, p ≤ j ∧ j < d ∧ dh j = v
  · rw [maskAsg_mem _ _ _ _ _ hv, maskAsg_mem _ _ _ _ _ hv]
  · push_neg at hv
    have hvk : v ≠ k := by
      intro habs
      obtain ⟨j, h1, h2, h3⟩ := hk
      exact hv j h1 h2 (by rw [h3, habs])
    rw [maskAsg_not_mem _ _ _ _ _ (fun j h1 h2 => hv j h1 h2),
      maskAsg_not_mem _ _ _ _ _ (fun j h1 h2 => hv j h1 h2),
      upd_other _ _ _ _ hvk]

theorem ringInsert_frame2 (st : SState) (v : Nat) :
    (ringInsert st v).head = st.head ∧ (ringInsert st v).rep = st.rep ∧
    (ringInsert st v).heap = st.heap := by
  unfold ringInsert
  split
  · split <;> exact ⟨rfl, rfl, rfl⟩
  · exact ⟨rfl, rfl, rfl⟩

theorem uwLoop_frame2 (lits : Nat → Nat) :
    ∀ (fuel c : Nat) (st : SState) (res : SState × Bool),
    uwLoop lits c st fuel = some res →
    res.1.head = st.head ∧ res.1.rep = st.rep ∧ res.1.heap = st.heap := by
  intro fuel
  induction fuel with
  | zero => intro c st res h; simp [uwLoop] at h
  | succ n ih =>
    intro c st res h
    rw [uwLoop] at h
    by_cases hc : c = SAT_sentinel
    · simp only [hc, if_true, Option.some.injEq] at h
      subst h
      exact ⟨rfl, rfl, rfl⟩
    · simp only [hc, if_false] at h
      rcases ha : findAlt lits st.assignment c (n+1) with _ | alt
      · rw [ha] at h; cases h
      · rw [ha] at h
        rcases alt with _ | l
        · cases h
          exact ⟨rfl, rfl, rfl⟩
        · have h2 := ih (st.nextClause c) _ res h
          have e := ringInsert_frame2 st (l >>> 1)
          simp only [e.1, e.2.1, e.2.2] at h2
          exact h2

theorem updateWatchlist_frame2 (lits : Nat → Nat) (falseLit : Nat) (st : SState)
    (fuel : Nat) (res : SState × Bool)
    (h : updateWatchlist lits falseLit st fuel = some res) :
    res.1.head = st.head ∧ res.1.rep = st.rep ∧ res.1.heap = st.heap := by
  unfold updateWatchlist at h
  exact uwLoop_frame2 lits fuel (st.watch falseLit)
    { st with watch := upd st.watch falseLit SAT_sentinel } res h

/-- Soundness of the common commit tail (lines 285-295): committing the
top stack entry's variable re-establishes the full per-component invariant
at the loop head. -/
theorem commitTail_sound (nvars maxn : Nat) (lits nlits ptr : Nat → Nat)
    (r start : Nat) (hWF : WFStore nvars maxn lits nlits)
    (hL : WFLabels nvars maxn lits nlits ptr)
    (st : SState) (W : Nat → List Nat) (R : List Nat) (k fuel : Nat)
    (st' : SState)
    (h : commitTail lits st k fuel = some st')
    (hM : MidInv nvars maxn lits nlits ptr r start st W R k)
    (hmig : ∀ c ∈ W (2*k + bitOf (st.dstate (st.d - 1))),
      ∃ C, ClauseAt lits c C ∧ ∃ w2 ∈ C,
        w2 = 2*k + (1 - bitOf (st.dstate (st.d - 1))) ∨
        (w2 >>> 1 ≠ k ∧ litNonFalse st.assignment w2 = true))
    (hI4top : st.dstate (st.d - 1) ≤ 1 →
      ∀ c ∈ W (2*k + st.dstate (st.d - 1)), ∃ C, ClauseAt lits c C ∧
        ∃ w2 ∈ C, w2 ≠ 2*k + st.dstate (st.d - 1) ∧
          litNonFalse st.assignment w2 = true) :
    ∃ W' R', SInv nvars maxn lits nlits ptr r start st' W' R' ∧
      st'.d = st.d ∧ st'.unsat = st.unsat ∧ st'.dh = st.dh ∧
      st'.dstate = st.dstate ∧
      st'.assignment = upd st.assignment k (bitOf (st.dstate (st.d - 1))) ∧
      AgreeOut nvars lits ptr r st st' := by
  unfold commitTail at h
  rcases hu : updateWatchlist lits (2*k + ((st.dstate (st.d - 1) + 1) &&& 1))
      { st with assignment := upd st.assignment k ((st.dstate (st.d - 1) + 1) &&& 1) }
      fuel with _ | p
  · rw [hu] at h; cases h
  · rw [hu] at h
    simp only [Option.some.injEq] at h
    have hb : bitOf (st.dstate (st.d - 1)) = (st.dstate (st.d - 1) + 1) &&& 1 := rfl
    have hble : (st.dstate (st.d - 1) + 1) &&& 1 ≤ 1 := bitOf_le_one _
    have hkn := hM.hkvar.1
    have hkr := hM.hkvar.2
    have hfl_var : (2*k + ((st.dstate (st.d - 1) + 1) &&& 1)) >>> 1 = k :=
      (lit_var_bit k _ hble).1
    have hframe := updateWatchlist_frame lits _ _ fuel p hu
    have hframe2 := updateWatchlist_frame2 lits _ _ fuel p hu
    have hst2 : st' = { p.1 with failed := p.1.failed || !p.2 } := h.symm
    have hd2 : st'.d = st.d := by rw [hst2]; exact hframe.2.2.2.1
    have hdh2 : st'.dh = st.dh := by rw [hst2]; exact hframe.2.2.1
    have hds2 : st'.dstate = st.dstate := by rw [hst2]; exact hframe.2.1
    have hasg2 : st'.assignment =
        upd st.assignment k ((st.dstate (st.d - 1) + 1) &&& 1) := by
      rw [hst2]
      exact hframe.1
    have hunsat2 : st'.unsat = st.unsat := by
      rw [hst2]
      exact hframe.2.2.2.2.1
    have hwatch2 : st'.watch = p.1.watch := by rw [hst2]
    have hnc2 : st'.nextClause = p.1.nextClause := by rw [hst2]
    have hnext2 : st'.next = p.1.next := by rw [hst2]
    have hh2 : st'.h = p.1.h := by rw [hst2]
    have ht2 : st'.t = p.1.t := by rw [hst2]
    have hhead2 : st'.head = st.head := by rw [hst2]; exact hframe2.1
    have hrep2 : st'.rep = st.rep := by rw [hst2]; exact hframe2.2.1
    have hmain := updateWatchlist_sound nvars maxn lits nlits ptr r hWF hL
      { st with assignment := upd st.assignment k ((st.dstate (st.d - 1) + 1) &&& 1) }
      (2*k + ((st.dstate (st.d - 1) + 1) &&& 1)) fuel W R p hu
      ?_ ?_ ?_ ?_ ?_ ?_ hM.hRing ?_ ?_
    · obtain ⟨hok, W', R', hWI, hWfl, hgrow, hRing2, hRgrow, hRvars, hact2,
        hwmono, hfnext, hfwatch, hfnc⟩ := hmain
      have hRvars2 : ∀ v ∈ R', v < nvars ∧ repOf ptr v = r ∧
          upd st.assignment k ((st.dstate (st.d - 1) + 1) &&& 1) v =
            SAT_sentinel ∧
          (p.1.watch (2*v) ≠ SAT_sentinel ∨
            p.1.watch (2*v+1) ≠ SAT_sentinel) := hRvars
      have hact3 : ∀ v, v < nvars → repOf ptr v = r →
          upd st.assignment k ((st.dstate (st.d - 1) + 1) &&& 1) v =
            SAT_sentinel →
          (p.1.watch (2*v) ≠ SAT_sentinel ∨
            p.1.watch (2*v+1) ≠ SAT_sentinel) → v ∈ R' := hact2
      have hgrow2 : ∀ l, l < 2 * nvars →
          l ≠ 2*k + ((st.dstate (st.d - 1) + 1) &&& 1) →
          ∃ A, W' l = A ++ W l ∧
            (∀ x ∈ A, x ∈ W (2*k + ((st.dstate (st.d - 1) + 1) &&& 1))) ∧
            (A ≠ [] → litNonFalse
              (upd st.assignment k ((st.dstate (st.d - 1) + 1) &&& 1)) l =
                true) := hgrow
      refine ⟨W', R', ?_, hd2, hunsat2, hdh2, hds2, hasg2, ?_⟩
      · refine
          { hW := by rw [hwatch2, hnc2]; exact hWI
            hRing := by rw [hnext2, hh2, ht2]; exact hRing2
            ringVars := ?_
            hstart := by rw [hd2]; have := hM.hstart; omega
            stackVar := ?_
            stackState := ?_
            stackAsg := ?_
            stackNodup := ?_
            asgStack := ?_
            active := ?_
            nonFalse := ?_
            flipSafe := ?_ }
        · intro v hv
          obtain ⟨h1, h2b, h3, h4⟩ := hRvars2 v hv
          refine ⟨h1, h2b, ?_, ?_⟩
          · rw [hasg2]
            exact h3
          · rw [hwatch2]
            exact h4
        · intro j h1 h2
          rw [hd2] at h2
          rw [hdh2]
          exact hM.stackVar j h1 h2
        · intro j h1 h2
          rw [hd2] at h2
          rw [hds2]
          exact hM.stackState j h1 h2
        · intro j h1 h2
          rw [hd2] at h2
          rw [hdh2, hds2, hasg2]
          by_cases hjd : j = st.d - 1
          · subst hjd
            rw [hM.htop, upd_same]
            rfl
          · have hne : st.dh j ≠ k := by
              rw [← hM.htop]
              exact hM.stackNodup j (st.d - 1) h1 h2 (by have := hM.hstart; omega)
                (by have := hM.hstart; omega) hjd
            rw [upd_other _ _ _ _ hne]
            exact hM.stackAsg j h1 (by omega)
        · intro j1 j2 h1 h2 h3 h4 h5
          rw [hd2] at h2 h4
          rw [hdh2]
          exact hM.stackNodup j1 j2 h1 h2 h3 h4 h5
        · intro v hv hvrep hvasg
          rw [hasg2] at hvasg
          rw [hdh2, hd2]
          by_cases hvk : v = k
          · subst hvk
            exact ⟨st.d - 1, by have := hM.hstart; omega,
              by have := hM.hstart; omega, hM.htop⟩
          · rw [upd_other _ _ _ _ hvk] at hvasg
            exact hM.asgStack v hv hvrep hvasg
        · intro v hv hvrep hvasg hvw
          rw [hasg2] at hvasg
          rw [hwatch2] at hvw
          exact hact3 v hv hvrep hvasg hvw
        · intro l hl hlrep hlW
          rw [hasg2]
          by_cases hlf : l = 2*k + ((st.dstate (st.d - 1) + 1) &&& 1)
          · subst hlf
            rw [hWfl] at hlW
            exact absurd rfl hlW
          · obtain ⟨A, hAeq, hAmem, hAnf⟩ := hgrow2 l hl hlf
            by_cases hA : A = []
            · subst hA
              rw [List.nil_append] at hAeq
              rw [hAeq] at hlW
              exact litNonFalse_upd st.assignment k _ l hble hlf
                (hM.nonFalse l hl hlrep hlW)
            · exact hAnf hA
        · intro pp hp1 hp2 hps c hc
          rw [hd2] at hp2
          rw [hds2] at hps
          rw [hdh2, hds2] at hc
          rw [hdh2, hds2, hd2, hasg2]
          have hfl_ne : 2 * st.dh pp + st.dstate pp ≠
              2*k + ((st.dstate (st.d - 1) + 1) &&& 1) := by
            by_cases hpd : pp = st.d - 1
            · subst hpd
              rw [hM.htop]
              have hbs := bitOf_eq_sub (st.dstate (st.d - 1)) hps
              rw [hb] at hbs
              omega
            · have hne : st.dh pp ≠ k := by
                rw [← hM.htop]
                exact hM.stackNodup pp (st.d - 1) hp1 hp2
                  (by have := hM.hstart; omega) (by have := hM.hstart; omega) hpd
              intro habs
              refine hne ?_
              have := hble
              have hsple : st.dstate pp ≤ 1 := hps
              omega
          obtain ⟨A, hAeq, hAmem, _⟩ := hgrow2 _
            (by
              have hvlt := hM.stackVar pp hp1 hp2
              have := hps
              omega) hfl_ne
          rw [hAeq] at hc
          have hmask : ∃ j, pp ≤ j ∧ j < st.d ∧ st.dh j = k :=
            ⟨st.d - 1, by omega, by have := hM.hstart; omega, hM.htop⟩
          rcases List.mem_append.mp hc with hcA | hcW
          · have hcfl := hAmem c hcA
            obtain ⟨C, hC, hflmem⟩ := hM.hW.mem_lit _
              (by have := hble; omega) c hcfl
            refine ⟨C, hC, 2*k + ((st.dstate (st.d - 1) + 1) &&& 1), hflmem, ?_⟩
            by_cases hpd : pp = st.d - 1
            · subst hpd
              left
              rw [hM.htop]
              have hbs := bitOf_eq_sub (st.dstate (st.d - 1)) hps
              rw [hb] at hbs
              omega
            · right
              have hne : st.dh pp ≠ k := by
                rw [← hM.htop]
                exact hM.stackNodup pp (st.d - 1) hp1 hp2
                  (by have := hM.hstart; omega) (by have := hM.hstart; omega) hpd
              refine ⟨by rw [hfl_var]; exact fun habs => hne habs.symm, ?_⟩
              refine litNonFalse_unassigned _ _ ?_
              rw [hfl_var]
              exact maskAsg_mem _ _ _ _ _ hmask
          · by_cases hpd : pp = st.d - 1
            · subst hpd
              rw [hM.htop] at hcW ⊢
              obtain ⟨C, hC, w2, hw2mem, hw2ne, hw2nf⟩ := hI4top hps c hcW
              refine ⟨C, hC, w2, hw2mem, ?_⟩
              by_cases hvw2 : w2 >>> 1 = k
              · left
                obtain ⟨hdec, hbl⟩ := lit_decomp w2
                rw [hvw2] at hdec
                have hsple : st.dstate (st.d - 1) ≤ 1 := hps
                omega
              · right
                refine ⟨fun habs => hvw2 (by rw [habs]), ?_⟩
                have hnomask : ∀ j, st.d - 1 ≤ j → j < st.d →
                    st.dh j ≠ w2 >>> 1 := by
                  intro j hj1 hj2
                  have hjeq : j = st.d - 1 := by have := hM.hstart; omega
                  subst hjeq
                  rw [hM.htop]
                  exact fun habs => hvw2 habs.symm
                rw [litNonFalse_iff]
                rw [maskAsg_not_mem _ _ _ _ _ hnomask,
                  upd_other _ _ _ _ (fun habs => hvw2 habs)]
                rw [litNonFalse_iff] at hw2nf
                exact hw2nf
            · obtain ⟨C, hC, w2, hw2mem, hdisj⟩ :=
                hM.flipSafe pp hp1 (by have := hM.hstart; omega) hps c hcW
              refine ⟨C, hC, w2, hw2mem, ?_⟩
              rcases hdisj with hd1 | ⟨hd2a, hd2b⟩
              · exact Or.inl hd1
              · right
                refine ⟨hd2a, ?_⟩
                rw [mask_upd_eq st.assignment st.dh k _ pp st.d hmask]
                exact hd2b
      · refine ⟨?_, ?_, ?_, ?_, hhead2, hrep2⟩
        · intro v hv
          rw [hasg2]
          refine upd_other _ _ _ _ ?_
          intro habs
          rw [habs] at hv
          exact hv ⟨hkn, hkr⟩
        · intro v hv
          rw [hnext2]
          exact hfnext v hv
        · intro l hl
          rw [hwatch2]
          exact hfwatch l hl
        · intro x hx
          rw [hnc2]
          exact hfnc x hx
    · exact hM.hW
    · have := hble
      omega
    · rw [hfl_var]
      exact hkr
    · rw [hfl_var]
      show upd st.assignment k ((st.dstate (st.d - 1) + 1) &&& 1) k ≠ SAT_sentinel
      rw [upd_same]
      have := sentinel_large
      have := hble
      omega
    · show litNonFalse (upd st.assignment k ((st.dstate (st.d - 1) + 1) &&& 1))
        (2*k + ((st.dstate (st.d - 1) + 1) &&& 1)) = false
      exact litNonFalse_false_commit _ k _ hble (upd_same _ _ _)
    · intro c hc
      obtain ⟨C, hC, w2, hw2mem, hdisj⟩ := hmig c hc
      refine ⟨C, hC, w2, hw2mem, ?_⟩
      rcases hdisj with hd1 | ⟨hd2a, hd2b⟩
      · subst hd1
        show litNonFalse (upd st.assignment k _) (2*k + (1 - bitOf _)) = true
        refine litTrue_to_nonFalse _ _ ?_
        rw [hb]
        exact litTrue_opp_commit _ k _ hble (upd_same _ _ _)
      · show litNonFalse (upd st.assignment k _) w2 = true
        rw [litNonFalse_upd_var_ne _ _ _ _ hd2a]
        exact hd2b
    · intro x hx
      obtain ⟨h1, h2b, h3, h4⟩ := hM.ringVars x hx
      refine ⟨h1, h2b, ?_, h4⟩
      show upd st.assignment k ((st.dstate (st.d - 1) + 1) &&& 1) x = SAT_sentinel
      have hxk : x ≠ k := by
        intro habs
        rw [habs] at hx
        exact hM.hkring hx
      rw [upd_other _ _ _ _ hxk]
      exact h3
    · intro v hv hvrep hvasg hvw
      have hvasg2 : upd st.assignment k ((st.dstate (st.d - 1) + 1) &&& 1) v =
          SAT_sentinel := hvasg
      have hvk : v ≠ k := by
        intro habs
        subst habs
        rw [upd_same] at hvasg2
        have := sentinel_large
        have := hble
        omega
      rw [upd_other _ _ _ _ hvk] at hvasg2
      rcases hM.active v hv hvrep hvasg2 hvw with hvR | hvkk
      · exact hvR
      · exact absurd hvkk hvk

/-! ### Assignment monotonicity and mask helpers -/

/-- Un-assigning variables never falsifies a literal. -/
theorem litNonFalse_mono (asg asg2 : Nat → Nat) (l : Nat)
    (h : asg2 (l >>> 1) = asg (l >>> 1) ∨ asg2 (l >>> 1) = SAT_sentinel)
    (ht : litNonFalse asg l = true) : litNonFalse asg2 l = true := by
  rcases h with h | h
  · rw [litNonFalse_iff, h]
    exact (litNonFalse_iff asg l).mp ht
  · exact litNonFalse_unassigned asg2 l h

/-- Extending the masked range of the stack by a fresh top entry only adds
masked (hence unassigned) variables. -/
theorem mask_extend (asg dh : Nat → Nat) (p d k v : Nat) (hp : p ≤ d) :
    maskAsg asg (upd dh d k) p (d + 1) v = maskAsg asg dh p d v ∨
    maskAsg asg (upd dh d k) p (d + 1) v = SAT_sentinel := by
  by_cases hv : ∃ j, p ≤ j ∧ j < d + 1 ∧ upd dh d k j = v
  · right
    exact maskAsg_mem _ _ _ _ _ hv
  · left
    push_neg at hv
    rw [maskAsg_not_mem _ _ _ _ _ hv]
    rw [maskAsg_not_mem]
    intro j h1 h2 habs
    exact hv j h1 (by omega) (by rw [upd_other _ _ _ _ (by omega)]; exact habs)

/-- The one-entry mask at the top of the stack, applied away from the top
variable, reads the raw assignment. -/
theorem mask_top_ne (asg dh : Nat → Nat) (j v : Nat) (hv : dh (j - 1) ≠ v)
    (hj : 1 ≤ j) : maskAsg asg dh (j - 1) j v = asg v := by
  refine maskAsg_not_mem _ _ _ _ _ ?_
  intro i h1 h2
  have : i = j - 1 := by omega
  subst this
  exact hv

/-! ### The unit scan of the search loop -/

/-- Walking the ring from any member, the scan returns a unit or conflict
result only at a ring member `kv` with `hv` its ring successor, together
with a false `is_unit` verdict on the polarity the commit will falsify. -/
theorem scanLoop_ring (lits : Nat → Nat) (st : SState) (h t : Nat)
    (R : List Nat) (hR : RingOK st.next h t R) (hts : t ≠ SAT_sentinel) :
    ∀ fuel k, k ∈ R → ∀ out, scanLoop lits st k fuel = some out →
    (∀ f, out.kind = ScanKind.unit f →
      out.kv ∈ R ∧ out.hv = st.next out.kv ∧ (f = 1 ∨ f = 2) ∧
      ∃ fu, is_unit lits st.watch st.nextClause st.assignment
        (2 * out.hv + bitOf (f + 3)) fu = some false) ∧
    (out.kind = ScanKind.conflict →
      out.kv ∈ R ∧ out.hv = st.next out.kv) := by
  intro fuel
  induction fuel with
  | zero => intro k _ out hout; simp [scanLoop] at hout
  | succ n ih =>
    intro k hk out hout
    rw [scanLoop] at hout
    rcases hu1 : is_unit lits st.watch st.nextClause st.assignment
        (2 * st.next k) (n+1) with _ | u1
    · rw [hu1] at hout; cases hout
    · rcases hu2 : is_unit lits st.watch st.nextClause st.assignment
          (2 * st.next k + 1) (n+1) with _ | u2
      · rw [hu1, hu2] at hout; cases hout
      · rw [hu1, hu2] at hout
        cases u1 <;> cases u2 <;> norm_num at hout
        · -- f = 0: continue around the ring or report no unit
          by_cases hloop : st.next k = st.t
          · rw [if_pos hloop] at hout
            simp only [Option.some.injEq] at hout
            subst hout
            refine ⟨?_, ?_⟩
            · intro f habs
              cases habs
            · intro habs
              cases habs
          · rw [if_neg hloop] at hout
            exact ih (st.next k) (ringClosed st.next h t R hR hts k hk) out hout
        · -- f = 2: the negative literal is unit, the positive one is not
          subst hout
          refine ⟨?_, ?_⟩
          · intro f hfk
            simp only [ScanKind.unit.injEq] at hfk
            refine ⟨hk, rfl, Or.inr hfk.symm, n + 1, ?_⟩
            show is_unit lits st.watch st.nextClause st.assignment
              (2 * st.next k + bitOf (f + 3)) (n+1) = some false
            rw [← hfk]
            have hb : bitOf (2 + 3) = 0 := by decide
            rw [hb, Nat.add_zero]
            exact hu1
          · intro habs
            cases habs
        · -- f = 1: the positive literal is unit, the negative one is not
          subst hout
          refine ⟨?_, ?_⟩
          · intro f hfk
            simp only [ScanKind.unit.injEq] at hfk
            refine ⟨hk, rfl, Or.inl hfk.symm, n + 1, ?_⟩
            show is_unit lits st.watch st.nextClause st.assignment
              (2 * st.next k + bitOf (f + 3)) (n+1) = some false
            rw [← hfk]
            have hb : bitOf (1 + 3) = 1 := by decide
            rw [hb]
            exact hu2
          · intro habs
            cases habs
        · -- f = 3: conflict
          subst hout
          refine ⟨?_, ?_⟩
          · intro f habs
            cases habs
          · intro _
            exact ⟨hk, rfl⟩

/-- When the scan completes a full circle with no unit, the head of the
ring (the first variable inspected) has a false `is_unit` verdict on both
polarities. -/
theorem scanLoop_nounit (lits : Nat → Nat) (st : SState) (fuel k : Nat)
    (out : ScanOut) (hout : scanLoop lits st k fuel = some out)
    (hk : out.kind = ScanKind.nounit) :
    ∃ fu, is_unit lits st.watch st.nextClause st.assignment
        (2 * st.next k) fu = some false ∧
      is_unit lits st.watch st.nextClause st.assignment
        (2 * st.next k + 1) fu = some false := by
  rcases fuel with _ | n
  · simp [scanLoop] at hout
  · rw [scanLoop] at hout
    rcases hu1 : is_unit lits st.watch st.nextClause st.assignment
        (2 * st.next k) (n+1) with _ | u1
    · rw [hu1] at hout; cases hout
    · rcases hu2 : is_unit lits st.watch st.nextClause st.assignment
          (2 * st.next k + 1) (n+1) with _ | u2
      · rw [hu1, hu2] at hout; cases hout
      · rw [hu1, hu2] at hout
        cases u1 <;> cases u2 <;> norm_num at hout
        · exact ⟨n + 1, hu1, hu2⟩
        · subst hout
          simp [ScanKind.nounit] at hk
        · subst hout
          simp [ScanKind.nounit] at hk
        · subst hout
          simp [ScanKind.nounit] at hk

/-! ### Invariant preservation through the backtrack unwind -/

/-- Popping the top stack entry commutes with the mask: the un-assignment
of the popped variable is already covered by the masked range. -/
theorem mask_pop (asg dh : Nat → Nat) (p d : Nat) (hp : p < d - 1) :
    maskAsg (upd asg (dh (d - 1)) SAT_sentinel) dh p (d - 1) =
    maskAsg asg dh p d := by
  funext v
  by_cases h1 : ∃ i, p ≤ i ∧ i < d - 1 ∧ dh i = v
  · rw [maskAsg_mem _ _ _ _ _ h1]
    obtain ⟨i, a, b, c⟩ := h1
    rw [maskAsg_mem _ _ _ _ _ ⟨i, a, by omega, c⟩]
  · push_neg at h1
    rw [maskAsg_not_mem _ _ _ _ _ h1]
    by_cases h2 : dh (d - 1) = v
    · rw [h2, upd_same, maskAsg_mem _ _ _ _ _ ⟨d - 1, by omega, by omega, h2⟩]
    · rw [upd_other _ _ _ _ (fun habs => h2 habs.symm)]
      rw [maskAsg_not_mem]
      intro i hi1 hi2
      by_cases hie : i = d - 1
      · subst hie
        exact h2
      · exact h1 i hi1 (by omega)

/-- The backtrack unwind preserves the per-component invariant: each
popped variable that is still watched re-enters the ring, the watch table
and all foreign state are untouched, and the ring only grows. -/
theorem unwind_sound (nvars maxn : Nat) (lits nlits ptr : Nat → Nat)
    (r start : Nat) (hWF : WFStore nvars maxn lits nlits)
    (W : Nat → List Nat) :
    ∀ gas (st : SState) (R : List Nat), st.d ≤ gas →
    SInv nvars maxn lits nlits ptr r start st W R →
    st.t ≠ SAT_sentinel →
    ∃ R2, SInv nvars maxn lits nlits ptr r start (unwind start st gas) W R2 ∧
      (∀ v ∈ R, v ∈ R2) ∧
      (unwind start st gas).watch = st.watch ∧
      (unwind start st gas).nextClause = st.nextClause ∧
      (unwind start st gas).head = st.head ∧
      (unwind start st gas).rep = st.rep ∧
      (unwind start st gas).t = st.t ∧
      (∀ v, ¬(v < nvars ∧ repOf ptr v = r) →
        (unwind start st gas).assignment v = st.assignment v ∧
        (unwind start st gas).next v = st.next v) := by
  intro gas
  induction gas with
  | zero =>
    intro st R _ hS _
    exact ⟨R, hS, fun v hv => hv, rfl, rfl, rfl, rfl, rfl,
      fun v _ => ⟨rfl, rfl⟩⟩
  | succ gas ih =>
    intro st R hgas hS hts
    by_cases hguard : start < st.d ∧ 2 ≤ st.dstate (st.d - 1)
    · have hun : unwind start st (gas+1) = unwind start (unwindBody st) gas := by
        rw [unwind, if_pos hguard]
      have hv0var := hS.stackVar (st.d - 1) (by omega) (by omega)
      have hv0asg := hS.stackAsg (st.d - 1) (by omega) (by omega)
      have hv0ne : st.assignment (st.dh (st.d - 1)) ≠ SAT_sentinel := by
        rw [hv0asg]
        exact bitOf_ne_sentinel _
      have hv0R : st.dh (st.d - 1) ∉ R := by
        intro hmem
        exact hv0ne (hS.ringVars _ hmem).2.2.1
      have hv0sent : st.dh (st.d - 1) ≠ SAT_sentinel := by
        have := hWF.1
        omega
      have htR : st.t ∈ R := by
        obtain ⟨_, hlast, _, _, _, _⟩ :=
          RingOK_unpack st.next st.h st.t R hS.hRing hts
        exact getLast?_mem R st.t hlast
      have htcomp : st.t < nvars ∧ repOf ptr st.t = r := by
        have := hS.ringVars st.t htR
        exact ⟨this.1, this.2.1⟩
      have hasgmono : ∀ l, litNonFalse st.assignment l = true →
          litNonFalse (upd st.assignment (st.dh (st.d - 1)) SAT_sentinel) l
            = true := by
        intro l hl
        refine litNonFalse_mono _ _ _ ?_ hl
        by_cases hv : l >>> 1 = st.dh (st.d - 1)
        · rw [hv, upd_same]
          right
          rfl
        · left
          exact upd_other _ _ _ _ hv
      by_cases hw : st.watch (2 * st.dh (st.d - 1)) ≠ SAT_sentinel ∨
          st.watch (2 * st.dh (st.d - 1) + 1) ≠ SAT_sentinel
      · -- the popped variable is still watched: it re-enters the ring
        have hstB : unwindBody st = { st with
            assignment := upd st.assignment (st.dh (st.d - 1)) SAT_sentinel
            next := upd (upd st.next (st.dh (st.d - 1)) st.h) st.t
              (st.dh (st.d - 1))
            h := st.dh (st.d - 1)
            d := st.d - 1 } := by
          rw [unwindBody, if_pos hw]
        have hpush := ringPush st.next st.h st.t (st.dh (st.d - 1)) R
          hS.hRing hts hv0R hv0sent
        have hSB : SInv nvars maxn lits nlits ptr r start (unwindBody st) W
            (st.dh (st.d - 1) :: R) := by
          rw [hstB]
          refine
            { hW := hS.hW
              hRing := hpush
              ringVars := ?_
              hstart := by show start ≤ st.d - 1; omega
              stackVar := ?_
              stackState := ?_
              stackAsg := ?_
              stackNodup := ?_
              asgStack := ?_
              active := ?_
              nonFalse := ?_
              flipSafe := ?_ }
          · intro v hv
            rcases List.mem_cons.mp hv with rfl | hv2
            · exact ⟨hv0var.1, hv0var.2, upd_same _ _ _, hw⟩
            · obtain ⟨h1, h2, h3, h4⟩ := hS.ringVars v hv2
              have hne : v ≠ st.dh (st.d - 1) := by
                intro habs
                rw [habs] at hv2
                exact hv0R hv2
              refine ⟨h1, h2, ?_, h4⟩
              show upd st.assignment (st.dh (st.d - 1)) SAT_sentinel v =
                SAT_sentinel
              rw [upd_other _ _ _ _ hne]
              exact h3
          · intro j h1 h2
            have h2' : j < st.d - 1 := h2
            exact hS.stackVar j h1 (by omega)
          · intro j h1 h2
            have h2' : j < st.d - 1 := h2
            exact hS.stackState j h1 (by omega)
          · intro j h1 h2
            have h2' : j < st.d - 1 := h2
            have hne : st.dh j ≠ st.dh (st.d - 1) :=
              hS.stackNodup j (st.d - 1) h1 (by omega) (by omega) (by omega)
                (by omega)
            show upd st.assignment (st.dh (st.d - 1)) SAT_sentinel (st.dh j) =
              bitOf (st.dstate j)
            rw [upd_other _ _ _ _ hne]
            exact hS.stackAsg j h1 (by omega)
          · intro j1 j2 h1 h2 h3 h4 h5
            have h2' : j1 < st.d - 1 := h2
            have h4' : j2 < st.d - 1 := h4
            exact hS.stackNodup j1 j2 h1 (by omega) h3 (by omega) h5
          · intro v h1 h2 h3
            have hvne : v ≠ st.dh (st.d - 1) := by
              intro habs
              apply h3
              show upd st.assignment (st.dh (st.d - 1)) SAT_sentinel v =
                SAT_sentinel
              rw [habs]
              exact upd_same _ _ _
            have h3' : st.assignment v ≠ SAT_sentinel := by
              intro habs
              apply h3
              show upd st.assignment (st.dh (st.d - 1)) SAT_sentinel v =
                SAT_sentinel
              rw [upd_other _ _ _ _ hvne]
              exact habs
            obtain ⟨j, hj1, hj2, hj3⟩ := hS.asgStack v h1 h2 h3'
            refine ⟨j, hj1, ?_, hj3⟩
            show j < st.d - 1
            by_cases hje : j = st.d - 1
            · subst hje
              exact absurd hj3.symm hvne
            · omega
          · intro v h1 h2 h3 h4
            by_cases hveq : v = st.dh (st.d - 1)
            · subst hveq
              exact List.mem_cons_self _ _
            · have h3' : st.assignment v = SAT_sentinel := by
                have : upd st.assignment (st.dh (st.d - 1)) SAT_sentinel v =
                    SAT_sentinel := h3
                rwa [upd_other _ _ _ _ hveq] at this
              exact List.mem_cons_of_mem _ (hS.active v h1 h2 h3' h4)
          · intro l h1 h2 h3
            exact hasgmono l (hS.nonFalse l h1 h2 h3)
          · intro p hp1 hp2 hp3 c hc
            have hp2' : p < st.d - 1 := hp2
            obtain ⟨C, hC, w, hwC, hdisj⟩ := hS.flipSafe p hp1 (by omega) hp3 c hc
            refine ⟨C, hC, w, hwC, ?_⟩
            rcases hdisj with hd1 | ⟨hd2a, hd2b⟩
            · exact Or.inl hd1
            · refine Or.inr ⟨hd2a, ?_⟩
              show litNonFalse (maskAsg
                (upd st.assignment (st.dh (st.d - 1)) SAT_sentinel)
                st.dh p (st.d - 1)) w = true
              rw [mask_pop st.assignment st.dh p st.d hp2']
              exact hd2b
        obtain ⟨R2, hS2, hmem2, hw2, hnc2, hhd2, hrep2, ht2, hfr2⟩ :=
          ih (unwindBody st) (st.dh (st.d - 1) :: R)
            (by rw [hstB]; show st.d - 1 ≤ gas; omega) hSB
            (by rw [hstB]; exact hts)
        rw [hun]
        refine ⟨R2, hS2, ?_, ?_, ?_, ?_, ?_, ?_, ?_⟩
        · intro v hv
          exact hmem2 v (List.mem_cons_of_mem _ hv)
        · rw [hw2, hstB]
        · rw [hnc2, hstB]
        · rw [hhd2, hstB]
        · rw [hrep2, hstB]
        · rw [ht2, hstB]
        · intro v hv
          obtain ⟨ha, hb⟩ := hfr2 v hv
          rw [ha, hb, hstB]
          have hvv0 : v ≠ st.dh (st.d - 1) := by
            intro habs
            rw [habs] at hv
            exact hv hv0var
          have hvt : v ≠ st.t := by
            intro habs
            rw [habs] at hv
            exact hv htcomp
          constructor
          · show upd st.assignment (st.dh (st.d - 1)) SAT_sentinel v =
              st.assignment v
            rw [upd_other _ _ _ _ hvv0]
          · show upd (upd st.next (st.dh (st.d - 1)) st.h) st.t
              (st.dh (st.d - 1)) v = st.next v
            rw [upd_other _ _ _ _ hvt, upd_other _ _ _ _ hvv0]
      · -- the popped variable is watched nowhere: it is simply dropped
        have hstB : unwindBody st = { st with
            assignment := upd st.assignment (st.dh (st.d - 1)) SAT_sentinel
            d := st.d - 1 } := by
          rw [unwindBody, if_neg hw]
        have hSB : SInv nvars maxn lits nlits ptr r start (unwindBody st) W
            R := by
          rw [hstB]
          refine
            { hW := hS.hW
              hRing := hS.hRing
              ringVars := ?_
              hstart := by show start ≤ st.d - 1; omega
              stackVar := ?_
              stackState := ?_
              stackAsg := ?_
              stackNodup := ?_
              asgStack := ?_
              active := ?_
              nonFalse := ?_
              flipSafe := ?_ }
          · intro v hv
            obtain ⟨h1, h2, h3, h4⟩ := hS.ringVars v hv
            have hne : v ≠ st.dh (st.d - 1) := by
              intro habs
              rw [habs] at hv
              exact hv0R hv
            refine ⟨h1, h2, ?_, h4⟩
            show upd st.assignment (st.dh (st.d - 1)) SAT_sentinel v =
              SAT_sentinel
            rw [upd_other _ _ _ _ hne]
            exact h3
          · intro j h1 h2
            have h2' : j < st.d - 1 := h2
            exact hS.stackVar j h1 (by omega)
          · intro j h1 h2
            have h2' : j < st.d - 1 := h2
            exact hS.stackState j h1 (by omega)
          · intro j h1 h2
            have h2' : j < st.d - 1 := h2
            have hne : st.dh j ≠ st.dh (st.d - 1) :=
              hS.stackNodup j (st.d - 1) h1 (by omega) (by omega) (by omega)
                (by omega)
            show upd st.assignment (st.dh (st.d - 1)) SAT_sentinel (st.dh j) =
              bitOf (st.dstate j)
            rw [upd_other _ _ _ _ hne]
            exact hS.stackAsg j h1 (by omega)
          · intro j1 j2 h1 h2 h3 h4 h5
            have h2' : j1 < st.d - 1 := h2
            have h4' : j2 < st.d - 1 := h4
            exact hS.stackNodup j1 j2 h1 (by omega) h3 (by omega) h5
          · intro v h1 h2 h3
            have hvne : v ≠ st.dh (st.d - 1) := by
              intro habs
              apply h3
              show upd st.assignment (st.dh (st.d - 1)) SAT_sentinel v =
                SAT_sentinel
              rw [habs]
              exact upd_same _ _ _
            have h3' : st.assignment v ≠ SAT_sentinel := by
              intro habs
              apply h3
              show upd st.assignment (st.dh (st.d - 1)) SAT_sentinel v =
                SAT_sentinel
              rw [upd_other _ _ _ _ hvne]
              exact habs
            obtain ⟨j, hj1, hj2, hj3⟩ := hS.asgStack v h1 h2 h3'
            refine ⟨j, hj1, ?_, hj3⟩
            show j < st.d - 1
            by_cases hje : j = st.d - 1
            · subst hje
              exact absurd hj3.symm hvne
            · omega
          · intro v h1 h2 h3 h4
            by_cases hveq : v = st.dh (st.d - 1)
            · exact absurd (hveq ▸ h4) hw
            · have h3' : st.assignment v = SAT_sentinel := by
                have : upd st.assignment (st.dh (st.d - 1)) SAT_sentinel v =
                    SAT_sentinel := h3
                rwa [upd_other _ _ _ _ hveq] at this
              exact hS.active v h1 h2 h3' h4
          · intro l h1 h2 h3
            exact hasgmono l (hS.nonFalse l h1 h2 h3)
          · intro p hp1 hp2 hp3 c hc
            have hp2' : p < st.d - 1 := hp2
            obtain ⟨C, hC, w, hwC, hdisj⟩ := hS.flipSafe p hp1 (by omega) hp3 c hc
            refine ⟨C, hC, w, hwC, ?_⟩
            rcases hdisj with hd1 | ⟨hd2a, hd2b⟩
            · exact Or.inl hd1
            · refine Or.inr ⟨hd2a, ?_⟩
              show litNonFalse (maskAsg
                (upd st.assignment (st.dh (st.d - 1)) SAT_sentinel)
                st.dh p (st.d - 1)) w = true
              rw [mask_pop st.assignment st.dh p st.d hp2']
              exact hd2b
        obtain ⟨R2, hS2, hmem2, hw2, hnc2, hhd2, hrep2, ht2, hfr2⟩ :=
          ih (unwindBody st) R
            (by rw [hstB]; show st.d - 1 ≤ gas; omega) hSB
            (by rw [hstB]; exact hts)
        rw [hun]
        refine ⟨R2, hS2, hmem2, ?_, ?_, ?_, ?_, ?_, ?_⟩
        · rw [hw2, hstB]
        · rw [hnc2, hstB]
        · rw [hhd2, hstB]
        · rw [hrep2, hstB]
        · rw [ht2, hstB]
        · intro v hv
          obtain ⟨ha, hb⟩ := hfr2 v hv
          rw [ha, hb, hstB]
          have hvv0 : v ≠ st.dh (st.d - 1) := by
            intro habs
            rw [habs] at hv
            exact hv hv0var
          constructor
          · show upd st.assignment (st.dh (st.d - 1)) SAT_sentinel v =
              st.assignment v
            rw [upd_other _ _ _ _ hvv0]
          · rfl
    · have hun : unwind start st (gas+1) = st := by
        rw [unwind, if_neg hguard]
      rw [hun]
      exact ⟨R, hS, fun v hv => hv, rfl, rfl, rfl, rfl, rfl,
        fun v _ => ⟨rfl, rfl⟩⟩

/-! ### Write confinement combinators -/

theorem AgreeOut_refl (nvars : Nat) (lits ptr : Nat → Nat) (r : Nat)
    (st : SState) : AgreeOut nvars lits ptr r st st :=
  ⟨fun _ _ => rfl, fun _ _ => rfl, fun _ _ => rfl, fun _ _ => rfl, rfl, rfl⟩

theorem AgreeOut_trans (nvars : Nat) (lits ptr : Nat → Nat) (r : Nat)
    (st1 st2 st3 : SState) (h12 : AgreeOut nvars lits ptr r st1 st2)
    (h23 : AgreeOut nvars lits ptr r st2 st3) :
    AgreeOut nvars lits ptr r st1 st3 := by
  obtain ⟨a1, b1, c1, d1, e1, f1⟩ := h12
  obtain ⟨a2, b2, c2, d2, e2, f2⟩ := h23
  exact ⟨fun v hv => (a2 v hv).trans (a1 v hv),
    fun v hv => (b2 v hv).trans (b1 v hv),
    fun l hl => (c2 l hl).trans (c1 l hl),
    fun c hc => (d2 c hc).trans (d1 c hc),
    e2.trans e1, f2.trans f1⟩

/-! ### The component-ring chase of `kernel::solve_sat` -/

/-- Adjacency of the links along a sentinel-terminated chain. -/
theorem IsChain_nextAdj (link : Nat → Nat) :
    ∀ (p : Nat) (L : List Nat), IsChain link p L → NextAdj link L := by
  intro p L h
  induction h with
  | nil => trivial
  | cons c L hc ht ih =>
    cases L with
    | nil => trivial
    | cons b L2 =>
      obtain ⟨hpb, _, _⟩ := IsChain_head link (link c) b L2 ht
      exact ⟨hpb, ih⟩

/-- The head-to-tail chase of lines 166-174: it returns the last chain
member as the tail and counts the members. -/
theorem ringChase_spec (next : Nat → Nat) :
    ∀ (fuel p : Nat) (L : List Nat) (t0 n0 : Nat) (res : Nat × Nat),
    IsChain next p L →
    ringChase next p t0 n0 fuel = some res →
    res.2 = n0 + L.length ∧
    (L = [] → res.1 = t0) ∧
    (L ≠ [] → L.getLast? = some res.1) := by
  intro fuel
  induction fuel with
  | zero => intro p L t0 n0 res _ h; simp [ringChase] at h
  | succ n ih =>
    intro p L t0 n0 res hch h
    rw [ringChase] at h
    by_cases hp : p = SAT_sentinel
    · rw [if_pos hp] at h
      simp only [Option.some.injEq] at h
      subst h
      have hL : L = [] := by
        subst hp
        exact IsChain_det next _ _ hch _ IsChain.nil
      subst hL
      exact ⟨by simp, fun _ => rfl, fun habs => absurd rfl habs⟩
    · rw [if_neg hp] at h
      obtain ⟨L2, hLeq, hch2⟩ : ∃ L2, L = p :: L2 ∧ IsChain next (next p) L2 := by
        cases hch with
        | nil => exact absurd rfl hp
        | cons _ L2 _ ht => exact ⟨L2, rfl, ht⟩
      subst hLeq
      obtain ⟨h1, h2, h3⟩ := ih (next p) L2 p (n0 + 1) res hch2 h
      refine ⟨by simp only [List.length_cons]; omega, ?_, ?_⟩
      · intro habs
        cases habs
      · intro _
        by_cases hL2 : L2 = []
        · subst hL2
          simp only [List.getLast?_singleton]
          rw [h2 rfl]
        · rw [getLast?_cons_of_ne p L2 hL2]
          exact h3 hL2

/-! ### Building the mid-commit invariant after a ring pop -/

/-- The state after `d_h[d++] = k` and the ring pop of `commit`: the full
mid-commit invariant follows from the loop invariant, for any commit code. -/
theorem MidInv_push (nvars maxn : Nat) (lits nlits ptr : Nat → Nat)
    (r start : Nat) (st : SState) (W : Nat → List Nat) (R : List Nat)
    (k code : Nat) (st2 : SState) (R3 : List Nat)
    (hS : SInv nvars maxn lits nlits ptr r start st W R)
    (hk : k ∈ R) (hcode : code ≤ 5)
    (hwa : st2.watch = st.watch) (hnc : st2.nextClause = st.nextClause)
    (hasg : st2.assignment = st.assignment)
    (hdh : st2.dh = upd st.dh st.d k)
    (hds : st2.dstate = upd st.dstate st.d code)
    (hd : st2.d = st.d + 1)
    (hRing : RingOK st2.next st2.h st2.t R3)
    (hmem : ∀ v, v ∈ R ↔ v ∈ R3 ∨ v = k)
    (hkR3 : k ∉ R3) :
    MidInv nvars maxn lits nlits ptr r start st2 W R3 k := by
  have hkvars := hS.ringVars k hk
  refine
    { hW := by rw [hwa, hnc]; exact hS.hW
      hRing := hRing
      ringVars := ?_
      hstart := by rw [hd]; have := hS.hstart; omega
      htop := ?_
      hkvar := ⟨hkvars.1, hkvars.2.1⟩
      hkring := hkR3
      stackVar := ?_
      stackState := ?_
      stackAsg := ?_
      stackNodup := ?_
      asgStack := ?_
      active := ?_
      nonFalse := by rw [hasg]; exact hS.nonFalse
      flipSafe := ?_ }
  · intro v hv
    obtain ⟨h1, h2, h3, h4⟩ := hS.ringVars v ((hmem v).mpr (Or.inl hv))
    exact ⟨h1, h2, by rw [hasg]; exact h3, by rw [hwa]; exact h4⟩
  · rw [hdh, hd]
    have he : st.d + 1 - 1 = st.d := by omega
    rw [he, upd_same]
  · intro j h1 h2
    rw [hd] at h2
    rw [hdh]
    by_cases hje : j = st.d
    · subst hje
      rw [upd_same]
      exact ⟨hkvars.1, hkvars.2.1⟩
    · rw [upd_other _ _ _ _ hje]
      exact hS.stackVar j h1 (by omega)
  · intro j h1 h2
    rw [hd] at h2
    rw [hds]
    by_cases hje : j = st.d
    · subst hje
      rw [upd_same]
      exact hcode
    · rw [upd_other _ _ _ _ hje]
      exact hS.stackState j h1 (by omega)
  · intro j h1 h2
    rw [hd] at h2
    have hje : j ≠ st.d := by omega
    rw [hasg, hdh, hds, upd_other _ _ _ _ hje, upd_other _ _ _ _ hje]
    exact hS.stackAsg j h1 (by omega)
  · intro j1 j2 h1 h2 h3 h4 h5
    rw [hd] at h2 h4
    rw [hdh]
    have hstk : ∀ j, start ≤ j → j < st.d → st.dh j ≠ k := by
      intro j hj1 hj2 habs
      have := hS.stackAsg j hj1 hj2
      rw [habs, hkvars.2.2.1] at this
      exact (bitOf_ne_sentinel (st.dstate j)) this.symm
    by_cases hj1e : j1 = st.d
    · subst hj1e
      have hj2e : j2 ≠ st.d := fun hh => h5 (hh ▸ rfl)
      rw [upd_same, upd_other _ _ _ _ hj2e]
      intro habs
      exact hstk j2 h3 (by omega) habs.symm
    · rw [upd_other _ _ _ _ hj1e]
      by_cases hj2e : j2 = st.d
      · subst hj2e
        rw [upd_same]
        exact hstk j1 h1 (by omega)
      · rw [upd_other _ _ _ _ hj2e]
        exact hS.stackNodup j1 j2 h1 (by omega) h3 (by omega) h5
  · intro v h1 h2 h3
    rw [hasg] at h3
    obtain ⟨j, hj1, hj2, hj3⟩ := hS.asgStack v h1 h2 h3
    refine ⟨j, hj1, by rw [hd]; omega, ?_⟩
    rw [hdh, upd_other _ _ _ _ (by omega : j ≠ st.d)]
    exact hj3
  · intro v h1 h2 h3 h4
    rw [hasg] at h3
    rw [hwa] at h4
    exact (hmem v).mp (hS.active v h1 h2 h3 h4)
  · intro p hp1 hp2 hp3 c hc
    rw [hd] at hp2
    have hpd : p ≠ st.d := by omega
    rw [hds, upd_other _ _ _ _ hpd] at hp3
    rw [hdh, hds, upd_other _ _ _ _ hpd, upd_other _ _ _ _ hpd] at hc
    obtain ⟨C, hC, w, hwC, hdisj⟩ := hS.flipSafe p hp1 (by omega) hp3 c hc
    refine ⟨C, hC, w, hwC, ?_⟩
    rw [hdh, hds, hasg, hd, upd_other _ _ _ _ hpd, upd_other _ _ _ _ hpd]
    rcases hdisj with hd1 | ⟨hd2a, hd2b⟩
    · exact Or.inl hd1
    · refine Or.inr ⟨hd2a, ?_⟩
      exact litNonFalse_mono _ _ _
        (mask_extend st.assignment st.dh p st.d k (w >>> 1) (by omega)) hd2b

/-! ### The migration premise from a false unit verdict -/

/-- A false `is_unit` verdict on a literal turns the watch list of that
literal into migration witnesses: every watching clause holds another
literal that is its opposite polarity on the same variable, or lives on a
different variable and is non-false. -/
theorem mig_of_no_unit (nvars maxn : Nat) (lits nlits : Nat → Nat)
    (w nc asg : Nat → Nat) (W : Nat → List Nat)
    (hW : WatchInv nvars maxn lits nlits w nc W)
    (k b fu : Nat) (hb : b ≤ 1) (hlt : 2 * k + b < 2 * nvars)
    (hu : is_unit lits w nc asg (2 * k + b) fu = some false) :
    ∀ c ∈ W (2 * k + b), ∃ C, ClauseAt lits c C ∧ ∃ w2 ∈ C,
      w2 = 2 * k + (1 - b) ∨
      (w2 >>> 1 ≠ k ∧ litNonFalse asg w2 = true) := by
  intro c hc
  obtain ⟨C, hC, x, hx, hxne, hxt⟩ :=
    watch_no_unit nvars maxn lits nlits w nc asg W hW (2 * k + b) fu hlt hu c hc
  refine ⟨C, hC, x, hx, ?_⟩
  by_cases hvar : x >>> 1 = k
  · left
    obtain ⟨hdec, hble⟩ := lit_decomp x
    have hbit := (lit_var_bit k b hb).2
    omega
  · exact Or.inr ⟨hvar, hxt⟩

/-! ### One commit of the search loop -/

/-- The two shapes of `commitMove`: the committed variable is recorded on
the stack and deleted from the ring (emptying it when it was alone). -/
theorem commitMove_cases (st1 : SState) (hv : Nat) :
    (commitMove st1 hv).2 = hv ∧
    ((st1.t = hv ∧ (commitMove st1 hv).1 = { st1 with
        dh := upd st1.dh st1.d hv, d := st1.d + 1,
        maxD := max st1.maxD (st1.d + 1), t := SAT_sentinel }) ∨
     (st1.t ≠ hv ∧ (commitMove st1 hv).1 = { st1 with
        dh := upd st1.dh st1.d hv, d := st1.d + 1,
        maxD := max st1.maxD (st1.d + 1),
        next := upd st1.next st1.t (st1.next hv), h := st1.next hv })) := by
  unfold commitMove
  dsimp only
  by_cases hc : st1.t = hv
  · rw [if_pos hc]
    exact ⟨rfl, Or.inl ⟨hc, rfl⟩⟩
  · rw [if_neg hc]
    exact ⟨rfl, Or.inr ⟨hc, rfl⟩⟩

/-- A full commit of the variable at the ring head after re-rooting the
ring at `kv`: stack push, ring pop, assignment and watch-list migration.
The loop invariant is re-established and the unsat counter and all foreign
state are untouched. -/
theorem commit_branch (nvars maxn : Nat) (lits nlits ptr : Nat → Nat)
    (r start : Nat) (hWF : WFStore nvars maxn lits nlits)
    (hL : WFLabels nvars maxn lits nlits ptr)
    (st : SState) (W : Nat → List Nat) (R : List Nat) (fuel kv code : Nat)
    (st2 st4 : SState)
    (hS : SInv nvars maxn lits nlits ptr r start st W R)
    (hts : st.t ≠ SAT_sentinel)
    (hkv : kv ∈ R) (hcode : code ≤ 5)
    (hwa : st2.watch = st.watch) (hnc : st2.nextClause = st.nextClause)
    (hasg : st2.assignment = st.assignment)
    (hdh : st2.dh = upd st.dh st.d (st.next kv))
    (hds : st2.dstate = upd st.dstate st.d code)
    (hd : st2.d = st.d + 1)
    (hhead : st2.head = st.head) (hrep : st2.rep = st.rep)
    (hunsat : st2.unsat = st.unsat)
    (hsingle : kv = st.next kv → st2.t = SAT_sentinel ∧ st2.next = st.next)
    (hmulti : kv ≠ st.next kv →
      st2.next = upd st.next kv (st.next (st.next kv)) ∧
      st2.h = st.next (st.next kv) ∧ st2.t = kv)
    (h : commitTail lits st2 (st.next kv) fuel = some st4)
    (hmig : ∀ c ∈ W (2 * st.next kv + bitOf code), ∃ C, ClauseAt lits c C ∧
      ∃ w2 ∈ C, w2 = 2 * st.next kv + (1 - bitOf code) ∨
        (w2 >>> 1 ≠ st.next kv ∧ litNonFalse st.assignment w2 = true))
    (hI4 : code ≤ 1 → ∀ c ∈ W (2 * st.next kv + code), ∃ C,
      ClauseAt lits c C ∧ ∃ w2 ∈ C, w2 ≠ 2 * st.next kv + code ∧
        litNonFalse st.assignment w2 = true) :
    SInvEx nvars maxn lits nlits ptr r start st4 ∧
      st4.unsat = st.unsat ∧ AgreeOut nvars lits ptr r st st4 := by
  have hkvv := hS.ringVars kv hkv
  have hkvs : kv ≠ SAT_sentinel := by
    have := hWF.1
    omega
  have hhvR : st.next kv ∈ R := ringClosed st.next st.h st.t R hS.hRing hts kv hkv
  obtain ⟨R2, hR2, hR2mem, hR2last⟩ :=
    ringRotate st.next st.h st.t R hS.hRing hts kv hkv hkvs
  -- the ring after the pop of the committed variable `st.next kv`
  obtain ⟨R3, hRing3, hmem3, hk3⟩ : ∃ R3,
      RingOK st2.next st2.h st2.t R3 ∧
      (∀ v, v ∈ R ↔ v ∈ R3 ∨ v = st.next kv) ∧
      st.next kv ∉ R3 := by
    by_cases hsg : kv = st.next kv
    · obtain ⟨hts2, hnx2⟩ := hsingle hsg
      have hR2s : R2 = [kv] :=
        ringPop_single st.next (st.next kv) kv R2 hR2 hkvs hsg
      refine ⟨[], ?_, ?_, List.not_mem_nil _⟩
      · rw [hts2]
        exact ringEmpty _ _
      · intro v
        rw [← hR2mem v, hR2s]
        simp only [List.mem_singleton, List.not_mem_nil, false_or]
        constructor
        · intro hh
          rw [hh]
          exact hsg
        · intro hh
          rw [hh]
          exact hsg.symm
    · have hneq : kv ≠ st.next kv := hsg
      obtain ⟨R3, hR2eq, hR3ne, hhvR3, hRing3⟩ :=
        ringPop_multi st.next (st.next kv) kv R2 hR2 hkvs hneq
      obtain ⟨hn2, hh2, ht2⟩ := hmulti hneq
      refine ⟨R3, ?_, ?_, hhvR3⟩
      · rw [hn2, hh2, ht2]
        exact hRing3
      · intro v
        rw [← hR2mem v, hR2eq]
        simp only [List.mem_cons]
        constructor
        · intro hh
          rcases hh with hh | hh
          · exact Or.inr hh
          · exact Or.inl hh
        · intro hh
          rcases hh with hh | hh
          · exact Or.inr hh
          · exact Or.inl hh
  have hMid : MidInv nvars maxn lits nlits ptr r start st2 W R3 (st.next kv) :=
    MidInv_push nvars maxn lits nlits ptr r start st W R (st.next kv) code
      st2 R3 hS hhvR hcode hwa hnc hasg hdh hds hd hRing3 hmem3 hk3
  have hb3 : st2.dstate (st2.d - 1) = code := by
    rw [hds, hd]
    have he : st.d + 1 - 1 = st.d := by omega
    rw [he, upd_same]
  have hmig2 : ∀ c ∈ W (2 * st.next kv + bitOf (st2.dstate (st2.d - 1))),
      ∃ C, ClauseAt lits c C ∧ ∃ w2 ∈ C,
        w2 = 2 * st.next kv + (1 - bitOf (st2.dstate (st2.d - 1))) ∨
        (w2 >>> 1 ≠ st.next kv ∧ litNonFalse st2.assignment w2 = true) := by
    rw [hb3, hasg]
    exact hmig
  have hI42 : st2.dstate (st2.d - 1) ≤ 1 →
      ∀ c ∈ W (2 * st.next kv + st2.dstate (st2.d - 1)), ∃ C,
        ClauseAt lits c C ∧ ∃ w2 ∈ C,
          w2 ≠ 2 * st.next kv + st2.dstate (st2.d - 1) ∧
          litNonFalse st2.assignment w2 = true := by
    rw [hb3, hasg]
    exact hI4
  obtain ⟨W2, R4, hS4, hd4, hunsat4, hdh4, hds4, hasg4, hAO4⟩ :=
    commitTail_sound nvars maxn lits nlits ptr r start hWF hL st2 W R3
      (st.next kv) fuel st4 h hMid hmig2 hI42
  refine ⟨⟨W2, R4, hS4⟩, by rw [hunsat4, hunsat], ?_⟩
  refine AgreeOut_trans nvars lits ptr r st st2 st4 ?_ hAO4
  refine ⟨fun v _ => by rw [hasg], ?_, fun l _ => by rw [hwa],
    fun c _ => by rw [hnc], by rw [hhead], by rw [hrep]⟩
  intro v hv
  by_cases hsg : kv = st.next kv
  · rw [(hsingle hsg).2]
  · rw [(hmulti hsg).1]
    have hvkv : v ≠ kv := by
      intro habs
      rw [habs] at hv
      exact hv ⟨hkvv.1, hkvv.2.1⟩
    rw [upd_other _ _ _ _ hvkv]

/-! ### The three branches of one search-loop iteration -/

theorem stepIter_unit_eq (lits : Nat → Nat) (start : Nat) (st : SState)
    (fuel : Nat) (out : ScanOut) (f : Nat)
    (hscan : scanLoop lits st st.t fuel = some out)
    (hk : out.kind = ScanKind.unit f) :
    stepIter lits start st fuel =
    (commitTail lits
      (commitMove { st with
        dstate := upd st.dstate st.d (f + 3)
        t := out.kv
        h := out.hv } out.hv).1
      (commitMove { st with
        dstate := upd st.dstate st.d (f + 3)
        t := out.kv
        h := out.hv } out.hv).2 fuel).map StepRes.cont := by
  unfold stepIter
  rw [hscan]
  dsimp only
  rw [hk]

theorem stepIter_nounit_eq (lits : Nat → Nat) (start : Nat) (st : SState)
    (fuel : Nat) (out : ScanOut)
    (hscan : scanLoop lits st st.t fuel = some out)
    (hk : out.kind = ScanKind.nounit) :
    stepIter lits start st fuel =
    (commitTail lits
      (commitMove { st with
        dstate := upd st.dstate st.d
          (if st.watch (2 * st.next st.t) = SAT_sentinel ∨
            st.watch (2 * st.next st.t + 1) ≠ SAT_sentinel then 1 else 0)
        h := st.next st.t } (st.next st.t)).1
      (commitMove { st with
        dstate := upd st.dstate st.d
          (if st.watch (2 * st.next st.t) = SAT_sentinel ∨
            st.watch (2 * st.next st.t + 1) ≠ SAT_sentinel then 1 else 0)
        h := st.next st.t } (st.next st.t)).2 fuel).map StepRes.cont := by
  unfold stepIter
  rw [hscan]
  dsimp only
  rw [hk]

theorem stepIter_conflict_eq (lits : Nat → Nat) (start : Nat) (st : SState)
    (fuel : Nat) (out : ScanOut)
    (hscan : scanLoop lits st st.t fuel = some out)
    (hk : out.kind = ScanKind.conflict) :
    stepIter lits start st fuel =
    (if (unwind start { st with t := out.kv, h := out.hv } st.d).d = start then
      some (StepRes.unsatExit
        { unwind start { st with t := out.kv, h := out.hv } st.d with
          unsat := (unwind start { st with t := out.kv, h := out.hv } st.d).unsat + 1 })
    else
      (commitTail lits
        { unwind start { st with t := out.kv, h := out.hv } st.d with
          dstate := upd (unwind start { st with t := out.kv, h := out.hv } st.d).dstate
            ((unwind start { st with t := out.kv, h := out.hv } st.d).d - 1)
            (3 - (unwind start { st with t := out.kv, h := out.hv } st.d).dstate
              ((unwind start { st with t := out.kv, h := out.hv } st.d).d - 1)) }
        ((unwind start { st with t := out.kv, h := out.hv } st.d).dh
          ((unwind start { st with t := out.kv, h := out.hv } st.d).d - 1))
        fuel).map StepRes.cont) := by
  unfold stepIter
  rw [hscan]
  dsimp only
  rw [hk]

/-- Soundness of one iteration of the search loop: a continuing iteration
re-establishes the per-component invariant with the unsat counter
untouched; an unsat exit increments the counter by exactly one.  Either
way all writes stay inside the component. -/
theorem stepIter_sound (nvars maxn : Nat) (lits nlits ptr : Nat → Nat)
    (r start : Nat) (hWF : WFStore nvars maxn lits nlits)
    (hL : WFLabels nvars maxn lits nlits ptr)
    (st : SState) (W : Nat → List Nat) (R : List Nat) (fuel : Nat)
    (res : StepRes) (h : stepIter lits start st fuel = some res)
    (hS : SInv nvars maxn lits nlits ptr r start st W R)
    (hts : st.t ≠ SAT_sentinel) :
    (∀ st5, res = StepRes.cont st5 →
      SInvEx nvars maxn lits nlits ptr r start st5 ∧
      st5.unsat = st.unsat ∧ AgreeOut nvars lits ptr r st st5) ∧
    (∀ st5, res = StepRes.unsatExit st5 →
      st5.unsat = st.unsat + 1 ∧ AgreeOut nvars lits ptr r st st5) := by
  have htR : st.t ∈ R := by
    obtain ⟨_, hlast, _, _, _, _⟩ :=
      RingOK_unpack st.next st.h st.t R hS.hRing hts
    exact getLast?_mem R st.t hlast
  rcases hscan : scanLoop lits st st.t fuel with _ | out
  · rw [stepIter, hscan] at h
    cases h
  · rcases hkind : out.kind with f | _ | _
    · -- a unit move
      obtain ⟨hkvR, hhv, hf12, fu, hu⟩ :=
        (scanLoop_ring lits st st.h st.t R hS.hRing hts fuel st.t htR out
          hscan).1 f hkind
      have hstep := stepIter_unit_eq lits start st fuel out f hscan hkind
      rw [hstep] at h
      have hcmc := commitMove_cases
        { st with
          dstate := upd st.dstate st.d (f + 3)
          t := out.kv
          h := out.hv } out.hv
      rw [hcmc.1] at h
      have hhvR : st.next out.kv ∈ R :=
        ringClosed st.next st.h st.t R hS.hRing hts out.kv hkvR
      have hhvlt : st.next out.kv < nvars := (hS.ringVars _ hhvR).1
      have hmig0 : ∀ c ∈ W (2 * st.next out.kv + bitOf (f + 3)), ∃ C,
          ClauseAt lits c C ∧ ∃ w2 ∈ C,
            w2 = 2 * st.next out.kv + (1 - bitOf (f + 3)) ∨
            (w2 >>> 1 ≠ st.next out.kv ∧
              litNonFalse st.assignment w2 = true) := by
        refine mig_of_no_unit nvars maxn lits nlits st.watch st.nextClause
          st.assignment W hS.hW (st.next out.kv) (bitOf (f + 3)) fu
          (bitOf_le_one _) ?_ ?_
        · have := bitOf_le_one (f + 3)
          omega
        · rw [← hhv]
          exact hu
      have hI40 : (f + 3 ≤ 1) → ∀ c ∈ W (2 * st.next out.kv + (f + 3)), ∃ C,
          ClauseAt lits c C ∧ ∃ w2 ∈ C, w2 ≠ 2 * st.next out.kv + (f + 3) ∧
            litNonFalse st.assignment w2 = true :=
        fun habs => absurd habs (by omega)
      rcases hcmc.2 with ⟨hcond, hM⟩ | ⟨hcond, hM⟩
      · -- the committed variable was the last ring member
        have hcond2 : out.kv = st.next out.kv := by
          rw [← hhv]
          exact hcond
        rw [hM, hhv] at h
        rw [Option.map_eq_some'] at h
        obtain ⟨st4, hct, hres⟩ := h
        have hmain := commit_branch nvars maxn lits nlits ptr r start hWF hL
          st W R fuel out.kv (f + 3)
          { st with
            dstate := upd st.dstate st.d (f + 3)
            h := st.next out.kv
            dh := upd st.dh st.d (st.next out.kv)
            d := st.d + 1
            maxD := max st.maxD (st.d + 1)
            t := SAT_sentinel } st4 hS hts hkvR (by omega)
          rfl rfl rfl rfl rfl rfl rfl rfl rfl
          (fun _ => ⟨rfl, rfl⟩) (fun hh => absurd hcond2 hh) hct hmig0 hI40
        constructor
        · intro st5 h5
          rw [← hres] at h5
          cases h5
          exact hmain
        · intro st5 h5
          rw [← hres] at h5
          cases h5
      · -- the ring keeps other members
        have hcond2 : out.kv ≠ st.next out.kv := by
          rw [← hhv]
          exact hcond
        rw [hM, hhv] at h
        rw [Option.map_eq_some'] at h
        obtain ⟨st4, hct, hres⟩ := h
        have hmain := commit_branch nvars maxn lits nlits ptr r start hWF hL
          st W R fuel out.kv (f + 3)
          { st with
            dstate := upd st.dstate st.d (f + 3)
            dh := upd st.dh st.d (st.next out.kv)
            d := st.d + 1
            maxD := max st.maxD (st.d + 1)
            next := upd st.next out.kv (st.next (st.next out.kv))
            h := st.next (st.next out.kv)
            t := out.kv } st4 hS hts hkvR (by omega)
          rfl rfl rfl rfl rfl rfl rfl rfl rfl
          (fun hh => absurd hh hcond2) (fun _ => ⟨rfl, rfl, rfl⟩)
          hct hmig0 hI40
        constructor
        · intro st5 h5
          rw [← hres] at h5
          cases h5
          exact hmain
        · intro st5 h5
          rw [← hres] at h5
          cases h5
    · -- a conflict
      obtain ⟨hkvR, hhv⟩ :=
        (scanLoop_ring lits st st.h st.t R hS.hRing hts fuel st.t htR out
          hscan).2 hkind
      have hstep := stepIter_conflict_eq lits start st fuel out hscan hkind
      rw [hstep] at h
      have hkvv := hS.ringVars out.kv hkvR
      have hkvs : out.kv ≠ SAT_sentinel := by
        have := hWF.1
        omega
      obtain ⟨R2, hR2, hR2mem, _⟩ :=
        ringRotate st.next st.h st.t R hS.hRing hts out.kv hkvR hkvs
      have hS1 : SInv nvars maxn lits nlits ptr r start
          { st with t := out.kv, h := out.hv } W R2 := by
        refine
          { hW := hS.hW
            hRing := ?_
            ringVars := fun v hv => hS.ringVars v ((hR2mem v).mp hv)
            hstart := hS.hstart
            stackVar := hS.stackVar
            stackState := hS.stackState
            stackAsg := hS.stackAsg
            stackNodup := hS.stackNodup
            asgStack := hS.asgStack
            active := fun v h1 h2 h3 h4 =>
              (hR2mem v).mpr (hS.active v h1 h2 h3 h4)
            nonFalse := hS.nonFalse
            flipSafe := hS.flipSafe }
        show RingOK st.next out.hv out.kv R2
        rw [hhv]
        exact hR2
      obtain ⟨j, hj1, hj2, hall, hstop, hud, hudstate, hudh, huu, hpop, hkeep⟩ :=
        unwind_spec start st.d { st with t := out.kv, h := out.hv }
          (Nat.le_refl _) hS.hstart
      have hj2' : j ≤ st.d := hj2
      obtain ⟨R', hS2, hmem', hw2, hnc2, hhd2, hrep2, ht2, hfr2⟩ :=
        unwind_sound nvars maxn lits nlits ptr r start hWF W st.d
          { st with t := out.kv, h := out.hv } R2 (Nat.le_refl _) hS1 hkvs
      have hAO1 : AgreeOut nvars lits ptr r st
          (unwind start { st with t := out.kv, h := out.hv } st.d) := by
        refine ⟨?_, ?_, fun l _ => by rw [hw2], fun c _ => by rw [hnc2],
          by rw [hhd2], by rw [hrep2]⟩
        · intro v hv
          exact (hfr2 v hv).1
        · intro v hv
          exact (hfr2 v hv).2
      by_cases hjs : (unwind start { st with t := out.kv, h := out.hv } st.d).d
          = start
      · rw [if_pos hjs] at h
        simp only [Option.some.injEq] at h
        constructor
        · intro st5 h5
          rw [← h] at h5
          cases h5
        · intro st5 h5
          rw [← h] at h5
          cases h5
          refine ⟨?_, ?_⟩
          · show (unwind start { st with t := out.kv, h := out.hv } st.d).unsat
              + 1 = st.unsat + 1
            rw [huu]
          · refine AgreeOut_trans nvars lits ptr r st _ _ hAO1 ?_
            exact ⟨fun _ _ => rfl, fun _ _ => rfl, fun _ _ => rfl,
              fun _ _ => rfl, rfl, rfl⟩
      · rw [if_neg hjs] at h
        rw [Option.map_eq_some'] at h
        obtain ⟨st4, hct, hres⟩ := h
        have hjne : j ≠ start := by
          rw [hud] at hjs
          exact hjs
        have hjgt : start < j := by omega
        have hsle : st.dstate (j - 1) ≤ 1 := by
          rcases hstop with hh | hh
          · exact absurd hh hjne
          · have hh2 : ¬ 2 ≤ st.dstate (j - 1) := hh
            omega
        have hUd : (unwind start { st with t := out.kv, h := out.hv } st.d).d
            = j := hud
        have hUdstate :
            (unwind start { st with t := out.kv, h := out.hv } st.d).dstate
            = st.dstate := hudstate
        have hUdh :
            (unwind start { st with t := out.kv, h := out.hv } st.d).dh
            = st.dh := hudh
        have hs2 : (unwind start { st with t := out.kv, h := out.hv }
            st.d).dstate
            ((unwind start { st with t := out.kv, h := out.hv } st.d).d - 1)
            = st.dstate (j - 1) := by
          rw [hUdstate, hUd]
        have hkeq : (unwind start { st with t := out.kv, h := out.hv }
            st.d).dh
            ((unwind start { st with t := out.kv, h := out.hv } st.d).d - 1)
            = st.dh (j - 1) := by
          rw [hUdh, hUd]
        have hkvar2 := hS.stackVar (j - 1) (by omega) (by omega)
        have hkeep' : ∀ v, (∀ i, j ≤ i → i < st.d → st.dh i ≠ v) →
            (unwind start { st with t := out.kv, h := out.hv }
              st.d).assignment v = st.assignment v :=
          fun v hv => hkeep v hv
        have hkasg2 : (unwind start { st with t := out.kv, h := out.hv }
            st.d).assignment (st.dh (j - 1)) = bitOf (st.dstate (j - 1)) := by
          rw [hkeep' (st.dh (j - 1)) ?_]
          · exact hS.stackAsg (j - 1) (by omega) (by omega)
          · intro i hi1 hi2
            exact hS.stackNodup i (j - 1) (by omega) (by omega) (by omega)
              (by omega) (by omega)
        have hMid : MidInv nvars maxn lits nlits ptr r start
            { unwind start { st with t := out.kv, h := out.hv } st.d with
              dstate := upd (unwind start { st with t := out.kv, h := out.hv }
                  st.d).dstate
                ((unwind start { st with t := out.kv, h := out.hv } st.d).d - 1)
                (3 - (unwind start { st with t := out.kv, h := out.hv }
                    st.d).dstate
                  ((unwind start { st with t := out.kv, h := out.hv }
                      st.d).d - 1)) }
            W R'
            ((unwind start { st with t := out.kv, h := out.hv } st.d).dh
              ((unwind start { st with t := out.kv, h := out.hv } st.d).d - 1))
            := by
          refine
            { hW := hS2.hW
              hRing := hS2.hRing
              ringVars := hS2.ringVars
              hstart := ?_
              htop := rfl
              hkvar := ?_
              hkring := ?_
              stackVar := hS2.stackVar
              stackState := ?_
              stackAsg := ?_
              stackNodup := hS2.stackNodup
              asgStack := hS2.asgStack
              active := fun v h1 h2 h3 h4 => Or.inl (hS2.active v h1 h2 h3 h4)
              nonFalse := hS2.nonFalse
              flipSafe := ?_ }
          · show start <
              (unwind start { st with t := out.kv, h := out.hv } st.d).d
            omega
          · rw [hkeq]
            exact hkvar2
          · intro habs
            have hasg := (hS2.ringVars _ habs).2.2.1
            rw [hkeq, hkasg2] at hasg
            exact bitOf_ne_sentinel _ hasg
          · intro j' h1 h2
            show upd _ _ _ j' ≤ 5
            by_cases hje : j' =
                (unwind start { st with t := out.kv, h := out.hv } st.d).d - 1
            · rw [hje, upd_same, hs2]
              omega
            · rw [upd_other _ _ _ _ hje]
              exact hS2.stackState j' h1 h2
          · intro j' h1 h2
            have h2' : j' <
                (unwind start { st with t := out.kv, h := out.hv } st.d).d - 1
              := h2
            have hje : j' ≠
                (unwind start { st with t := out.kv, h := out.hv } st.d).d - 1
              := by omega
            show (unwind start { st with t := out.kv, h := out.hv }
                st.d).assignment
              ((unwind start { st with t := out.kv, h := out.hv } st.d).dh j')
              = bitOf (upd _ _ _ j')
            rw [upd_other _ _ _ _ hje]
            exact hS2.stackAsg j' h1 (by omega)
          · intro p hp1 hp2 hp3 c hc
            have hp2' : p <
                (unwind start { st with t := out.kv, h := out.hv } st.d).d - 1
              := hp2
            have hpe : p ≠
                (unwind start { st with t := out.kv, h := out.hv } st.d).d - 1
              := by omega
            have hds3 : upd (unwind start { st with t := out.kv, h := out.hv }
                  st.d).dstate
                ((unwind start { st with t := out.kv, h := out.hv } st.d).d - 1)
                (3 - (unwind start { st with t := out.kv, h := out.hv }
                    st.d).dstate
                  ((unwind start { st with t := out.kv, h := out.hv }
                      st.d).d - 1)) p
                = (unwind start { st with t := out.kv, h := out.hv }
                    st.d).dstate p := upd_other _ _ _ _ hpe
            have hc' : c ∈ W (2 * (unwind start
                { st with t := out.kv, h := out.hv } st.d).dh p +
                (unwind start { st with t := out.kv, h := out.hv }
                  st.d).dstate p) := by
              have hc0 : c ∈ W (2 * (unwind start
                  { st with t := out.kv, h := out.hv } st.d).dh p +
                  upd (unwind start { st with t := out.kv, h := out.hv }
                      st.d).dstate
                    ((unwind start { st with t := out.kv, h := out.hv }
                        st.d).d - 1)
                    (3 - (unwind start { st with t := out.kv, h := out.hv }
                        st.d).dstate
                      ((unwind start { st with t := out.kv, h := out.hv }
                          st.d).d - 1)) p) := hc
              rwa [hds3] at hc0
            have hp3' : (unwind start { st with t := out.kv, h := out.hv }
                st.d).dstate p ≤ 1 := by
              have hp0 : upd (unwind start { st with t := out.kv, h := out.hv }
                    st.d).dstate
                  ((unwind start { st with t := out.kv, h := out.hv }
                      st.d).d - 1)
                  (3 - (unwind start { st with t := out.kv, h := out.hv }
                      st.d).dstate
                    ((unwind start { st with t := out.kv, h := out.hv }
                        st.d).d - 1)) p ≤ 1 := hp3
              rwa [hds3] at hp0
            obtain ⟨C, hC, w, hwC, hdisj⟩ :=
              hS2.flipSafe p hp1 (by omega) hp3' c hc'
            refine ⟨C, hC, w, hwC, ?_⟩
            show w = 2 * (unwind start { st with t := out.kv, h := out.hv }
                st.d).dh p + (1 - upd _ _ _ p) ∨
              (w >>> 1 ≠ (unwind start { st with t := out.kv, h := out.hv }
                st.d).dh p ∧
                litNonFalse (maskAsg (unwind start
                    { st with t := out.kv, h := out.hv } st.d).assignment
                  (unwind start { st with t := out.kv, h := out.hv } st.d).dh
                  p (unwind start { st with t := out.kv, h := out.hv } st.d).d)
                  w = true)
            rw [hds3]
            exact hdisj
        have hb3 : upd (unwind start { st with t := out.kv, h := out.hv }
              st.d).dstate
            ((unwind start { st with t := out.kv, h := out.hv } st.d).d - 1)
            (3 - (unwind start { st with t := out.kv, h := out.hv }
                st.d).dstate
              ((unwind start { st with t := out.kv, h := out.hv } st.d).d - 1))
            ((unwind start { st with t := out.kv, h := out.hv } st.d).d - 1)
            = 3 - st.dstate (j - 1) := by
          rw [upd_same, hs2]
        have hUd1 : 1 ≤ (unwind start { st with t := out.kv, h := out.hv }
            st.d).d := by omega
        have hmig0 : ∀ c ∈ W (2 * ((unwind start
            { st with t := out.kv, h := out.hv } st.d).dh
            ((unwind start { st with t := out.kv, h := out.hv } st.d).d - 1)) +
            bitOf (upd (unwind start { st with t := out.kv, h := out.hv } st.d).dstate
              ((unwind start { st with t := out.kv, h := out.hv } st.d).d - 1)
              (3 - (unwind start { st with t := out.kv, h := out.hv } st.d).dstate
                ((unwind start { st with t := out.kv, h := out.hv } st.d).d - 1))
              ((unwind start { st with t := out.kv, h := out.hv } st.d).d - 1))), ∃ C, ClauseAt lits c C ∧
            ∃ w2 ∈ C, w2 = 2 * ((unwind start
              { st with t := out.kv, h := out.hv } st.d).dh
              ((unwind start { st with t := out.kv, h := out.hv } st.d).d - 1))
              + (1 - bitOf (upd (unwind start { st with t := out.kv, h := out.hv } st.d).dstate
              ((unwind start { st with t := out.kv, h := out.hv } st.d).d - 1)
              (3 - (unwind start { st with t := out.kv, h := out.hv } st.d).dstate
                ((unwind start { st with t := out.kv, h := out.hv } st.d).d - 1))
              ((unwind start { st with t := out.kv, h := out.hv } st.d).d - 1))) ∨
              (w2 >>> 1 ≠ (unwind start { st with t := out.kv, h := out.hv }
                st.d).dh
                ((unwind start { st with t := out.kv, h := out.hv }
                  st.d).d - 1) ∧
                litNonFalse (unwind start { st with t := out.kv, h := out.hv }
                  st.d).assignment w2 = true) := by
          rw [hb3]
          rw [bitOf_flip _ hsle]
          intro c hc
          have hc' : c ∈ W (2 * ((unwind start
              { st with t := out.kv, h := out.hv } st.d).dh
              ((unwind start { st with t := out.kv, h := out.hv } st.d).d - 1))
              + (unwind start { st with t := out.kv, h := out.hv } st.d).dstate
              ((unwind start { st with t := out.kv, h := out.hv }
                st.d).d - 1)) := by
            rwa [hs2]
          obtain ⟨C, hC, w, hwC, hdisj⟩ :=
            hS2.flipSafe _ (by omega) (by omega) (by rw [hs2]; exact hsle) c hc'
          refine ⟨C, hC, w, hwC, ?_⟩
          rcases hdisj with hd1 | ⟨hd2a, hd2b⟩
          · left
            rw [hd1, hs2]
          · refine Or.inr ⟨hd2a, ?_⟩
            refine litNonFalse_mono _ _ _ ?_ hd2b
            left
            exact (mask_top_ne _ _ _ _ (fun hh => hd2a hh.symm) hUd1).symm
        have hI41 : (upd (unwind start { st with t := out.kv, h := out.hv } st.d).dstate
              ((unwind start { st with t := out.kv, h := out.hv } st.d).d - 1)
              (3 - (unwind start { st with t := out.kv, h := out.hv } st.d).dstate
                ((unwind start { st with t := out.kv, h := out.hv } st.d).d - 1))
              ((unwind start { st with t := out.kv, h := out.hv } st.d).d - 1)) ≤ 1 →
            ∀ c ∈ W (2 * ((unwind start
              { st with t := out.kv, h := out.hv } st.d).dh
              ((unwind start { st with t := out.kv, h := out.hv } st.d).d - 1))
              + (upd (unwind start { st with t := out.kv, h := out.hv } st.d).dstate
              ((unwind start { st with t := out.kv, h := out.hv } st.d).d - 1)
              (3 - (unwind start { st with t := out.kv, h := out.hv } st.d).dstate
                ((unwind start { st with t := out.kv, h := out.hv } st.d).d - 1))
              ((unwind start { st with t := out.kv, h := out.hv } st.d).d - 1))), ∃ C, ClauseAt lits c C ∧
              ∃ w2 ∈ C, w2 ≠ 2 * ((unwind start
                { st with t := out.kv, h := out.hv } st.d).dh
                ((unwind start { st with t := out.kv, h := out.hv }
                  st.d).d - 1)) + (upd (unwind start { st with t := out.kv, h := out.hv } st.d).dstate
              ((unwind start { st with t := out.kv, h := out.hv } st.d).d - 1)
              (3 - (unwind start { st with t := out.kv, h := out.hv } st.d).dstate
                ((unwind start { st with t := out.kv, h := out.hv } st.d).d - 1))
              ((unwind start { st with t := out.kv, h := out.hv } st.d).d - 1)) ∧
                litNonFalse (unwind start { st with t := out.kv, h := out.hv }
                  st.d).assignment w2 = true := by
          intro habs
          rw [hb3] at habs
          exact absurd habs (by omega)
        obtain ⟨W2, R4, hS4, hd4, hunsat4, hdh4, hds4, hasg4, hAO4⟩ :=
          commitTail_sound nvars maxn lits nlits ptr r start hWF hL _ W R' _
            fuel st4 hct hMid hmig0 hI41
        constructor
        · intro st5 h5
          rw [← hres] at h5
          cases h5
          refine ⟨⟨W2, R4, hS4⟩, ?_, ?_⟩
          · rw [hunsat4]
            show (unwind start { st with t := out.kv, h := out.hv }
              st.d).unsat = st.unsat
            rw [huu]
          · refine AgreeOut_trans nvars lits ptr r st _ _ hAO1 ?_
            refine AgreeOut_trans nvars lits ptr r _ _ _ ?_ hAO4
            exact ⟨fun _ _ => rfl, fun _ _ => rfl, fun _ _ => rfl,
              fun _ _ => rfl, rfl, rfl⟩
        · intro st5 h5
          rw [← hres] at h5
          cases h5
    · -- no unit anywhere: a decision move
      obtain ⟨fu, hu1, hu2⟩ := scanLoop_nounit lits st fuel st.t out hscan hkind
      have hstep := stepIter_nounit_eq lits start st fuel out hscan hkind
      rw [hstep] at h
      have hhvR : st.next st.t ∈ R :=
        ringClosed st.next st.h st.t R hS.hRing hts st.t htR
      have hhvlt : st.next st.t < nvars := (hS.ringVars _ hhvR).1
      obtain ⟨code, hc01, hcode⟩ : ∃ code, code ≤ 1 ∧
          (if st.watch (2 * st.next st.t) = SAT_sentinel ∨
            st.watch (2 * st.next st.t + 1) ≠ SAT_sentinel then 1 else 0)
          = code := by
        by_cases hcw : st.watch (2 * st.next st.t) = SAT_sentinel ∨
            st.watch (2 * st.next st.t + 1) ≠ SAT_sentinel
        · exact ⟨1, by omega, by rw [if_pos hcw]⟩
        · exact ⟨0, by omega, by rw [if_neg hcw]⟩
      rw [hcode] at h
      have hcmc := commitMove_cases
        { st with
          dstate := upd st.dstate st.d code
          h := st.next st.t }
          (st.next st.t)
      rw [hcmc.1] at h
      have hunit : ∀ b, b ≤ 1 → ∃ fu2, is_unit lits st.watch st.nextClause
          st.assignment (2 * st.next st.t + b) fu2 = some false := by
        intro b hb
        rcases Nat.le_one_iff_eq_zero_or_eq_one.mp hb with hb0 | hb1
        · subst hb0
          exact ⟨fu, by rw [Nat.add_zero]; exact hu1⟩
        · subst hb1
          exact ⟨fu, hu2⟩
      have hmig0 : ∀ c ∈ W (2 * st.next st.t + bitOf code), ∃ C,
          ClauseAt lits c C ∧ ∃ w2 ∈ C,
            w2 = 2 * st.next st.t + (1 - bitOf code) ∨
            (w2 >>> 1 ≠ st.next st.t ∧
              litNonFalse st.assignment w2 = true) := by
        obtain ⟨fu2, hu3⟩ := hunit (bitOf code) (bitOf_le_one _)
        refine mig_of_no_unit nvars maxn lits nlits st.watch st.nextClause
          st.assignment W hS.hW (st.next st.t) (bitOf code) fu2
          (bitOf_le_one _) ?_ hu3
        have := bitOf_le_one code
        omega
      have hI40 : (code ≤ 1) → ∀ c ∈ W (2 * st.next st.t + code), ∃ C,
          ClauseAt lits c C ∧ ∃ w2 ∈ C, w2 ≠ 2 * st.next st.t + code ∧
            litNonFalse st.assignment w2 = true := by
        intro _ c hc
        obtain ⟨fu2, hu3⟩ := hunit code hc01
        obtain ⟨C, hC, x, hx, hxne, hxt⟩ :=
          watch_no_unit nvars maxn lits nlits st.watch st.nextClause
            st.assignment W hS.hW (2 * st.next st.t + code) fu2
            (by omega) hu3 c hc
        exact ⟨C, hC, x, hx, hxne, hxt⟩
      rcases hcmc.2 with ⟨hcond, hM⟩ | ⟨hcond, hM⟩
      · have hcond2 : st.t = st.next st.t := hcond
        rw [hM] at h
        rw [Option.map_eq_some'] at h
        obtain ⟨st4, hct, hres⟩ := h
        have hmain := commit_branch nvars maxn lits nlits ptr r start hWF hL
          st W R fuel st.t code
          { st with
            dstate := upd st.dstate st.d code
            h := st.next st.t
            dh := upd st.dh st.d (st.next st.t)
            d := st.d + 1
            maxD := max st.maxD (st.d + 1)
            t := SAT_sentinel } st4 hS hts htR (by omega)
          rfl rfl rfl rfl rfl rfl rfl rfl rfl
          (fun _ => ⟨rfl, rfl⟩) (fun hh => absurd hcond2 hh) hct hmig0 hI40
        constructor
        · intro st5 h5
          rw [← hres] at h5
          cases h5
          exact hmain
        · intro st5 h5
          rw [← hres] at h5
          cases h5
      · have hcond2 : st.t ≠ st.next st.t := hcond
        rw [hM] at h
        rw [Option.map_eq_some'] at h
        obtain ⟨st4, hct, hres⟩ := h
        have hmain := commit_branch nvars maxn lits nlits ptr r start hWF hL
          st W R fuel st.t code
          { st with
            dstate := upd st.dstate st.d code
            dh := upd st.dh st.d (st.next st.t)
            d := st.d + 1
            maxD := max st.maxD (st.d + 1)
            next := upd st.next st.t (st.next (st.next st.t))
            h := st.next (st.next st.t) } st4 hS hts htR (by omega)
          rfl rfl rfl rfl rfl rfl rfl rfl rfl
          (fun hh => absurd hh hcond2) (fun _ => ⟨rfl, rfl, rfl⟩)
          hct hmig0 hI40
        constructor
        · intro st5 h5
          rw [← hres] at h5
          cases h5
          exact hmain
        · intro st5 h5
          rw [← hres] at h5
          cases h5

/-! ### Monotonicity of the global unsat counter -/

theorem unwind_unsat (start : Nat) :
    ∀ (gas : Nat) (st : SState), (unwind start st gas).unsat = st.unsat := by
  intro gas
  induction gas with
  | zero => intro st; rfl
  | succ gas ih =>
    intro st
    by_cases hguard : start < st.d ∧ 2 ≤ st.dstate (st.d - 1)
    · rw [unwind, if_pos hguard, ih (unwindBody st)]
      exact (unwindBody_fields st).2.2.2.1
    · rw [unwind, if_neg hguard]

/-- The unsat counter across one iteration, with no invariant assumed:
a continuing iteration leaves it untouched, an unsat exit adds one. -/
theorem stepIter_unsat (lits : Nat → Nat) (start : Nat) (st : SState)
    (fuel : Nat) (res : StepRes) (h : stepIter lits start st fuel = some res) :
    (∀ st2, res = StepRes.cont st2 → st2.unsat = st.unsat) ∧
    (∀ st2, res = StepRes.unsatExit st2 → st2.unsat = st.unsat + 1) := by
  rcases hscan : scanLoop lits st st.t fuel with _ | out
  · rw [stepIter, hscan] at h
    cases h
  · rcases hkind : out.kind with f | _ | _
    · rw [stepIter_unit_eq lits start st fuel out f hscan hkind] at h
      rw [Option.map_eq_some'] at h
      obtain ⟨st4, hct, hres⟩ := h
      have hspec := commitTail_spec lits _ _ fuel st4 hct
      constructor
      · intro st2 h2
        rw [← hres] at h2
        cases h2
        rw [hspec.2.2.2.2]
        have hcmc := commitMove_cases
          { st with
            dstate := upd st.dstate st.d (f + 3)
            t := out.kv
            h := out.hv } out.hv
        rcases hcmc.2 with ⟨_, hM⟩ | ⟨_, hM⟩ <;> rw [hM]
      · intro st2 h2
        rw [← hres] at h2
        cases h2
    · rw [stepIter_conflict_eq lits start st fuel out hscan hkind] at h
      by_cases hjs : (unwind start { st with t := out.kv, h := out.hv }
          st.d).d = start
      · rw [if_pos hjs] at h
        simp only [Option.some.injEq] at h
        constructor
        · intro st2 h2
          rw [← h] at h2
          cases h2
        · intro st2 h2
          rw [← h] at h2
          cases h2
          show (unwind start { st with t := out.kv, h := out.hv }
            st.d).unsat + 1 = st.unsat + 1
          rw [unwind_unsat]
      · rw [if_neg hjs] at h
        rw [Option.map_eq_some'] at h
        obtain ⟨st4, hct, hres⟩ := h
        have hspec := commitTail_spec lits _ _ fuel st4 hct
        constructor
        · intro st2 h2
          rw [← hres] at h2
          cases h2
          rw [hspec.2.2.2.2]
          show (unwind start { st with t := out.kv, h := out.hv }
            st.d).unsat = st.unsat
          rw [unwind_unsat]
        · intro st2 h2
          rw [← hres] at h2
          cases h2
    · rw [stepIter_nounit_eq lits start st fuel out hscan hkind] at h
      rw [Option.map_eq_some'] at h
      obtain ⟨st4, hct, hres⟩ := h
      have hspec := commitTail_spec lits _ _ fuel st4 hct
      constructor
      · intro st2 h2
        rw [← hres] at h2
        cases h2
        rw [hspec.2.2.2.2]
        have hcmc := commitMove_cases
          { st with
            dstate := upd st.dstate st.d
              (if st.watch (2 * st.next st.t) = SAT_sentinel ∨
                st.watch (2 * st.next st.t + 1) ≠ SAT_sentinel then 1 else 0)
            h := st.next st.t } (st.next st.t)
        rcases hcmc.2 with ⟨_, hM⟩ | ⟨_, hM⟩ <;> rw [hM]
      · intro st2 h2
        rw [← hres] at h2
        cases h2

theorem runLoop_unsat (lits : Nat → Nat) (start : Nat) :
    ∀ (fuel : Nat) (st st' : SState) (ek : ExitKind),
    runLoop lits start st fuel = some (st', ek) →
    st.unsat ≤ st'.unsat := by
  intro fuel
  induction fuel with
  | zero => intro st st' ek h; simp [runLoop] at h
  | succ n ih =>
    intro st st' ek h
    rw [runLoop] at h
    by_cases hts : st.t = SAT_sentinel
    · rw [if_pos hts] at h
      simp only [Option.some.injEq, Prod.mk.injEq] at h
      rw [h.1]
    · rw [if_neg hts] at h
      rcases hsi : stepIter lits start st (n+1) with _ | res
      · rw [hsi] at h
        cases h
      · rw [hsi] at h
        obtain ⟨hcont, hexit⟩ := stepIter_unsat lits start st (n+1) res hsi
        rcases res with st2 | st2
        · have h' : runLoop lits start st2 n = some (st', ek) := h
          have := ih st2 st' ek h'
          have h2 := hcont st2 rfl
          omega
        · have h' : some (st2, ExitKind.unsat) = some (st', ek) := h
          simp only [Option.some.injEq, Prod.mk.injEq] at h'
          have h2 := hexit st2 rfl
          rw [← h'.1]
          omega

/-! ### Soundness of the component search loop -/

theorem runLoop_sound (nvars maxn : Nat) (lits nlits ptr : Nat → Nat)
    (r start : Nat) (hWF : WFStore nvars maxn lits nlits)
    (hL : WFLabels nvars maxn lits nlits ptr) :
    ∀ (fuel : Nat) (st : SState) (W : Nat → List Nat) (R : List Nat)
      (st' : SState) (ek : ExitKind),
    runLoop lits start st fuel = some (st', ek) →
    SInv nvars maxn lits nlits ptr r start st W R →
    AgreeOut nvars lits ptr r st st' ∧
    (ek = ExitKind.sat → st'.unsat = st.unsat ∧ st'.t = SAT_sentinel ∧
      SInvEx nvars maxn lits nlits ptr r start st') ∧
    (ek = ExitKind.unsat → st'.unsat = st.unsat + 1) := by
  intro fuel
  induction fuel with
  | zero => intro st W R st' ek h _; simp [runLoop] at h
  | succ n ih =>
    intro st W R st' ek h hS
    rw [runLoop] at h
    by_cases hts : st.t = SAT_sentinel
    · rw [if_pos hts] at h
      simp only [Option.some.injEq, Prod.mk.injEq] at h
      obtain ⟨h1, h2⟩ := h
      subst h1
      refine ⟨AgreeOut_refl _ _ _ _ _, ?_, ?_⟩
      · intro _
        exact ⟨rfl, hts, ⟨W, R, hS⟩⟩
      · intro hek
        rw [← h2] at hek
        cases hek
    · rw [if_neg hts] at h
      rcases hsi : stepIter lits start st (n+1) with _ | res
      · rw [hsi] at h
        cases h
      · rw [hsi] at h
        obtain ⟨hcont, hexit⟩ := stepIter_sound nvars maxn lits nlits ptr r
          start hWF hL st W R (n+1) res hsi hS hts
        rcases res with st2 | st2
        · obtain ⟨⟨W2, R2, hS2⟩, hu2, hAO2⟩ := hcont st2 rfl
          have h' : runLoop lits start st2 n = some (st', ek) := h
          obtain ⟨hAO3, hsat3, hunsat3⟩ := ih st2 W2 R2 st' ek h' hS2
          refine ⟨AgreeOut_trans _ _ _ _ _ _ _ hAO2 hAO3, ?_, ?_⟩
          · intro hek
            obtain ⟨a, b, c⟩ := hsat3 hek
            exact ⟨by rw [a, hu2], b, c⟩
          · intro hek
            rw [hunsat3 hek, hu2]
        · obtain ⟨hu2, hAO2⟩ := hexit st2 rfl
          have h' : some (st2, ExitKind.unsat) = some (st', ek) := h
          simp only [Option.some.injEq, Prod.mk.injEq] at h'
          obtain ⟨h1, h2⟩ := h'
          subst h1
          refine ⟨hAO2, ?_, ?_⟩
          · intro hek
            rw [← h2] at hek
            cases hek
          · intro _
            exact hu2

/-- On a SAT exit (empty ring), every clause of the component is satisfied
by the final assignment: its covered watch literal is non-false, and an
unassigned watched component variable would still be in the ring. -/
theorem sat_exit_satisfied (nvars maxn : Nat) (lits nlits ptr : Nat → Nat)
    (r start : Nat) (hWF : WFStore nvars maxn lits nlits)
    (hL : WFLabels nvars maxn lits nlits ptr)
    (st : SState) (W : Nat → List Nat) (R : List Nat)
    (hS : SInv nvars maxn lits nlits ptr r start st W R)
    (hts : st.t = SAT_sentinel) :
    ∀ c ∈ allFirstPositions maxn lits nlits 0 nvars,
      repOf ptr (lits c >>> 1) = r →
      ∃ C, ClauseAt lits c C ∧ clauseSat st.assignment C = true := by
  have hRnil : R = [] := by
    refine RingOK_empty_of_sent st.next st.h R ?_
    rw [← hts]
    exact hS.hRing
  intro c hc hrep
  obtain ⟨l, hl2n, hcW⟩ := hS.hW.cover c hc
  obtain ⟨C, hC, hlC⟩ := hS.hW.mem_lit l hl2n c hcW
  have hlrep : repOf ptr (l >>> 1) = r := by
    rw [labels_pos nvars maxn lits nlits ptr hWF hL c hc C hC l hlC]
    exact hrep
  have hWne : W l ≠ [] := by
    intro habs
    rw [habs] at hcW
    exact List.not_mem_nil c hcW
  have hnf : litNonFalse st.assignment l = true := hS.nonFalse l hl2n hlrep hWne
  have hvlt : l >>> 1 < nvars := lit_var_lt l nvars hl2n
  have hwatched : st.watch (2 * (l >>> 1)) ≠ SAT_sentinel ∨
      st.watch (2 * (l >>> 1) + 1) ≠ SAT_sentinel := by
    have hch := hS.hW.chains l hl2n
    have hwl : st.watch l ≠ SAT_sentinel := by
      rcases hWl : W l with _ | ⟨c0, L0⟩
      · exact absurd hWl hWne
      · rw [hWl] at hch
        obtain ⟨h1, h2, _⟩ := IsChain_head _ _ _ _ hch
        rw [h1]
        exact h2
    obtain ⟨hdec, hble⟩ := lit_decomp l
    rcases Nat.le_one_iff_eq_zero_or_eq_one.mp hble with hb | hb
    · left
      have he : 2 * (l >>> 1) = l := by omega
      rw [he]
      exact hwl
    · right
      have he : 2 * (l >>> 1) + 1 = l := by omega
      rw [he]
      exact hwl
  by_cases hasg : st.assignment (l >>> 1) = SAT_sentinel
  · have hmem := hS.active (l >>> 1) hvlt hlrep hasg hwatched
    rw [hRnil] at hmem
    exact absurd hmem (List.not_mem_nil _)
  · refine ⟨C, hC, ?_⟩
    unfold clauseSat
    rw [List.any_eq_true]
    refine ⟨l, hlC, ?_⟩
    rw [litTrue_iff]
    exact ⟨hasg, hnf⟩

/-! ### One component worker (`kernel::solve_sat` thread body) -/

theorem runNode_eq_empty (lits : Nat → Nat) (node : Nat) (st : SState)
    (fuel n : Nat) (hrep : ¬ st.rep node ≠ node)
    (hrc : ringChase st.next (st.head node) SAT_sentinel 0 fuel =
      some (SAT_sentinel, n)) :
    runNode lits node st fuel =
    match runLoop lits st.heap { st with
        heap := st.heap + n
        h := st.head node
        t := SAT_sentinel
        d := st.heap
        maxD := max st.maxD st.heap
        curStart := st.heap
        curN := n } fuel with
    | none => none
    | some (stC, _) => some stC := by
  unfold runNode
  rw [if_neg hrep]
  dsimp only
  rw [hrc]
  dsimp only
  rw [if_neg (fun hh => hh rfl)]

theorem runNode_eq_ring (lits : Nat → Nat) (node : Nat) (st : SState)
    (fuel tv n : Nat) (hrep : ¬ st.rep node ≠ node)
    (htv : tv ≠ SAT_sentinel)
    (hrc : ringChase st.next (st.head node) SAT_sentinel 0 fuel =
      some (tv, n)) :
    runNode lits node st fuel =
    match runLoop lits st.heap { st with
        next := upd st.next tv (st.head node)
        heap := st.heap + n
        h := st.head node
        t := tv
        d := st.heap
        maxD := max st.maxD st.heap
        curStart := st.heap
        curN := n } fuel with
    | none => none
    | some (stC, _) => some stC := by
  unfold runNode
  rw [if_neg hrep]
  dsimp only
  rw [hrc]
  dsimp only
  rw [if_pos htv]

theorem runNode_unsat (lits : Nat → Nat) (node : Nat) (st : SState)
    (fuel : Nat) (st' : SState) (h : runNode lits node st fuel = some st') :
    st.unsat ≤ st'.unsat := by
  by_cases hrepn : st.rep node ≠ node
  · unfold runNode at h
    rw [if_pos hrepn] at h
    simp only [Option.some.injEq] at h
    subst h
    exact Nat.le_refl _
  · rcases hrc : ringChase st.next (st.head node) SAT_sentinel 0 fuel
      with _ | ⟨tv, n⟩
    · unfold runNode at h
      rw [if_neg hrepn] at h
      dsimp only at h
      rw [hrc] at h
      cases h
    · by_cases htv : tv = SAT_sentinel
      · subst htv
        rw [runNode_eq_empty lits node st fuel n hrepn hrc] at h
        rcases hq : runLoop lits st.heap { st with
            heap := st.heap + n
            h := st.head node
            t := SAT_sentinel
            d := st.heap
            maxD := max st.maxD st.heap
            curStart := st.heap
            curN := n } fuel with _ | ⟨stC, ek⟩ <;> rw [hq] at h
        · cases h
        · simp only [Option.some.injEq] at h
          subst h
          have h1 := runLoop_unsat lits st.heap fuel _ _ ek hq
          exact h1
      · rw [runNode_eq_ring lits node st fuel tv n hrepn htv hrc] at h
        rcases hq : runLoop lits st.heap { st with
            next := upd st.next tv (st.head node)
            heap := st.heap + n
            h := st.head node
            t := tv
            d := st.heap
            maxD := max st.maxD st.heap
            curStart := st.heap
            curN := n } fuel with _ | ⟨stC, ek⟩ <;> rw [hq] at h
        · cases h
        · simp only [Option.some.injEq] at h
          subst h
          have h1 := runLoop_unsat lits st.heap fuel _ _ ek hq
          exact h1

theorem solveNodes_unsat (lits : Nat → Nat) :
    ∀ (nleft node : Nat) (st : SState) (fuel : Nat) (st' : SState),
    solveNodes lits node nleft st fuel = some st' → st.unsat ≤ st'.unsat := by
  intro nleft
  induction nleft with
  | zero =>
    intro node st fuel st' h
    rw [solveNodes] at h
    simp only [Option.some.injEq] at h
    subst h
    exact Nat.le_refl _
  | succ nleft ih =>
    intro node st fuel st' h
    rw [solveNodes] at h
    rcases hrn : runNode lits node st fuel with _ | st2 <;> rw [hrn] at h
    · cases h
    · have h1 := runNode_unsat lits node st fuel st2 hrn
      have h2 := ih (node+1) st2 fuel st' h
      omega

/-- Literal truth only depends on the value assigned to its variable. -/
theorem litTrue_congr (asg asg2 : Nat → Nat) (l : Nat)
    (h : asg2 (l >>> 1) = asg (l >>> 1)) : litTrue asg2 l = litTrue asg l := by
  unfold litTrue litNonFalse
  rw [h]

/-- Soundness of one component worker: it preserves the global grid
invariant, moving the frontier one node forward, and never decreases the
unsat counter. -/
theorem runNode_sound (nvars maxn : Nat) (lits nlits ptr : Nat → Nat)
    (hWF : WFStore nvars maxn lits nlits)
    (hL : WFLabels nvars maxn lits nlits ptr)
    (node : Nat) (st st' : SState) (fuel : Nat)
    (hnode : node < nvars)
    (h : runNode lits node st fuel = some st')
    (hB : BigInv nvars maxn lits nlits ptr node st) :
    BigInv nvars maxn lits nlits ptr (node + 1) st' ∧ st.unsat ≤ st'.unsat := by
  have hmono : st.unsat ≤ st'.unsat := runNode_unsat lits node st fuel st' h
  by_cases hu0 : st.unsat = 0
  case neg =>
    refine ⟨?_, hmono⟩
    intro hu'
    exact absurd (by omega : st.unsat = 0) hu0
  case pos =>
  obtain ⟨⟨W0, hW0⟩, hrep, hasg0, hpre, hsat⟩ := hB hu0
  by_cases hrepn : st.rep node ≠ node
  · unfold runNode at h
    rw [if_pos hrepn] at h
    simp only [Option.some.injEq] at h
    subst h
    refine ⟨?_, Nat.le_refl _⟩
    intro _
    refine ⟨⟨W0, hW0⟩, hrep, ?_, ?_, ?_⟩
    · intro v h1 h2
      exact hasg0 v h1 (by omega)
    · intro r h1 h2
      exact hpre r (by omega) h2
    · intro c hc hcr
      by_cases hlt : repOf ptr (lits c >>> 1) < node
      · exact hsat c hc hlt
      · have heq : repOf ptr (lits c >>> 1) = node := by omega
        have hvlt : lits c >>> 1 < nvars :=
          lit_var_lt _ _ (allPos_wf nvars maxn lits nlits hWF c hc).2.1
        have hid := hL.2.1 (lits c >>> 1) hvlt
        rw [heq] at hid
        have hrn := hrep node hnode
        rw [hid] at hrn
        exact absurd hrn hrepn
  · obtain ⟨L, hLchain, hLvars, hLiff⟩ := hpre node (Nat.le_refl node) hnode
    rcases hrc : ringChase st.next (st.head node) SAT_sentinel 0 fuel
      with _ | ⟨tv, n⟩
    · unfold runNode at h
      rw [if_neg hrepn] at h
      dsimp only at h
      rw [hrc] at h
      cases h
    · obtain ⟨hn, hemp, hlast⟩ := ringChase_spec st.next fuel (st.head node) L
        SAT_sentinel 0 (tv, n) hLchain hrc
      by_cases hLnil : L = []
      · -- the component has no watched variable: the worker exits at once
        have htv : tv = SAT_sentinel := hemp hLnil
        subst htv
        rw [runNode_eq_empty lits node st fuel n hrepn hrc] at h
        rcases fuel with _ | fuel2
        · simp [ringChase] at hrc
        · have hq : runLoop lits st.heap { st with
              heap := st.heap + n
              h := st.head node
              t := SAT_sentinel
              d := st.heap
              maxD := max st.maxD st.heap
              curStart := st.heap
              curN := n } (fuel2+1) =
              some ({ st with
                heap := st.heap + n
                h := st.head node
                t := SAT_sentinel
                d := st.heap
                maxD := max st.maxD st.heap
                curStart := st.heap
                curN := n }, ExitKind.sat) := by
            rw [runLoop, if_pos rfl]
          rw [hq] at h
          simp only [Option.some.injEq] at h
          subst h
          refine ⟨?_, hmono⟩
          intro _
          refine ⟨⟨W0, hW0⟩, hrep, ?_, ?_, ?_⟩
          · intro v h1 h2
            exact hasg0 v h1 (by omega)
          · intro r h1 h2
            exact hpre r (by omega) h2
          · intro c hc hcr
            by_cases hlt : repOf ptr (lits c >>> 1) < node
            · exact hsat c hc hlt
            · have heq : repOf ptr (lits c >>> 1) = node := by omega
              -- a clause of this component would force a watched variable
              exfalso
              obtain ⟨l, hl2n, hcW⟩ := hW0.cover c hc
              obtain ⟨C, hC, hlC⟩ := hW0.mem_lit l hl2n c hcW
              have hlrep : repOf ptr (l >>> 1) = node := by
                rw [labels_pos nvars maxn lits nlits ptr hWF hL c hc C hC l hlC]
                exact heq
              have hWne : W0 l ≠ [] := by
                intro habs
                rw [habs] at hcW
                exact List.not_mem_nil c hcW
              have hvlt : l >>> 1 < nvars := lit_var_lt l nvars hl2n
              have hwl : st.watch l ≠ SAT_sentinel := by
                have hch := hW0.chains l hl2n
                rcases hWl : W0 l with _ | ⟨c0, L0⟩
                · exact absurd hWl hWne
                · rw [hWl] at hch
                  obtain ⟨h1, h2, _⟩ := IsChain_head _ _ _ _ hch
                  rw [h1]
                  exact h2
              have hwatched : st.watch (2 * (l >>> 1)) ≠ SAT_sentinel ∨
                  st.watch (2 * (l >>> 1) + 1) ≠ SAT_sentinel := by
                obtain ⟨hdec, hble⟩ := lit_decomp l
                rcases Nat.le_one_iff_eq_zero_or_eq_one.mp hble with hb | hb
                · left
                  have he : 2 * (l >>> 1) = l := by omega
                  rw [he]
                  exact hwl
                · right
                  have he : 2 * (l >>> 1) + 1 = l := by omega
                  rw [he]
                  exact hwl
              have := (hLiff (l >>> 1) hvlt hlrep).mp hwatched
              rw [hLnil] at this
              exact List.not_mem_nil _ this
      · -- the worker closes the ring and runs the search loop
        have htvL : tv ∈ L := by
          have hh := hlast hLnil
          exact getLast?_mem L tv hh
        have htv : tv ≠ SAT_sentinel :=
          IsChain_mem_ne_sent st.next (st.head node) L hLchain tv htvL
        have htvrep := hLvars tv htvL
        rw [runNode_eq_ring lits node st fuel tv n hrepn htv hrc] at h
        rcases hq : runLoop lits st.heap { st with
            next := upd st.next tv (st.head node)
            heap := st.heap + n
            h := st.head node
            t := tv
            d := st.heap
            maxD := max st.maxD st.heap
            curStart := st.heap
            curN := n } fuel with _ | ⟨stC, ek⟩ <;> rw [hq] at h
        · cases h
        · simp only [Option.some.injEq] at h
          subst h
          -- the initial loop invariant for this component
          have hRing0 : RingOK (upd st.next tv (st.head node)) (st.head node)
              tv L := by
            unfold RingOK
            rw [if_neg htv]
            have hnd := IsChain_nodup st.next (st.head node) L hLchain
            refine ⟨hLnil, hlast hLnil, ?_, upd_same _ _ _, ?_, hnd⟩
            · rcases hLc : L with _ | ⟨c0, L2⟩
              · exact absurd hLc hLnil
              · rw [hLc] at hLchain
                obtain ⟨h1, _, _⟩ := IsChain_head _ _ _ _ hLchain
                rw [List.head?_cons, h1]
            · refine NextAdj_congr2 st.next _ L
                (IsChain_nextAdj st.next (st.head node) L hLchain) hnd ?_
              intro x hx
              by_cases hxt : x = tv
              · subst hxt
                exact Or.inl (hlast hLnil)
              · exact Or.inr (upd_other _ _ _ _ hxt)
          have hS0 : SInv nvars maxn lits nlits ptr node st.heap
              { st with
                next := upd st.next tv (st.head node)
                heap := st.heap + n
                h := st.head node
                t := tv
                d := st.heap
                maxD := max st.maxD st.heap
                curStart := st.heap
                curN := n } W0 L := by
            refine
              { hW := hW0
                hRing := hRing0
                ringVars := ?_
                hstart := Nat.le_refl _
                stackVar := ?_
                stackState := ?_
                stackAsg := ?_
                stackNodup := ?_
                asgStack := ?_
                active := ?_
                nonFalse := ?_
                flipSafe := ?_ }
            · intro v hv
              obtain ⟨h1, h2⟩ := hLvars v hv
              refine ⟨h1, h2, ?_, (hLiff v h1 h2).mpr hv⟩
              exact hasg0 v h1 (by rw [h2])
            · intro j h1 h2
              have h2' : j < st.heap := h2
              omega
            · intro j h1 h2
              have h2' : j < st.heap := h2
              omega
            · intro j h1 h2
              have h2' : j < st.heap := h2
              omega
            · intro j1 j2 h1 h2 h3 h4 h5
              have h2' : j1 < st.heap := h2
              omega
            · intro v h1 h2 h3
              have h3' : st.assignment v ≠ SAT_sentinel := h3
              exact absurd (hasg0 v h1 (by rw [h2])) h3'
            · intro v h1 h2 h3 h4
              exact (hLiff v h1 h2).mp h4
            · intro l h1 h2 h3
              show litNonFalse st.assignment l = true
              refine litNonFalse_unassigned _ _ ?_
              exact hasg0 (l >>> 1) (lit_var_lt l nvars h1) (by rw [h2])
            · intro p hp1 hp2 hp3 c hc
              have hp2' : p < st.heap := hp2
              omega
          obtain ⟨hAO, hsatC, hunsatC⟩ := runLoop_sound nvars maxn lits nlits
            ptr node st.heap hWF hL fuel _ W0 L stC ek hq hS0
          obtain ⟨hAOasg, hAOnext, hAOwatch, hAOnc, hAOhead, hAOrep⟩ := hAO
          -- frames relative to the original state
          have hasgF : ∀ v, ¬(v < nvars ∧ repOf ptr v = node) →
              stC.assignment v = st.assignment v := fun v hv => hAOasg v hv
          have hnextF : ∀ v, ¬(v < nvars ∧ repOf ptr v = node) →
              stC.next v = st.next v := by
            intro v hv
            have h1 : stC.next v = upd st.next tv (st.head node) v :=
              hAOnext v hv
            have hvtv : v ≠ tv := by
              intro habs
              rw [habs] at hv
              exact hv htvrep
            rw [h1, upd_other _ _ _ _ hvtv]
          have hwatchF : ∀ l, ¬(l >>> 1 < nvars ∧ repOf ptr (l >>> 1) = node) →
              stC.watch l = st.watch l := fun l hl => hAOwatch l hl
          have hncF : ∀ c, ¬(lits c >>> 1 < nvars ∧
              repOf ptr (lits c >>> 1) = node) →
              stC.nextClause c = st.nextClause c := fun c hc => hAOnc c hc
          have hheadF : stC.head = st.head := hAOhead
          have hrepF : stC.rep = st.rep := hAOrep
          rcases ek with _ | _
          · -- SAT exit
            obtain ⟨huC, htC, W2, R2, hS2⟩ := hsatC rfl
            have huC' : stC.unsat = st.unsat := huC
            refine ⟨?_, hmono⟩
            intro _
            refine ⟨⟨W2, hS2.hW⟩, ?_, ?_, ?_, ?_⟩
            · intro v h1
              rw [hrepF]
              exact hrep v h1
            · intro v h1 h2
              rw [hasgF v (fun hh => by omega)]
              exact hasg0 v h1 (by omega)
            · intro r h1 h2
              obtain ⟨Lr, hLr1, hLr2, hLr3⟩ := hpre r (by omega) h2
              refine ⟨Lr, ?_, hLr2, ?_⟩
              · rw [hheadF]
                refine IsChain_congr st.next stC.next (st.head r) Lr hLr1 ?_
                intro x hx
                obtain ⟨hx1, hx2⟩ := hLr2 x hx
                exact hnextF x (fun hh => by omega)
              · intro v h3 h4
                have hv0 : (2 * v) >>> 1 = v := (lit_var_bit v 0 (by omega)).1
                have hv1 : (2 * v + 1) >>> 1 = v := (lit_var_bit v 1 (by omega)).1
                rw [hwatchF (2 * v) (by rw [hv0]; omega),
                  hwatchF (2 * v + 1) (by rw [hv1]; omega)]
                exact hLr3 v h3 h4
            · intro c hc hcr
              by_cases hlt : repOf ptr (lits c >>> 1) < node
              · obtain ⟨C, hC, hCsat⟩ := hsat c hc hlt
                refine ⟨C, hC, ?_⟩
                unfold clauseSat at hCsat ⊢
                rw [List.any_eq_true] at hCsat ⊢
                obtain ⟨l0, hl0C, hl0t⟩ := hCsat
                refine ⟨l0, hl0C, ?_⟩
                have hl0rep : repOf ptr (l0 >>> 1) = repOf ptr (lits c >>> 1) :=
                  labels_pos nvars maxn lits nlits ptr hWF hL c hc C hC l0 hl0C
                rw [litTrue_congr st.assignment stC.assignment l0
                  (hasgF (l0 >>> 1) (fun hh => by omega))]
                exact hl0t
              · have heq : repOf ptr (lits c >>> 1) = node := by omega
                exact sat_exit_satisfied nvars maxn lits nlits ptr node st.heap
                  hWF hL stC W2 R2 hS2 htC c hc heq
          · -- unsat exit: the final counter is nonzero
            have huC := hunsatC rfl
            have huC' : stC.unsat = st.unsat + 1 := huC
            refine ⟨?_, hmono⟩
            intro h0
            exact absurd h0 (by omega)

/-- The sequentialized worker grid preserves the global invariant. -/
theorem solveNodes_sound (nvars maxn : Nat) (lits nlits ptr : Nat → Nat)
    (hWF : WFStore nvars maxn lits nlits)
    (hL : WFLabels nvars maxn lits nlits ptr) :
    ∀ (nleft node : Nat) (st : SState) (fuel : Nat) (st' : SState),
    node + nleft ≤ nvars →
    solveNodes lits node nleft st fuel = some st' →
    BigInv nvars maxn lits nlits ptr node st →
    BigInv nvars maxn lits nlits ptr (node + nleft) st' := by
  intro nleft
  induction nleft with
  | zero =>
    intro node st fuel st' _ h hB
    rw [solveNodes] at h
    simp only [Option.some.injEq] at h
    subst h
    exact hB
  | succ nleft ih =>
    intro node st fuel st' hle h hB
    rw [solveNodes] at h
    rcases hrn : runNode lits node st fuel with _ | st2 <;> rw [hrn] at h
    · cases h
    · obtain ⟨hB2, _⟩ := runNode_sound nvars maxn lits nlits ptr hWF hL node
        st st2 fuel (by omega) hrn hB
      have := ih (node + 1) st2 fuel st' (by omega) h hB2
      have heq : node + 1 + nleft = node + (nleft + 1) := by omega
      rwa [heq] at this

/-! ### The initial watch table and component lists -/

theorem wflag_iff (w : Nat → Nat) (v : Nat) :
    wflag w v = true ↔
      (w (2*v) ≠ SAT_sentinel ∨ w (2*v+1) ≠ SAT_sentinel) := by
  unfold wflag
  simp [Bool.or_eq_true]

theorem compList_mem (ptr w : Nat → Nat) (r m x : Nat) :
    x ∈ compList ptr w r m ↔
      (x < m ∧ repOf ptr x = r ∧ wflag w x = true) := by
  unfold compList
  simp [List.mem_filter, List.mem_range, Bool.and_eq_true, and_assoc]

theorem compList_nodup (ptr w : Nat → Nat) (r m : Nat) :
    (compList ptr w r m).Nodup :=
  (List.nodup_range m).filter _

theorem compList_succ_pos (ptr w : Nat → Nat) (r m : Nat)
    (h : ((repOf ptr m == r) && wflag w m) = true) :
    compList ptr w r (m+1) = compList ptr w r m ++ [m] := by
  unfold compList
  rw [List.range_succ, List.filter_append]
  congr 1
  simp [List.filter, h]

theorem compList_succ_neg (ptr w : Nat → Nat) (r m : Nat)
    (h : ((repOf ptr m == r) && wflag w m) = false) :
    compList ptr w r (m+1) = compList ptr w r m := by
  unfold compList
  rw [List.range_succ, List.filter_append]
  have : List.filter (fun v => (repOf ptr v == r) && wflag w v) [m] = [] := by
    simp [List.filter, h]
  rw [this, List.append_nil]

/-- The table built by `setup_watch_list` satisfies the watch invariant:
each literal's list holds exactly the clause starts whose first literal it
is. -/
theorem setup_watchInv (nvars maxn : Nat) (lits nlits : Nat → Nat) (FU : Nat)
    (w nc : Nat → Nat) (hWF : WFStore nvars maxn lits nlits)
    (hsetup : setupWatchList nvars maxn lits nlits FU = some (w, nc)) :
    WatchInv nvars maxn lits nlits w nc
      (fun l => (allFirstPositions maxn lits nlits 0 nvars).filter
        (fun c => lits c == l)) := by
  have hnl : ∀ t, t < nvars → nlits t ≤ maxn := fun t ht => (hWF.2.2 t ht).1
  have hbound : nvars * maxn ≤ SAT_sentinel := by
    have := hWF.2.1
    omega
  have hInv0 : InvW lits (fun _ => SAT_sentinel) (fun _ => SAT_sentinel) [] 0 := by
    refine ⟨fun l => ⟨1, by simp [chain]⟩, by simp, List.nodup_nil,
      fun x _ => rfl⟩
  have hres := setupAux_inv maxn lits nlits nvars 0 _ _ FU w nc [] hsetup
    (by simpa using hInv0) (by simpa using hnl) (by simpa using hbound)
  refine
    { chains := ?_
      mem_pos := ?_
      mem_lit := ?_
      disj := ?_
      cover := ?_ }
  · intro l _
    obtain ⟨fu, hch⟩ := hres.1 l
    refine chain_to_isChain nc fu (w l) _ ?_
    simpa using hch
  · intro l _ c hc
    exact List.mem_of_mem_filter hc
  · intro l _ c hc
    have hca : c ∈ allFirstPositions maxn lits nlits 0 nvars :=
      List.mem_of_mem_filter hc
    have hlc : lits c = l := by
      have := List.of_mem_filter hc
      simpa using this
    obtain ⟨C, hC⟩ := clauseAt_exists nvars maxn lits nlits hWF c hca
    have hne := (allPos_wf nvars maxn lits nlits hWF c hca).1
    refine ⟨C, hC, ?_⟩
    cases hC with
    | nil _ hj => exact absurd hj hne
    | cons _ C2 _ _ =>
      rw [← hlc]
      exact List.mem_cons_self _ _
  · intro l1 l2 _ _ hne c hc1 hc2
    have h1 : lits c = l1 := by
      have := List.of_mem_filter hc1
      simpa using this
    have h2 : lits c = l2 := by
      have := List.of_mem_filter hc2
      simpa using this
    exact hne (h1 ▸ h2)
  · intro c hc
    refine ⟨lits c, (allPos_wf nvars maxn lits nlits hWF c hc).2.1, ?_⟩
    exact List.mem_filter.mpr ⟨hc, beq_self_eq_true _⟩

/-- The grid of `initialize_components`, sequentialized: it records every
node's representative, resets every assignment, and builds, for each
component, the linked list of its watched member variables. -/
theorem initComponents_inv (nvars : Nat) (ptr : Nat → Nat)
    (hns : nvars < SAT_sentinel) :
    ∀ (nleft m : Nat) (st : SState) (fuel : Nat) (st' : SState),
    initComponents ptr st m nleft fuel = some st' →
    m + nleft ≤ nvars →
    (∀ r, ∃ fu, chain st.next (st.head r) fu =
      some (compList ptr st.watch r m)) →
    (∀ x, m ≤ x → st.next x = SAT_sentinel) →
    (∀ r, ∃ fu, chain st'.next (st'.head r) fu =
      some (compList ptr st.watch r (m + nleft))) ∧
    st'.watch = st.watch ∧ st'.nextClause = st.nextClause ∧
    (∀ v, v < m →
      st'.rep v = st.rep v ∧ st'.assignment v = st.assignment v) ∧
    (∀ v, m ≤ v → v < m + nleft →
      st'.rep v = repOf ptr v ∧ st'.assignment v = SAT_sentinel) ∧
    st'.unsat = st.unsat := by
  intro nleft
  induction nleft with
  | zero =>
    intro m st fuel st' h _ hchains _
    rw [initComponents] at h
    simp only [Option.some.injEq] at h
    subst h
    refine ⟨fun r => hchains r, rfl, rfl, fun v _ => ⟨rfl, rfl⟩, ?_, rfl⟩
    intro v h1 h2
    exact absurd h2 (by omega)
  | succ nleft ih =>
    intro m st fuel st' h hle hchains hfresh
    rw [initComponents] at h
    rcases hin : initNode ptr st m fuel with _ | st2
    · rw [hin] at h
      dsimp only at h
      exact Option.noConfusion h
    · rw [hin] at h
      dsimp only at h
      have hms : m ≠ SAT_sentinel := by omega
      have hcc : st.next m = SAT_sentinel := hfresh m (Nat.le_refl m)
      unfold initNode at hin
      by_cases hw : st.watch (2*m) ≠ SAT_sentinel ∨
          st.watch (2*m+1) ≠ SAT_sentinel
      · -- watched node: it is appended to its component's list
        rw [if_pos hw] at hin
        rcases happ : wlAppend st.head st.next
            (findRepFuel ptr (ptr m) (ptr m)) m fuel with _ | q
        · rw [happ] at hin
          dsimp only at hin
          exact Option.noConfusion hin
        · rcases q with ⟨hd, nx⟩
          rw [happ] at hin
          dsimp only at hin
          simp only [Option.some.injEq] at hin
          subst hin
          obtain ⟨fu0, hch0⟩ := hchains (repOf ptr m)
          have hnd0 := compList_nodup ptr st.watch (repOf ptr m) m
          have hmnot : m ∉ compList ptr st.watch (repOf ptr m) m := by
            intro habs
            have hx := (compList_mem ptr st.watch (repOf ptr m) m m).mp habs
            omega
          obtain ⟨hch1, hwfr, hncf⟩ := wlAppend_chain st.head st.next
            (findRepFuel ptr (ptr m) (ptr m)) m fuel hd nx happ fu0 _ hch0
            hnd0 hmnot hms hcc
          have hwfm : wflag st.watch m = true := (wflag_iff st.watch m).mpr hw
          have hchains2 : ∀ r, ∃ fu, chain nx (hd r) fu =
              some (compList ptr st.watch r (m+1)) := by
            intro r
            by_cases hr : r = repOf ptr m
            · subst hr
              refine ⟨fu0 + 1, ?_⟩
              rw [compList_succ_pos ptr st.watch (repOf ptr m) m
                (by simp [hwfm])]
              exact hch1
            · obtain ⟨fu1, hch2⟩ := hchains r
              have hbe : (repOf ptr m == r) = false := by
                rw [beq_eq_false_iff_ne]
                exact fun hh => hr hh.symm
              refine ⟨fu1, ?_⟩
              rw [compList_succ_neg ptr st.watch r m
                (by rw [hbe, Bool.false_and])]
              have hhd : hd r = st.head r := hwfr r hr
              rw [hhd]
              refine chain_congr st.next nx fu1 (st.head r) _ hch2 ?_
              intro x hx
              refine hncf x ?_
              intro habs
              have hx1 := (compList_mem ptr st.watch r m x).mp hx
              have hx2 := (compList_mem ptr st.watch (repOf ptr m) m x).mp habs
              exact hr (hx1.2.1.symm.trans hx2.2.1)
          have hfresh2 : ∀ x, m + 1 ≤ x → nx x = SAT_sentinel := by
            intro x hx
            have hnm : x ∉ compList ptr st.watch (repOf ptr m) m := by
              intro habs
              have hx2 := (compList_mem ptr st.watch (repOf ptr m) m x).mp habs
              omega
            rw [hncf x hnm]
            exact hfresh x (by omega)
          obtain ⟨hc3, hw3, hnc3, hfr3, hvars3, hu3⟩ :=
            ih (m+1) _ fuel st' h (by omega) hchains2 hfresh2
          have heqn : m + 1 + nleft = m + (nleft + 1) := by omega
          refine ⟨?_, hw3, hnc3, ?_, ?_, hu3⟩
          · intro r
            obtain ⟨fu, hch⟩ := hc3 r
            rw [heqn] at hch
            exact ⟨fu, hch⟩
          · intro v hv
            have h1 : st'.rep v =
                upd st.rep m (findRepFuel ptr (ptr m) (ptr m)) v :=
              (hfr3 v (by omega)).1
            have h2 : st'.assignment v = upd st.assignment m SAT_sentinel v :=
              (hfr3 v (by omega)).2
            constructor
            · rw [h1]
              exact upd_other st.rep m _ v (by omega)
            · rw [h2]
              exact upd_other st.assignment m _ v (by omega)
          · intro v hv1 hv2
            by_cases hvm : v = m
            · subst hvm
              have h1 : st'.rep v =
                  upd st.rep v (findRepFuel ptr (ptr v) (ptr v)) v :=
                (hfr3 v (by omega)).1
              have h2 : st'.assignment v = upd st.assignment v SAT_sentinel v :=
                (hfr3 v (by omega)).2
              rw [h1, h2, upd_same, upd_same]
              exact ⟨rfl, rfl⟩
            · exact hvars3 v (by omega) (by omega)
      · -- unwatched node: only its representative and assignment change
        rw [if_neg hw] at hin
        simp only [Option.some.injEq] at hin
        subst hin
        have hwfm : wflag st.watch m = false := by
          cases hb : wflag st.watch m
          · rfl
          · exact absurd ((wflag_iff st.watch m).mp hb) hw
        have hchains2 : ∀ r, ∃ fu, chain st.next (st.head r) fu =
            some (compList ptr st.watch r (m+1)) := by
          intro r
          obtain ⟨fu1, hch2⟩ := hchains r
          refine ⟨fu1, ?_⟩
          rw [compList_succ_neg ptr st.watch r m
            (by rw [hwfm, Bool.and_false])]
          exact hch2
        have hfresh2 : ∀ x, m + 1 ≤ x → st.next x = SAT_sentinel :=
          fun x hx => hfresh x (by omega)
        obtain ⟨hc3, hw3, hnc3, hfr3, hvars3, hu3⟩ :=
          ih (m+1) _ fuel st' h (by omega) hchains2 hfresh2
        have heqn : m + 1 + nleft = m + (nleft + 1) := by omega
        refine ⟨?_, hw3, hnc3, ?_, ?_, hu3⟩
        · intro r
          obtain ⟨fu, hch⟩ := hc3 r
          rw [heqn] at hch
          exact ⟨fu, hch⟩
        · intro v hv
          have h1 : st'.rep v =
              upd st.rep m (findRepFuel ptr (ptr m) (ptr m)) v :=
            (hfr3 v (by omega)).1
          have h2 : st'.assignment v = upd st.assignment m SAT_sentinel v :=
            (hfr3 v (by omega)).2
          constructor
          · rw [h1]
            exact upd_other st.rep m _ v (by omega)
          · rw [h2]
            exact upd_other st.assignment m _ v (by omega)
        · intro v hv1 hv2
          by_cases hvm : v = m
          · subst hvm
            have h1 : st'.rep v =
                upd st.rep v (findRepFuel ptr (ptr v) (ptr v)) v :=
              (hfr3 v (by omega)).1
            have h2 : st'.assignment v = upd st.assignment v SAT_sentinel v :=
              (hfr3 v (by omega)).2
            rw [h1, h2, upd_same, upd_same]
            exact ⟨rfl, rfl⟩
          · exact hvars3 v (by omega) (by omega)

/-- After watch-list construction and component initialization, the global
soundness invariant holds with no component processed yet. -/
theorem bigInv_init (nvars maxn : Nat) (lits nlits ptr : Nat → Nat)
    (asg0 dh0 dstate0 rep0 : Nat → Nat) (FU fuel : Nat)
    (w nc : Nat → Nat) (st1 : SState)
    (hWF : WFStore nvars maxn lits nlits)
    (hsetup : setupWatchList nvars maxn lits nlits FU = some (w, nc))
    (hinit : initComponents ptr
      { watch := w
        nextClause := nc
        next := fun _ => SAT_sentinel
        head := fun _ => SAT_sentinel
        assignment := asg0
        dh := dh0
        dstate := dstate0
        rep := rep0
        h := 0, t := 0, d := 0
        unsat := 0
        heap := 0
        failed := false
        maxD := 0, curStart := 0, curN := 0 } 0 nvars fuel = some st1) :
    BigInv nvars maxn lits nlits ptr 0 st1 := by
  have hns : nvars < SAT_sentinel := by
    have h1 := hWF.1
    omega
  have hchains0 : ∀ r : Nat, ∃ fu,
      chain (fun _ => SAT_sentinel) SAT_sentinel fu =
        some (compList ptr w r 0) := by
    intro r
    exact ⟨1, by simp [chain, compList]⟩
  have hfresh0 : ∀ x : Nat, 0 ≤ x → SAT_sentinel = SAT_sentinel :=
    fun x _ => rfl
  obtain ⟨hc3, hw3, hnc3, _, hvars3, hu3⟩ := initComponents_inv nvars ptr hns
    nvars 0 _ fuel st1 hinit (by omega) hchains0 hfresh0
  intro _
  refine ⟨?_, ?_, ?_, ?_, ?_⟩
  · refine ⟨fun l => (allFirstPositions maxn lits nlits 0 nvars).filter
      (fun c => lits c == l), ?_⟩
    rw [hw3, hnc3]
    exact setup_watchInv nvars maxn lits nlits FU w nc hWF hsetup
  · intro v hv
    exact (hvars3 v (Nat.zero_le v) (by omega)).1
  · intro v hv _
    exact (hvars3 v (Nat.zero_le v) (by omega)).2
  · intro r _ hr
    obtain ⟨fu, hch⟩ := hc3 r
    rw [Nat.zero_add] at hch
    refine ⟨compList ptr w r nvars, ?_, ?_, ?_⟩
    · exact chain_to_isChain st1.next fu (st1.head r) _ hch
    · intro v hv
      have hm := (compList_mem ptr w r nvars v).mp hv
      exact ⟨hm.1, hm.2.1⟩
    · intro v hv1 hv2
      rw [hw3]
      constructor
      · intro hwv
        exact (compList_mem ptr w r nvars v).mpr
          ⟨hv1, hv2, (wflag_iff w v).mpr hwv⟩
      · intro hmem
        exact (wflag_iff w v).mp ((compList_mem ptr w r nvars v).mp hmem).2.2
  · intro c _ habs
    exact absurd habs (Nat.not_lt_zero _)

/-- C1: soundness of the solve — for every well-formed Clause Store and
consistent component labelling on which `gpu::solve_sat` completes with
`unsat_count == 0`, the returned assignment array satisfies every clause:
each sentinel-terminated clause of the literal array contains at least one
literal whose variable's assignment makes that literal true. -/
theorem C1_theorem (nvars maxn : Nat)
    (lits nlits ptr asg0 dh0 dstate0 rep0 : Nat → Nat)
    (fuel : Nat) (st' : SState)
    (hWF : WFStore nvars maxn lits nlits)
    (hL : WFLabels nvars maxn lits nlits ptr)
    (hrun : gpuSolveSat nvars maxn lits nlits ptr asg0 dh0 dstate0 rep0 fuel
      = some st')
    (hunsat : st'.unsat = 0) :
    ∀ C ∈ allClauses nvars maxn lits nlits, C ≠ [] →
      ∃ l ∈ C, litTrue st'.assignment l = true := by
  unfold gpuSolveSat at hrun
  dsimp only at hrun
  rcases hsw : setupWatchList nvars maxn lits nlits fuel with _ | q
  · rw [hsw] at hrun
    exact Option.noConfusion hrun
  · rcases q with ⟨w, nc⟩
    rw [hsw] at hrun
    dsimp only at hrun
    rcases hic : initComponents ptr
        { watch := w
          nextClause := nc
          next := fun _ => SAT_sentinel
          head := fun _ => SAT_sentinel
          assignment := asg0
          dh := dh0
          dstate := dstate0
          rep := rep0
          h := 0, t := 0, d := 0
          unsat := 0
          heap := 0
          failed := false
          maxD := 0, curStart := 0, curN := 0 } 0 nvars fuel with _ | st1
    · rw [hic] at hrun
      exact Option.noConfusion hrun
    · rw [hic] at hrun
      dsimp only at hrun
      have hB1 := bigInv_init nvars maxn lits nlits ptr asg0 dh0 dstate0 rep0
        fuel fuel w nc st1 hWF hsw hic
      have hB2 := solveNodes_sound nvars maxn lits nlits ptr hWF hL nvars 0
        st1 fuel st' (by omega) hrun hB1
      rw [Nat.zero_add] at hB2
      obtain ⟨_, _, _, _, hsat⟩ := hB2 hunsat
      intro C hC hCne
      obtain ⟨c, hcpos, hCat⟩ :=
        allClauses_pos nvars maxn lits nlits hWF C hC hCne
      have hlitc : lits c < 2 * nvars :=
        (allPos_wf nvars maxn lits nlits hWF c hcpos).2.1
      have hrepc : repOf ptr (lits c >>> 1) < nvars :=
        hL.1 (lits c >>> 1) (lit_var_lt (lits c) nvars hlitc)
      obtain ⟨C2, hC2at, hC2sat⟩ := hsat c hcpos hrepc
      have hCC : C2 = C := ClauseAt_det lits c C2 hC2at C hCat
      subst hCC
      unfold clauseSat at hC2sat
      obtain ⟨l, hl, hlt⟩ := List.any_eq_true.mp hC2sat
      exact ⟨l, hl, hlt⟩

/-- Witness for C1: the two-variable store `{x0 ∨ x1, ¬x0}` is well formed
with consistent single-component labels, the solve completes with
`unsat_count = 0`, and the theorem yields satisfaction of every clause by
the returned assignment. -/
theorem C1_witness :
    WFStore 2 5 litsC89 (ofList [5, 0]) ∧
    WFLabels 2 5 litsC89 (ofList [5, 0]) (ofList [0, 0]) ∧
    runC89 = some stC1w ∧
    stC1w.unsat = 0 ∧
    ∀ C ∈ allClauses 2 5 litsC89 (ofList [5, 0]), C ≠ [] →
      ∃ l ∈ C, litTrue stC1w.assignment l = true :=
  ⟨by unfold WFStore; decide, by unfold WFLabels; decide, rfl, by decide,
    C1_theorem 2 5 litsC89 (ofList [5, 0]) (ofList [0, 0]) (ofList [])
      (ofList []) (ofList []) (ofList []) 30 stC1w
      (by unfold WFStore; decide) (by unfold WFLabels; decide)
      rfl (by decide)⟩

end SAT
